import Mathlib

/-!
Verification of the text-normalization scripts
(`normalize_texts/english/normalize-numbers-and-symbols.py` and
`normalize_texts/hindi/normalize-texts.py`).

The Python code is shallowly embedded: dictionaries become lookup
functions returning `Option` (a missing key, i.e. a Python `KeyError`,
is `none`), exceptions propagate as `none`, and every regex pass is
implemented as an explicit character-level scanner that follows the
semantics of the concrete pattern used in the source.
-/

/-! ## Number lexicon (`TextProcessor.units`, `.tens`, `.scales`) -/

/-- `self.units`: words for 0..19; any other key is a `KeyError`. -/
def units : Nat → Option String
  | 0 => some "zero"
  | 1 => some "one"
  | 2 => some "two"
  | 3 => some "three"
  | 4 => some "four"
  | 5 => some "five"
  | 6 => some "six"
  | 7 => some "seven"
  | 8 => some "eight"
  | 9 => some "nine"
  | 10 => some "ten"
  | 11 => some "eleven"
  | 12 => some "twelve"
  | 13 => some "thirteen"
  | 14 => some "fourteen"
  | 15 => some "fifteen"
  | 16 => some "sixteen"
  | 17 => some "seventeen"
  | 18 => some "eighteen"
  | 19 => some "nineteen"
  | _ => none

/-- `self.tens`: words for the tens digits 2..9. -/
def tens : Nat → Option String
  | 2 => some "twenty"
  | 3 => some "thirty"
  | 4 => some "forty"
  | 5 => some "fifty"
  | 6 => some "sixty"
  | 7 => some "seventy"
  | 8 => some "eighty"
  | 9 => some "ninety"
  | _ => none

/-- `_generate_lookup_table`: the 0..99 lookup built at construction;
keys 100 and above are absent (dict access raises `KeyError` = `none`). -/
def numberLookup (n : Nat) : Option String :=
  if n < 20 then units n
  else if n < 100 then
    let td := n / 10
    let od := n % 10
    if od = 0 then tens td
    else
      match tens td, units od with
      | some t, some u => some (t ++ "-" ++ u)
      | _, _ => none
  else none

/-- `self.scales`, in dict insertion order (descending magnitudes). -/
def scales : List (String × Nat) :=
  [("crore", 10000000), ("lakh", 100000), ("thousand", 1000), ("hundred", 100)]

/-- The `for scale, value in self.scales.items()` loop body of
`_process_number`: threads the accumulated `parts` and `remaining`. -/
def scaleFold : List (String × Nat) → List String → Nat → Option (List String × Nat)
  | [], parts, remaining => some (parts, remaining)
  | (name, value) :: rest, parts, remaining =>
    if value ≤ remaining then
      let count := remaining / value
      let rem := remaining % value
      if 0 < count then
        match numberLookup count with
        | some w => scaleFold rest (parts ++ [w ++ " " ++ name]) rem
        | none => none
      else scaleFold rest parts rem
    else scaleFold rest parts remaining

/-- `TextProcessor._process_number`: Indian-system cardinal converter.
`_process_smaller_number` is inlined as `numberLookup`. -/
def process_number (num : Nat) : Option String :=
  if num = 0 then units 0
  else
    match scaleFold scales [] num with
    | none => none
    | some (parts, remaining) =>
      if 0 < remaining then
        match numberLookup remaining with
        | some w => some (String.intercalate ", " (parts ++ [w]))
        | none => none
      else some (String.intercalate ", " parts)

/-! ## The decomposition rule as the specification words it (for C4) -/

/-- Total view of the 0..99 lookup (defined value below 100, junk above). -/
def lookup99 (n : Nat) : String := (numberLookup n).getD ""

/-- The cardinal decomposition exactly as the claim words it: scale by
scale in fixed descending order (crore, lakh, thousand, hundred), one
`"<count-in-words> <scale-name>"` segment per nonzero count, leftover
below 100 rendered via the 0..99 lookup, segments comma-joined. -/
def cardinalSpec (n : Nat) : String :=
  if n = 0 then "zero"
  else
    let c := n / 10000000
    let r1 := n % 10000000
    let l := r1 / 100000
    let r2 := r1 % 100000
    let t := r2 / 1000
    let r3 := r2 % 1000
    let h := r3 / 100
    let r4 := r3 % 100
    String.intercalate ", "
      ((if c ≠ 0 then [lookup99 c ++ " crore"] else []) ++
       (if l ≠ 0 then [lookup99 l ++ " lakh"] else []) ++
       (if t ≠ 0 then [lookup99 t ++ " thousand"] else []) ++
       (if h ≠ 0 then [lookup99 h ++ " hundred"] else []) ++
       (if r4 ≠ 0 then [lookup99 r4] else []))

example : process_number 0 = some "zero" := by decide
example : process_number 19 = some "nineteen" := by decide
example : process_number 43 = some "forty-three" := by decide
example : process_number 100 = some "one hundred" := by decide
example : process_number 125000 = some "one lakh, twenty-five thousand" := by decide
example : process_number 1000000000 = none := by decide
example : process_number 10237 = some "ten thousand, two hundred, thirty-seven" := by decide

/-- Below 100 the lookup table is populated. -/
lemma numberLookup_lt_100 (k : Nat) (h : k < 100) :
    numberLookup k = some (lookup99 k) := by
  have hs : (numberLookup k).isSome = true := by
    revert h
    revert k
    decide
  rw [lookup99]
  cases hnl : numberLookup k with
  | none => rw [hnl] at hs; simp at hs
  | some w => simp

lemma if_le_eq_if_div_ne (v r : Nat) (s : List String) (hv : 0 < v) :
    (if v ≤ r then s else []) = (if r / v ≠ 0 then s else []) := by
  by_cases h : v ≤ r
  · rw [if_pos h, if_pos (Nat.div_pos h hv).ne']
  · rw [if_neg h, if_neg]
    simp [Nat.div_eq_of_lt (Nat.lt_of_not_le h)]

lemma scaleFold_cons (name : String) (value : Nat) (parts : List String) (r : Nat)
    (rest : List (String × Nat)) (hv : 0 < value) (hcount : r / value < 100) :
    scaleFold ((name, value) :: rest) parts r =
      scaleFold rest
        (parts ++ (if value ≤ r then [lookup99 (r / value) ++ " " ++ name] else []))
        (r % value) := by
  rw [scaleFold]
  by_cases hle : value ≤ r
  · rw [if_pos hle, if_pos (Nat.div_pos hle hv), numberLookup_lt_100 _ hcount, if_pos hle]
  · rw [if_neg hle, Nat.mod_eq_of_lt (Nat.lt_of_not_le hle), if_neg hle, List.append_nil]

lemma process_number_eq_cardinalSpec (n : Nat) (h : n < 1000000000) :
    process_number n = some (cardinalSpec n) := by
  by_cases h0 : n = 0
  · subst h0; decide
  · rw [process_number, cardinalSpec, if_neg h0, if_neg h0]
    rw [scales,
      scaleFold_cons "crore" 10000000 [] n _ (by norm_num) (by omega),
      scaleFold_cons "lakh" 100000 _ _ _ (by norm_num) (by omega),
      scaleFold_cons "thousand" 1000 _ _ _ (by norm_num) (by omega),
      scaleFold_cons "hundred" 100 _ _ _ (by norm_num) (by omega),
      scaleFold]
    rw [if_le_eq_if_div_ne _ _ _ (by norm_num), if_le_eq_if_div_ne _ _ _ (by norm_num),
      if_le_eq_if_div_ne _ _ _ (by norm_num), if_le_eq_if_div_ne _ _ _ (by norm_num)]
    by_cases hr4 : n % 10000000 % 100000 % 1000 % 100 = 0
    · simp [hr4, List.append_assoc, String.append_assoc]
    · have h1 : 0 < n % 10000000 % 100000 % 1000 % 100 := Nat.pos_of_ne_zero hr4
      simp [h1, hr4,
        numberLookup_lt_100 _ (by omega : n % 10000000 % 100000 % 1000 % 100 < 100),
        List.append_assoc, String.append_assoc]

/-! ## Hindi anusvara normalizer (`normalize_texts/hindi/normalize-texts.py`) -/

/-- Velar class of the first mapping pattern. -/
def velarCls : List Char := ['क', 'ख', 'ग', 'घ']

/-- Palatal class of the second mapping pattern. -/
def palatalCls : List Char := ['च', 'छ', 'ज', 'झ']

/-- Retroflex class of the third mapping pattern. -/
def retroCls : List Char := ['ट', 'ठ', 'ड', 'ढ', 'ण']

/-- Dental class of the fourth mapping pattern. -/
def dentalCls : List Char := ['त', 'थ', 'द', 'ध', 'न']

/-- Labial class of the fifth mapping pattern. -/
def labialCls : List Char := ['प', 'फ', 'ब', 'भ', 'म']

/-- One `re.sub` pass for the pattern anusvara-followed-by-class-member:
the match consumes the anusvara and the consonant, the replacement is
nasal, virama, consonant, and scanning resumes after the match. -/
def subst (cls : List Char) (nasal : Char) : List Char → List Char
  | [] => []
  | [c] => [c]
  | a :: b :: rest =>
    if a = 'ं' ∧ b ∈ cls then nasal :: '्' :: b :: subst cls nasal rest
    else a :: subst cls nasal (b :: rest)

/-- The `mappings` dict of `normalize_text`, in insertion order. -/
def mappings : List (List Char × Char) :=
  [(velarCls, 'ङ'), (palatalCls, 'ञ'), (retroCls, 'ण'), (dentalCls, 'न'), (labialCls, 'म')]

/-- The `for pattern, replacement in mappings.items()` loop. -/
def applyMappings (ms : List (List Char × Char)) (text : List Char) : List Char :=
  ms.foldl (fun t m => subst m.1 m.2 t) text

/-- `normalize_text` from the Hindi script. -/
def normalize_text (s : String) : String := String.mk (applyMappings mappings s.data)

example : normalize_text "कंप, बंब, संभाजी" = "कम्प, बम्ब, सम्भाजी" := by decide

lemma subst_cons_ne (cls : List Char) (n c : Char) (l : List Char) (hc : c ≠ 'ं') :
    subst cls n (c :: l) = c :: subst cls n l := by
  cases l with
  | nil => rfl
  | cons d l' =>
    rw [subst, if_neg]
    intro hand
    exact hc hand.1

lemma subst_cons_anv (cls : List Char) (n : Char) (X : List Char)
    (h : ∀ c, X.head? = some c → c ∉ cls) :
    subst cls n ('ं' :: X) = 'ं' :: subst cls n X := by
  cases X with
  | nil => rfl
  | cons x xs =>
    rw [subst, if_neg]
    intro hand
    exact h x rfl hand.2

lemma subst_head? (cls : List Char) (n : Char) (b : Char) (l : List Char) :
    (subst cls n (b :: l)).head? = some b ∨ (subst cls n (b :: l)).head? = some n := by
  cases l with
  | nil => left; rfl
  | cons c l' =>
    rw [subst]
    by_cases hc : b = 'ं' ∧ c ∈ cls
    · right; rw [if_pos hc]; rfl
    · left; rw [if_neg hc]; rfl

/-- Two anusvara substitution passes with disjoint classes commute,
provided neither nasal belongs to the other class and no class contains
the anusvara itself. -/
lemma subst_comm (cls1 cls2 : List Char) (n1 n2 : Char)
    (ha1 : 'ं' ∉ cls1) (ha2 : 'ं' ∉ cls2)
    (hn1 : n1 ≠ 'ं') (hn2 : n2 ≠ 'ं')
    (hd : ∀ c ∈ cls1, c ∉ cls2)
    (hx1 : n1 ∉ cls2) (hx2 : n2 ∉ cls1) :
    ∀ t, subst cls1 n1 (subst cls2 n2 t) = subst cls2 n2 (subst cls1 n1 t) := by
  have key : ∀ k t, t.length ≤ k →
      subst cls1 n1 (subst cls2 n2 t) = subst cls2 n2 (subst cls1 n1 t) := by
    intro k
    induction k with
    | zero =>
      intro t ht
      have : t = [] := List.length_eq_zero.mp (Nat.le_zero.mp ht)
      subst this; rfl
    | succ k ih =>
      intro t ht
      match t with
      | [] => rfl
      | [c] => rfl
      | a :: b :: rest =>
        by_cases hA : a = 'ं' ∧ b ∈ cls1
        · -- the first substitution fires here; the second cannot
          have hb2 : b ∉ cls2 := hd b hA.2
          have hbne : b ≠ 'ं' := fun h => ha1 (h ▸ hA.2)
          rw [show subst cls1 n1 (a :: b :: rest) =
              n1 :: '्' :: b :: subst cls1 n1 rest by rw [subst, if_pos hA]]
          rw [subst_cons_ne cls2 n2 n1 _ hn1,
            subst_cons_ne cls2 n2 '्' _ (by decide),
            subst_cons_ne cls2 n2 b _ hbne]
          rw [hA.1, subst_cons_anv cls2 n2 (b :: rest)
              (by intro c hc; rw [List.head?_cons, Option.some_inj] at hc; exact hc ▸ hb2),
            subst_cons_ne cls2 n2 b rest hbne]
          rw [show subst cls1 n1 ('ं' :: b :: subst cls2 n2 rest) =
              n1 :: '्' :: b :: subst cls1 n1 (subst cls2 n2 rest) by
            rw [subst, if_pos ⟨rfl, hA.2⟩]]
          have := ih rest (by simpa using Nat.le_of_succ_le_succ (Nat.le_of_succ_le ht))
          rw [this]
        · by_cases hB : a = 'ं' ∧ b ∈ cls2
          · -- symmetric: the second substitution fires here
            have hb1 : b ∉ cls1 := fun h => hd b h hB.2
            have hbne : b ≠ 'ं' := fun h => ha2 (h ▸ hB.2)
            rw [show subst cls2 n2 (a :: b :: rest) =
                n2 :: '्' :: b :: subst cls2 n2 rest by rw [subst, if_pos hB]]
            rw [subst_cons_ne cls1 n1 n2 _ hn2,
              subst_cons_ne cls1 n1 '्' _ (by decide),
              subst_cons_ne cls1 n1 b _ hbne]
            rw [hB.1, subst_cons_anv cls1 n1 (b :: rest)
                (by intro c hc; rw [List.head?_cons, Option.some_inj] at hc; exact hc ▸ hb1),
              subst_cons_ne cls1 n1 b rest hbne]
            rw [show subst cls2 n2 ('ं' :: b :: subst cls1 n1 rest) =
                n2 :: '्' :: b :: subst cls2 n2 (subst cls1 n1 rest) by
              rw [subst, if_pos ⟨rfl, hB.2⟩]]
            have := ih rest (by simpa using Nat.le_of_succ_le_succ (Nat.le_of_succ_le ht))
            rw [this]
          · -- neither fires at this position
            have hs1 : subst cls1 n1 (a :: b :: rest) = a :: subst cls1 n1 (b :: rest) := by
              rw [subst, if_neg hA]
            have hs2 : subst cls2 n2 (a :: b :: rest) = a :: subst cls2 n2 (b :: rest) := by
              rw [subst, if_neg hB]
            have hcons : ∀ (cls : List Char) (n : Char) (other : List Char) (no : Char)
                (hno : no ∉ cls) (hob : a = 'ं' → b ∉ cls),
                subst cls n (a :: subst other no (b :: rest)) =
                  a :: subst cls n (subst other no (b :: rest)) := by
              intro cls n other no hno hob
              by_cases haa : a = 'ं'
              · subst haa
                refine subst_cons_anv cls n _ ?_
                intro c hc
                rcases subst_head? other no b rest with hh | hh
                · rw [hh, Option.some_inj] at hc; exact hc ▸ hob rfl
                · rw [hh, Option.some_inj] at hc; exact hc ▸ hno
              · exact subst_cons_ne cls n a _ haa
            rw [hs1, hs2]
            rw [hcons cls2 n2 cls1 n1 hx1 (fun ha hb => hB ⟨ha, hb⟩),
              hcons cls1 n1 cls2 n2 hx2 (fun ha hb => hA ⟨ha, hb⟩)]
            have := ih (b :: rest) (Nat.le_of_succ_le_succ ht)
            rw [this]
  intro t
  exact key t.length t le_rfl

/-- Any two of the five implemented rules commute (for identical rules
this is trivial; distinct rules satisfy the disjointness conditions). -/
lemma mappings_comm : ∀ m1 ∈ mappings, ∀ m2 ∈ mappings, ∀ t : List Char,
    subst m1.1 m1.2 (subst m2.1 m2.2 t) = subst m2.1 m2.2 (subst m1.1 m1.2 t) := by
  intro m1 hm1 m2 hm2 t
  fin_cases hm1 <;> fin_cases hm2 <;>
    first
      | rfl
      | exact subst_comm _ _ _ _ (by decide) (by decide) (by decide) (by decide)
          (by decide) (by decide) (by decide) t

/-- Applying the five rules in any permuted order gives the same result
as the implemented order. -/
lemma applyMappings_perm (order : List (List Char × Char))
    (hp : order.Perm mappings) (t : List Char) :
    applyMappings order t = applyMappings mappings t := by
  unfold applyMappings
  refine hp.foldl_eq' ?_ t
  intro x hx y hy z
  exact mappings_comm y (hp.subset hy) x (hp.subset hx) z

/-! ## English pipeline: tables and primitive parsers -/

/-- The whitespace class used by the patterns and by Python `str.split` /
`str.strip` (ASCII whitespace). -/
def isPySpace (c : Char) : Bool :=
  c = ' ' || c = '\t' || c = '\n' || c = '\r' || c = Char.ofNat 11 || c = Char.ofNat 12

/-- Value of a digit string. -/
def natOfDigits (cs : List Char) : Nat := cs.foldl (fun a c => a * 10 + (c.toNat - 48)) 0

/-- Python `int(s)` on the strings reachable in this program: succeeds on
a nonempty all-digit string, raises `ValueError` (`none`) otherwise. -/
def pyInt (cs : List Char) : Option Nat :=
  if cs ≠ [] ∧ cs.all Char.isDigit then some (natOfDigits cs) else none

/-- `self.currency_symbols`, in dict insertion order. -/
def currency_symbols : List (String × String) :=
  [("Rs", "Rupees"), ("₹", "Rupees"), ("$", "Dollars"), ("€", "Euros"), ("£", "Pounds")]

/-- `self.symbols`, in dict insertion order. -/
def symbols : List (Char × String) :=
  [('%', "percent"), ('@', "at"), ('&', "and"), ('+', "plus"), ('=', "equals"),
   ('/', "per"), ('#', "number"), ('*', "asterisk"), ('°', "degrees"),
   ('§', "section"), ('¶', "paragraph"), ('©', "copyright"), ('®', "registered"),
   ('™', "trademark")]

/-- `self.letter_prefixes`, in dict insertion order. -/
def letter_prefixes : List (String × String) :=
  [("Q", "Quarter"), ("P", "Phase"), ("V", "Version"), ("Ch", "Chapter"),
   ("Fig", "Figure"), ("Sec", "Section"), ("App", "Appendix"), ("Vol", "Volume"),
   ("Pg", "Page"), ("Rev", "Revision"), ("ID", "ID"), ("No", "Number"),
   ("Ref", "Reference"), ("Table", "Table"), ("Type", "Type"), ("Level", "Level"),
   ("Grade", "Grade"), ("Stage", "Stage"), ("Step", "Step"), ("Part", "Part")]

/-- Python `dict.get(key, default)` for the string tables (exact-key,
case-sensitive lookup). -/
def dictGet (tbl : List (String × String)) (key dflt : String) : String :=
  match tbl.find? (fun p => p.1 = key) with
  | some p => p.2
  | none => dflt

/-- `' '.join(self.units[int(d)] for d in decimal_part)`: word of each
digit; a non-digit character is a `ValueError` from `int(d)`. -/
def digitWords : List Char → Option (List String)
  | [] => some []
  | c :: r =>
    if c.isDigit then
      (units (c.toNat - 48)).bind (fun w => (digitWords r).map (fun ws => w :: ws))
    else none

/-- `TextProcessor._handle_decimal`: split on the dot; a split that does
not yield exactly two parts, a non-numeric integer part, or a non-digit
in the fractional part is a `ValueError` caught by the handler, which
falls back to `int(num_str)` (itself raising on a malformed string); a
`KeyError` from `_process_number` escapes uncaught. -/
def handle_decimal (s : List Char) : Option String :=
  let fb : Option String :=
    match pyInt s with
    | some n => process_number n
    | none => none
  match s.splitOn '.' with
  | [ip, dp] =>
    match pyInt ip with
    | none => fb
    | some n =>
      match process_number n with
      | none => none
      | some iw =>
        match digitWords dp with
        | none => fb
        | some ws => some (iw ++ " point " ++ String.intercalate " " ws)
  | _ => fb

/-- `TextProcessor._process_year_range` applied to the two captured
groups (4-digit full year, 2-digit short year). -/
def process_year_range (fy sy : List Char) : Option String :=
  let decade := fy.drop 2
  match pyInt decade, pyInt sy with
  | some d, some s2 =>
    match numberLookup d, numberLookup s2 with
    | some w1, some w2 => some ("twenty " ++ w1 ++ "-" ++ "twenty " ++ w2)
    | _, _ => none
  | _, _ => none

/-! ## Letter-number pass (`_process_letter_number_combination`) -/

/-- Case-insensitive literal match (the prefix alternation runs under
`re.IGNORECASE`); returns the matched original characters and the rest. -/
def matchCI : List Char → List Char → Option (List Char × List Char)
  | [], cs => some ([], cs)
  | _ :: _, [] => none
  | p :: ps, c :: cs =>
    if c.toLower = p.toLower then
      match matchCI ps cs with
      | some (m, r) => some (c :: m, r)
      | none => none
    else none

/-- `[A-Z]` under `re.IGNORECASE` matches any ASCII letter. -/
def isAsciiLetter (c : Char) : Bool :=
  (65 ≤ c.toNat && c.toNat ≤ 90) || (97 ≤ c.toNat && c.toNat ≤ 122)

/-- Greedy third group of the letter-number pattern (optional dot and
following digits). -/
def grabDec (r2 : List Char) : List Char × List Char :=
  match r2 with
  | '.' :: r => ('.' :: r.takeWhile Char.isDigit, r.dropWhile Char.isDigit)
  | _ => ([], r2)

/-- One alternative of the letter-number pattern, anchored here: the
given prefix (case-insensitively), then one or more digits, then the
optional decimal tail. -/
def tryAltP (p : List Char) (cs : List Char) :
    Option (List Char × List Char × List Char × List Char) :=
  match matchCI p cs with
  | none => none
  | some (g1, r1) =>
    let g2 := r1.takeWhile Char.isDigit
    let r2 := r1.dropWhile Char.isDigit
    if g2 = [] then none
    else
      let (g3, r3) := grabDec r2
      some (g1, g2, g3, r3)

/-- The keys of the prefix alternation, in pattern order. -/
def prefixKeys : List (List Char) := letter_prefixes.map (fun p => p.1.data)

/-- The full alternation of the letter-number pattern at one position:
the twenty table keys take priority, then the bare letter wildcard. -/
def tryLetterNum (cs : List Char) :
    Option (List Char × List Char × List Char × List Char) :=
  match prefixKeys.findSome? (fun p => tryAltP p cs) with
  | some r => some r
  | none =>
    match cs with
    | c :: r1 =>
      if isAsciiLetter c then
        let g2 := r1.takeWhile Char.isDigit
        let r2 := r1.dropWhile Char.isDigit
        if g2 = [] then none
        else
          let (g3, r3) := grabDec r2
          some ([c], g2, g3, r3)
      else none
    | [] => none

/-- The `replace_match` callback: expand the prefix via the table with
the literal matched text as default, render the number (decimal when the
third group is nonempty). -/
def letterRepl (g1 g2 g3 : List Char) : Option (List Char) :=
  let fp := dictGet letter_prefixes (String.mk g1) (String.mk g1)
  let nw : Option String :=
    if g3 ≠ [] then handle_decimal (g2 ++ g3)
    else
      match pyInt g2 with
      | some n => process_number n
      | none => none
  match nw with
  | some w => some (fp.data ++ ' ' :: w.data)
  | none => none

/-- The `re.sub` scan of the letter-number pass (fuel decreases once per
examined position or match). -/
def letterGo : Nat → List Char → Option (List Char)
  | 0, _ => none
  | _ + 1, [] => some []
  | fuel + 1, c :: rest =>
    match tryLetterNum (c :: rest) with
    | some (g1, g2, g3, after) =>
      match letterRepl g1 g2 g3, letterGo fuel after with
      | some repl, some tail => some (repl ++ tail)
      | _, _ => none
    | none =>
      match letterGo fuel rest with
      | some tail => some (c :: tail)
      | none => none

/-- `TextProcessor._process_letter_number_combination`. -/
def process_letter_number_combination (cs : List Char) : Option (List Char) :=
  letterGo (cs.length + 1) cs

/-- The greedy numeral fragment of the patterns: a digit run followed by
an optional dot-plus-digit-run; returns the matched fragment and the
rest. -/
def numGroup (cs : List Char) : List Char × List Char :=
  let d1 := cs.takeWhile Char.isDigit
  let r1 := cs.dropWhile Char.isDigit
  match r1 with
  | '.' :: r' =>
    let d2 := r'.takeWhile Char.isDigit
    if d2 = [] then (d1, r1) else (d1 ++ '.' :: d2, r'.dropWhile Char.isDigit)
  | _ => (d1, r1)

/-! ## Percentage pass -/

/-- The `re.sub` scan for the pattern digit-run, optional dot-digits,
optional whitespace, percent sign; `rec` is the recursive call
`self.process_text` made by `_handle_percentage`. -/
def pctGo (rec : List Char → Option (List Char)) : Nat → List Char → Option (List Char)
  | 0, _ => none
  | _ + 1, [] => some []
  | fuel + 1, c :: rest =>
    if c.isDigit then
      let gr := numGroup (c :: rest)
      match gr.2.dropWhile isPySpace with
      | x :: r4 =>
        if x = '%' then
          match rec gr.1, pctGo rec fuel r4 with
          | some w, some tail => some (w ++ ' ' :: "percent".data ++ tail)
          | _, _ => none
        else
          match pctGo rec fuel rest with
          | some tail => some (c :: tail)
          | none => none
      | [] =>
        match pctGo rec fuel rest with
        | some tail => some (c :: tail)
        | none => none
    else
      match pctGo rec fuel rest with
      | some tail => some (c :: tail)
      | none => none

/-! ## Generic symbol pass -/

/-- `str.replace` of one single-character symbol by a space-padded word. -/
def replaceChar (sym : Char) (word : String) (cs : List Char) : List Char :=
  cs.foldr (fun c acc => (if c = sym then ' ' :: word.data ++ [' '] else [c]) ++ acc) []

/-- The symbol loop of `process_text` (dict order, skipping the percent
sign). -/
def symbolPass (cs : List Char) : List Char :=
  symbols.foldl (fun t p => if p.1 = '%' then t else replaceChar p.1 p.2 t) cs

/-! ## Numeral-span pass -/

/-- The currency alternation keys, in pattern order. -/
def curSyms : List (List Char) := currency_symbols.map (fun p => p.1.data)

/-- Case-sensitive literal match; returns the rest on success. -/
def matchLit : List Char → List Char → Option (List Char)
  | [], cs => some cs
  | _ :: _, [] => none
  | p :: ps, c :: cs => if c = p then matchLit ps cs else none

/-- First top-level alternative: currency symbol, optional whitespace,
digits, optional dot-digits; yields the full match and the rest. -/
def tryCurrencyAlt (cs : List Char) : Option (List Char × List Char) :=
  curSyms.findSome? (fun sym =>
    match matchLit sym cs with
    | none => none
    | some r0 =>
      let sp := r0.takeWhile isPySpace
      let r1 := r0.dropWhile isPySpace
      if r1.takeWhile Char.isDigit = [] then none
      else some (sym ++ sp ++ (numGroup r1).1, (numGroup r1).2))

/-- The era-suffix alternation, in pattern order. -/
def eraStrs : List (List Char) := ["AD".data, "BC".data, "CE".data, "BCE".data]

/-- Second top-level alternative: digits, optional dot-digits, then an
optional whitespace-plus-era group. -/
def tryNumAlt (cs : List Char) : Option (List Char × List Char) :=
  match cs with
  | [] => none
  | c :: _ =>
    if c.isDigit then
      let gr := numGroup cs
      let sp := gr.2.takeWhile isPySpace
      let r3 := gr.2.dropWhile isPySpace
      match eraStrs.findSome? (fun e =>
          match matchLit e r3 with
          | some r4 => some (e, r4)
          | none => none) with
      | some er => some (gr.1 ++ sp ++ er.1, er.2)
      | none => some (gr.1, gr.2)
    else none

/-- Third top-level alternative: four digits, hyphen, two digits. -/
def tryYearAlt (cs : List Char) : Option (List Char × List Char) :=
  match cs with
  | a :: b :: c :: d :: '-' :: e :: f :: rest =>
    if a.isDigit && b.isDigit && c.isDigit && d.isDigit && e.isDigit && f.isDigit then
      some ([a, b, c, d, '-', e, f], rest)
    else none
  | _ => none

/-- The `re.sub` of the year-range pattern inside `process_match`. -/
def yearGo : Nat → List Char → Option (List Char)
  | 0, _ => none
  | _ + 1, [] => some []
  | fuel + 1, x :: rest =>
    match tryYearAlt (x :: rest) with
    | some (m, after) =>
      match m with
      | a :: b :: c :: d :: _ :: e :: f :: _ =>
        match process_year_range [a, b, c, d] [e, f], yearGo fuel after with
        | some w, some tail => some (w.data ++ tail)
        | _, _ => none
      | _ => none
    | none =>
      match yearGo fuel rest with
      | some tail => some (x :: tail)
      | none => none

/-- The `re.search` of the year-range pattern inside `process_match`. -/
def yearSearch : List Char → Bool
  | [] => false
  | x :: rest => (tryYearAlt (x :: rest)).isSome || yearSearch rest

/-- The anchored `re.match` of the currency pattern inside
`process_match`: captured groups (symbol, amount). -/
def curMatchGroups (cs : List Char) : Option (List Char × List Char) :=
  curSyms.findSome? (fun sym =>
    match matchLit sym cs with
    | none => none
    | some r0 =>
      let r1 := r0.dropWhile isPySpace
      if r1.takeWhile Char.isDigit = [] then none
      else some (sym, (numGroup r1).1))

/-- The anchored `re.match` of the number pattern inside `process_match`:
captured groups (numeral, era suffix or empty). -/
def numMatchGroups (cs : List Char) : Option (List Char × List Char) :=
  match cs with
  | [] => none
  | c :: _ =>
    if c.isDigit then
      let gr := numGroup cs
      let r3 := gr.2.dropWhile isPySpace
      match eraStrs.findSome? (fun e =>
          match matchLit e r3 with
          | some _ => some e
          | none => none) with
      | some e => some (gr.1, e)
      | none => some (gr.1, [])
    else none

/-- Python `str.strip()`. -/
def pyStrip (cs : List Char) : List Char :=
  ((cs.dropWhile isPySpace).reverse.dropWhile isPySpace).reverse

/-- `TextProcessor._handle_currency`: table name (default the raw
symbol), recursive `process_text` on the amount. -/
def handle_currency (rec : List Char → Option (List Char))
    (amount symbol : List Char) : Option (List Char) :=
  let name := dictGet currency_symbols (String.mk symbol) (String.mk symbol)
  match rec amount with
  | some w => some (name.data ++ ' ' :: w)
  | none => none

/-- The `process_match` callback of the numeral-span pass. -/
def process_match (rec : List Char → Option (List Char)) (full : List Char) :
    Option (List Char) :=
  if yearSearch full then yearGo (full.length + 1) full
  else
    match curMatchGroups full with
    | some gp => handle_currency rec gp.2 gp.1
    | none =>
      match numMatchGroups full with
      | some gp =>
        if '.' ∈ gp.1 then
          match handle_decimal gp.1 with
          | some w => some (pyStrip (w.data ++ ' ' :: gp.2))
          | none => none
        else
          match pyInt gp.1 with
          | some n =>
            match process_number n with
            | some w => some (pyStrip (w.data ++ ' ' :: gp.2))
            | none => none
          | none => none
      | none => some full

/-- The `re.sub` scan of the numeral-span pass, alternatives tried in
pattern order at each position. -/
def spanGo (rec : List Char → Option (List Char)) : Nat → List Char → Option (List Char)
  | 0, _ => none
  | _ + 1, [] => some []
  | fuel + 1, c :: rest =>
    match tryCurrencyAlt (c :: rest) with
    | some fa =>
      match process_match rec fa.1, spanGo rec fuel fa.2 with
      | some r, some tail => some (r ++ tail)
      | _, _ => none
    | none =>
      match tryNumAlt (c :: rest) with
      | some fa =>
        match process_match rec fa.1, spanGo rec fuel fa.2 with
        | some r, some tail => some (r ++ tail)
        | _, _ => none
      | none =>
        match tryYearAlt (c :: rest) with
        | some fa =>
          match process_match rec fa.1, spanGo rec fuel fa.2 with
          | some r, some tail => some (r ++ tail)
          | _, _ => none
        | none =>
          match spanGo rec fuel rest with
          | some tail => some (c :: tail)
          | none => none

/-! ## Whitespace collapse and the pipeline -/

/-- Python `str.split()` with no argument: maximal runs of non-whitespace. -/
def pySplitAux : List Char → List Char → List (List Char)
  | [], acc => if acc = [] then [] else [acc.reverse]
  | c :: rest, acc =>
    if isPySpace c then
      if acc = [] then pySplitAux rest [] else acc.reverse :: pySplitAux rest []
    else pySplitAux rest (c :: acc)

/-- Python `text.split()`. -/
def pySplit (cs : List Char) : List (List Char) := pySplitAux cs []

/-- `' '.join(text.split())`. -/
def collapse (cs : List Char) : List Char := List.intercalate [' '] (pySplit cs)

/-- The body of `TextProcessor.process_text`: the four passes in source
order, then the whitespace collapse; `rec` is the recursive
`self.process_text` used by the percentage and currency handlers. -/
def processBody (rec : List Char → Option (List Char)) (text : List Char) :
    Option (List Char) :=
  match process_letter_number_combination text with
  | none => none
  | some t1 =>
    match pctGo rec (t1.length + 1) t1 with
    | none => none
    | some t2 =>
      let t3 := symbolPass t2
      match spanGo rec (t3.length + 1) t3 with
      | none => none
      | some t4 => some (collapse t4)

/-- `TextProcessor.process_text` with explicit recursion depth: the
handlers that re-enter `process_text` receive the next-smaller depth. -/
def processTextF : Nat → List Char → Option (List Char)
  | 0, _ => none
  | fuel + 1, text => processBody (processTextF fuel) text

/-- `TextProcessor.process_text`; recursion depth 2 covers every call,
because the handlers only recurse on bare numeral strings (see the
depth-indifference theorem for claim C9). -/
def process_text (s : String) : Option String :=
  (processTextF 2 s.data).map String.mk

/-! ## Character-class and counting basics -/

/-- Digit characters counted in a string (budget for the 0..99 lookups). -/
def countD (cs : List Char) : Nat := cs.countP (fun c => c.isDigit)

lemma digit_toNat_bounds (c : Char) (h : c.isDigit = true) :
    48 ≤ c.toNat ∧ c.toNat ≤ 57 := by
  simp [Char.isDigit] at h
  exact h

lemma units_digit_isSome (c : Char) (h : c.isDigit = true) :
    (units (c.toNat - 48)).isSome = true := by
  obtain ⟨h1, h2⟩ := digit_toNat_bounds c h
  have h9 : c.toNat - 48 ≤ 9 := by omega
  set k := c.toNat - 48 with hk
  interval_cases k <;> simp [units]

lemma natOfDigits_aux_lt (ds : List Char) :
    ∀ acc : Nat, (∀ c ∈ ds, c.isDigit = true) →
      List.foldl (fun a c => a * 10 + (c.toNat - 48)) acc ds < (acc + 1) * 10 ^ ds.length := by
  induction ds with
  | nil => intro acc _; simp only [List.foldl_nil, List.length_nil, pow_zero, mul_one]; exact Nat.lt_succ_self acc
  | cons c ds ih =>
    intro acc hall
    have hd : c.toNat - 48 ≤ 9 := by
      have := digit_toNat_bounds c (hall c (by simp))
      omega
    have h1 := ih (acc * 10 + (c.toNat - 48)) (fun x hx => hall x (by simp [hx]))
    have h2 : (acc * 10 + (c.toNat - 48) + 1) * 10 ^ ds.length ≤
        (acc + 1) * 10 ^ (ds.length + 1) := by
      rw [pow_succ]
      calc (acc * 10 + (c.toNat - 48) + 1) * 10 ^ ds.length
          ≤ ((acc + 1) * 10) * 10 ^ ds.length :=
            Nat.mul_le_mul_right _ (by omega)
        _ = (acc + 1) * (10 ^ ds.length * 10) := by ring
    simp only [List.foldl_cons, List.length_cons]
    exact Nat.lt_of_lt_of_le h1 h2

lemma natOfDigits_lt_pow (ds : List Char) (h : ∀ c ∈ ds, c.isDigit = true) :
    natOfDigits ds < 10 ^ ds.length := by
  have := natOfDigits_aux_lt ds 0 h
  simpa [natOfDigits] using this

lemma natOfDigits_lt_billion (ds : List Char) (h : ∀ c ∈ ds, c.isDigit = true)
    (h9 : ds.length ≤ 9) : natOfDigits ds < 1000000000 := by
  calc natOfDigits ds < 10 ^ ds.length := natOfDigits_lt_pow ds h
    _ ≤ 10 ^ 9 := Nat.pow_le_pow_right (by norm_num) h9
    _ = 1000000000 := by norm_num

lemma letter_not_digit (c : Char) (h : isAsciiLetter c = true) : c.isDigit = false := by
  cases hd : c.isDigit with
  | false => rfl
  | true =>
    exfalso
    obtain ⟨h1, h2⟩ := digit_toNat_bounds c hd
    simp only [isAsciiLetter, Bool.or_eq_true, Bool.and_eq_true, decide_eq_true_eq] at h
    omega

lemma char_toLower_of_not_upper (c : Char) (h : ¬(65 ≤ c.toNat ∧ c.toNat ≤ 90)) :
    c.toLower = c := by
  rw [Char.toLower, if_neg]
  simpa [Char.toNat] using h

/-- A character matching a lowercase-range pattern character under the
case-insensitive comparison is an ASCII letter. -/
lemma ci_char_is_letter (c pc : Char)
    (hp : 97 ≤ pc.toLower.toNat ∧ pc.toLower.toNat ≤ 122)
    (h : c.toLower = pc.toLower) : isAsciiLetter c = true := by
  by_cases hc : 65 ≤ c.toNat ∧ c.toNat ≤ 90
  · simp [isAsciiLetter]
    omega
  · rw [char_toLower_of_not_upper c hc] at h
    have : c.toNat = pc.toLower.toNat := by rw [h]
    simp [isAsciiLetter]
    omega

/-! ## Shape lemmas for the pattern matchers -/

lemma matchCI_eq : ∀ (p cs m r : List Char), matchCI p cs = some (m, r) →
    cs = m ++ r ∧ m.length = p.length ∧ ∀ c ∈ m, ∃ pc ∈ p, c.toLower = pc.toLower := by
  intro p
  induction p with
  | nil =>
    intro cs m r h
    rw [matchCI] at h
    simp only [Option.some_inj, Prod.mk.injEq] at h
    obtain ⟨hm, hr⟩ := h
    subst hm; subst hr
    simp
  | cons ph ps ih =>
    intro cs m r h
    cases cs with
    | nil => rw [matchCI] at h; exact absurd h (by simp)
    | cons c cs' =>
      rw [matchCI] at h
      by_cases hc : c.toLower = ph.toLower
      · rw [if_pos hc] at h
        cases hmi : matchCI ps cs' with
        | none => rw [hmi] at h; exact absurd h (by simp)
        | some mr =>
          obtain ⟨m', r'⟩ := mr
          rw [hmi] at h
          simp only [Option.some_inj, Prod.mk.injEq] at h
          obtain ⟨hm, hr⟩ := h
          obtain ⟨he, hl, hch⟩ := ih cs' m' r' hmi
          subst hm; subst hr
          refine ⟨by simp [he], by simp [hl], ?_⟩
          intro x hx
          rcases List.mem_cons.mp hx with h1 | h1
          · exact ⟨ph, by simp, h1 ▸ hc⟩
          · obtain ⟨pc, hpc, hpc2⟩ := hch x h1
            exact ⟨pc, by simp [hpc], hpc2⟩
      · rw [if_neg hc] at h; exact absurd h (by simp)

lemma matchLit_eq : ∀ (p cs r : List Char), matchLit p cs = some r → cs = p ++ r := by
  intro p
  induction p with
  | nil =>
    intro cs r h
    rw [matchLit] at h
    simp only [Option.some_inj] at h
    subst h; simp
  | cons ph ps ih =>
    intro cs r h
    cases cs with
    | nil => rw [matchLit] at h; exact absurd h (by simp)
    | cons c cs' =>
      rw [matchLit] at h
      by_cases hc : c = ph
      · rw [if_pos hc] at h
        have := ih cs' r h
        simp [hc, this]
      · rw [if_neg hc] at h; exact absurd h (by simp)

lemma grabDec_shape (r2 : List Char) :
    (grabDec r2).1 ++ (grabDec r2).2 = r2 ∧
      ((grabDec r2).1 = [] ∨
        ∃ ds, (grabDec r2).1 = '.' :: ds ∧ ∀ c ∈ ds, c.isDigit = true) := by
  unfold grabDec
  split
  · next r =>
    constructor
    · simp [List.takeWhile_append_dropWhile]
    · right
      exact ⟨r.takeWhile Char.isDigit, rfl, fun c hc => List.mem_takeWhile_imp hc⟩
  · exact ⟨rfl, Or.inl rfl⟩

lemma tryAltP_shape (p cs g1 g2 g3 r3 : List Char)
    (h : tryAltP p cs = some (g1, g2, g3, r3)) :
    cs = g1 ++ g2 ++ g3 ++ r3 ∧ g1.length = p.length ∧ g2 ≠ [] ∧
      (∀ c ∈ g2, c.isDigit = true) ∧
      (g3 = [] ∨ ∃ ds, g3 = '.' :: ds ∧ ∀ c ∈ ds, c.isDigit = true) ∧
      (∀ c ∈ g1, ∃ pc ∈ p, c.toLower = pc.toLower) := by
  rw [tryAltP] at h
  cases hm : matchCI p cs with
  | none => rw [hm] at h; exact absurd h (by simp)
  | some mr =>
    obtain ⟨m, r1⟩ := mr
    rw [hm] at h
    simp only at h
    by_cases hg2 : r1.takeWhile Char.isDigit = []
    · rw [if_pos hg2] at h; exact absurd h (by simp)
    · rw [if_neg hg2] at h
      simp only [Option.some_inj, Prod.mk.injEq] at h
      obtain ⟨h1, h2, h3, h4⟩ := h
      obtain ⟨he, hl, hch⟩ := matchCI_eq p cs m r1 hm
      obtain ⟨hgd, hshape⟩ := grabDec_shape (r1.dropWhile Char.isDigit)
      subst h1; subst h2; subst h3; subst h4
      refine ⟨?_, hl, hg2, fun c hc => List.mem_takeWhile_imp hc, hshape, hch⟩
      rw [he, List.append_assoc, List.append_assoc, hgd,
        List.takeWhile_append_dropWhile]

lemma prefixKeys_lower : ∀ pl ∈ prefixKeys, ∀ pc ∈ pl,
    97 ≤ pc.toLower.toNat ∧ pc.toLower.toNat ≤ 122 := by decide

lemma prefixKeys_ne_nil : ∀ pl ∈ prefixKeys, pl ≠ [] := by decide

lemma tryLetterNum_shape (cs g1 g2 g3 r3 : List Char)
    (h : tryLetterNum cs = some (g1, g2, g3, r3)) :
    cs = g1 ++ g2 ++ g3 ++ r3 ∧ g1 ≠ [] ∧ g2 ≠ [] ∧
      (∀ c ∈ g2, c.isDigit = true) ∧
      (g3 = [] ∨ ∃ ds, g3 = '.' :: ds ∧ ∀ c ∈ ds, c.isDigit = true) ∧
      (∀ c ∈ g1, isAsciiLetter c = true) := by
  rw [tryLetterNum.eq_def] at h
  cases hf : prefixKeys.findSome? (fun p => tryAltP p cs) with
  | some r =>
    rw [hf] at h
    simp only [Option.some_inj] at h
    subst h
    obtain ⟨p, hp, htry⟩ := List.exists_of_findSome?_eq_some hf
    obtain ⟨he, hl, hg2, hdig, hsh, hch⟩ := tryAltP_shape p cs g1 g2 g3 r3 htry
    refine ⟨he, ?_, hg2, hdig, hsh, ?_⟩
    · intro hnil
      apply prefixKeys_ne_nil p hp
      have : g1.length = 0 := by rw [hnil]; rfl
      rw [this] at hl
      exact List.length_eq_zero.mp hl.symm
    · intro c hc
      obtain ⟨pc, hpc, hpc2⟩ := hch c hc
      exact ci_char_is_letter c pc (prefixKeys_lower p hp pc hpc) hpc2
  | none =>
    rw [hf] at h
    cases cs with
    | nil => exact absurd h (by simp)
    | cons c r1 =>
      simp only at h
      by_cases hl : isAsciiLetter c = true
      · rw [if_pos hl] at h
        by_cases hg2 : r1.takeWhile Char.isDigit = []
        · rw [if_pos hg2] at h; exact absurd h (by simp)
        · rw [if_neg hg2] at h
          simp only [Option.some_inj, Prod.mk.injEq] at h
          obtain ⟨h1, h2, h3, h4⟩ := h
          obtain ⟨hgd, hshape⟩ := grabDec_shape (r1.dropWhile Char.isDigit)
          subst h1; subst h2; subst h3; subst h4
          refine ⟨?_, by simp, hg2, fun x hx => List.mem_takeWhile_imp hx, hshape, ?_⟩
          · simp only [List.cons_append, List.nil_append, List.cons.injEq, true_and]
            rw [List.append_assoc, hgd, List.takeWhile_append_dropWhile]
          · intro x hx
            simp only [List.mem_singleton] at hx
            exact hx ▸ hl
      · rw [if_neg hl] at h; exact absurd h (by simp)

/-! ## Alphabet of rendered words -/

/-- Characters that can appear in a rendered number word or table
expansion: ASCII letters, space, comma, hyphen. -/
def goodChar (c : Char) : Bool := c.isAlpha || c = ' ' || c = ',' || c = '-'

lemma intercalate_nil_l (sep : List Char) : List.intercalate sep ([] : List (List Char)) = [] := by
  simp [List.intercalate]

lemma intercalate_single (sep a : List Char) : List.intercalate sep [a] = a := by
  simp [List.intercalate]

lemma intercalate_cons_cons (sep a b : List Char) (l : List (List Char)) :
    List.intercalate sep (a :: b :: l) = a ++ sep ++ List.intercalate sep (b :: l) := by
  simp [List.intercalate, List.intersperse_cons_cons]

lemma str_intercalate_go_data (s : String) :
    ∀ (as : List String) (acc : String),
      (String.intercalate.go acc s as).data =
        acc.data ++ (as.map (fun a => s.data ++ a.data)).flatten := by
  intro as
  induction as with
  | nil => intro acc; simp [String.intercalate.go]
  | cons a as ih =>
    intro acc
    rw [String.intercalate.go, ih]
    simp [List.append_assoc]

lemma flatten_sep_eq_intercalate (sep : List Char) :
    ∀ (l : List (List Char)) (a : List Char),
      a ++ (l.map (fun x => sep ++ x)).flatten = List.intercalate sep (a :: l) := by
  intro l
  induction l with
  | nil => intro a; simp [intercalate_single]
  | cons b bs ih =>
    intro a
    rw [List.map_cons, List.flatten_cons, intercalate_cons_cons, ← ih b]
    simp [List.append_assoc]

lemma str_intercalate_data (s : String) (l : List String) :
    (String.intercalate s l).data = List.intercalate s.data (l.map String.data) := by
  cases l with
  | nil => simp [String.intercalate, intercalate_nil_l]
  | cons a as =>
    rw [String.intercalate, str_intercalate_go_data]
    rw [show (as.map (fun a => s.data ++ a.data)) =
        ((as.map String.data).map (fun x => s.data ++ x)) by rw [List.map_map]; rfl]
    rw [flatten_sep_eq_intercalate]
    rfl

lemma numberLookup_none_of_ge (k : Nat) (h : 100 ≤ k) : numberLookup k = none := by
  rw [numberLookup, if_neg (by omega), if_neg (by omega)]

/-- The 0..99 lookup yields nonempty, space-free words over the rendered
alphabet (checked exhaustively). -/
lemma numberLookup_token (k : Nat) (w : String) (h : numberLookup k = some w) :
    w.data ≠ [] ∧ ∀ c ∈ w.data, goodChar c = true ∧ isPySpace c = false := by
  have hk : k < 100 := by
    by_contra hge
    rw [numberLookup_none_of_ge k (by omega)] at h
    exact absurd h (by simp)
  have hchk : ∀ j, j < 100 → (numberLookup j).all
      (fun v => !v.data.isEmpty && v.data.all (fun c => goodChar c && !isPySpace c)) = true := by
    decide
  have hh := hchk k hk
  rw [h] at hh
  simp only [Option.all_some, Bool.and_eq_true, List.all_eq_true, Bool.not_eq_true'] at hh
  obtain ⟨h1, h2⟩ := hh
  constructor
  · intro hnil
    rw [hnil] at h1
    exact absurd h1 (by simp)
  · exact h2

/-! ## Token structure of rendered text and the whitespace collapse -/

/-- Text that is a single-space join of nonempty, space-free tokens
(exactly the fixed points of the whitespace collapse). -/
def SpacedTokens (cs : List Char) : Prop :=
  ∃ ws : List (List Char), ws ≠ [] ∧
    (∀ w ∈ ws, w ≠ [] ∧ ∀ c ∈ w, isPySpace c = false) ∧
    cs = List.intercalate [' '] ws

lemma intercalate_cons_ne (sep a : List Char) (l : List (List Char)) (h : l ≠ []) :
    List.intercalate sep (a :: l) = a ++ sep ++ List.intercalate sep l := by
  cases l with
  | nil => exact absurd rfl h
  | cons b bs => exact intercalate_cons_cons sep a b bs

lemma intercalate_append_ne (sep : List Char) :
    ∀ (l1 l2 : List (List Char)), l1 ≠ [] → l2 ≠ [] →
      List.intercalate sep (l1 ++ l2) =
        List.intercalate sep l1 ++ sep ++ List.intercalate sep l2 := by
  intro l1
  induction l1 with
  | nil => intro l2 h1 _; exact absurd rfl h1
  | cons a l1' ih =>
    intro l2 h1 h2
    cases l1' with
    | nil =>
      rw [List.cons_append, List.nil_append, intercalate_cons_ne sep a l2 h2,
        intercalate_single]
    | cons b l1'' =>
      have hih := ih l2 (by simp) h2
      simp only [List.cons_append] at hih ⊢
      rw [intercalate_cons_cons, intercalate_cons_cons, hih]
      simp [List.append_assoc]

lemma ST_single (cs : List Char) (h1 : cs ≠ []) (h2 : ∀ c ∈ cs, isPySpace c = false) :
    SpacedTokens cs := by
  refine ⟨[cs], by simp, ?_, (intercalate_single _ _).symm⟩
  intro w hw
  rw [List.mem_singleton] at hw
  subst hw
  exact ⟨h1, h2⟩

lemma ST_append_space (a b : List Char) (ha : SpacedTokens a) (hb : SpacedTokens b) :
    SpacedTokens (a ++ ' ' :: b) := by
  obtain ⟨wsa, ha1, ha2, ha3⟩ := ha
  obtain ⟨wsb, hb1, hb2, hb3⟩ := hb
  refine ⟨wsa ++ wsb, by simp [ha1], ?_, ?_⟩
  · intro w hw
    rcases List.mem_append.mp hw with h | h
    · exact ha2 w h
    · exact hb2 w h
  · rw [intercalate_append_ne _ _ _ ha1 hb1, ← ha3, ← hb3]
    simp [List.append_assoc]

lemma intercalate_append_to_last :
    ∀ (ws : List (List Char)) (h : ws ≠ []) (x : List Char),
      List.intercalate [' '] ws ++ x =
        List.intercalate [' '] (ws.dropLast ++ [ws.getLast h ++ x]) := by
  intro ws
  induction ws with
  | nil => intro h; exact absurd rfl h
  | cons a ws' ih =>
    intro _ x
    cases ws' with
    | nil => simp [intercalate_single]
    | cons b ws'' =>
      rw [intercalate_cons_cons]
      have hne : (b :: ws'').dropLast ++ [(b :: ws'').getLast (by simp) ++ x] ≠ [] := by simp
      rw [show (a :: b :: ws'').dropLast = a :: (b :: ws'').dropLast by simp,
        show (a :: b :: ws'').getLast (by simp) = (b :: ws'').getLast (by simp) from
          List.getLast_cons (by simp)]
      rw [List.cons_append, intercalate_cons_ne _ _ _ hne, ← ih (by simp) x]
      simp [List.append_assoc]

lemma ST_append_char (a : List Char) (c : Char) (hc : isPySpace c = false)
    (ha : SpacedTokens a) : SpacedTokens (a ++ [c]) := by
  obtain ⟨ws, h1, h2, h3⟩ := ha
  refine ⟨ws.dropLast ++ [ws.getLast h1 ++ [c]], by simp, ?_, ?_⟩
  · intro w hw
    rcases List.mem_append.mp hw with h | h
    · exact h2 w (List.dropLast_subset ws h)
    · rw [List.mem_singleton] at h
      subst h
      constructor
      · simp
      · intro x hx
        rcases List.mem_append.mp hx with h | h
        · exact (h2 _ (List.getLast_mem h1)).2 x h
        · rw [List.mem_singleton] at h; subst h; exact hc
  · rw [h3, intercalate_append_to_last ws h1 [c]]

lemma ST_append_comma_space (a b : List Char) (ha : SpacedTokens a)
    (hb : SpacedTokens b) : SpacedTokens (a ++ ',' :: ' ' :: b) := by
  have h1 : SpacedTokens (a ++ [',']) := ST_append_char a ',' (by decide) ha
  have h2 := ST_append_space (a ++ [',']) b h1 hb
  rw [List.append_assoc] at h2
  exact h2

lemma pySplitAux_word (w : List Char) (hw : ∀ c ∈ w, isPySpace c = false) :
    ∀ (rest acc : List Char), pySplitAux (w ++ rest) acc = pySplitAux rest (w.reverse ++ acc) := by
  induction w with
  | nil => intro rest acc; simp
  | cons c w' ih =>
    intro rest acc
    have hc : isPySpace c = false := hw c (by simp)
    rw [List.cons_append, pySplitAux, if_neg (by rw [hc]; simp)]
    rw [ih (fun x hx => hw x (by simp [hx])) rest (c :: acc)]
    simp

lemma pySplitAux_space (rest acc : List Char) :
    pySplitAux (' ' :: rest) acc =
      (if acc = [] then [] else [acc.reverse]) ++ pySplitAux rest [] := by
  rw [pySplitAux, if_pos (by decide)]
  by_cases h : acc = []
  · rw [if_pos h, if_pos h, List.nil_append]
  · rw [if_neg h, if_neg h, List.cons_append, List.nil_append]

lemma pySplit_append_space (a b : List Char) :
    pySplit (a ++ ' ' :: b) = pySplit a ++ pySplit b := by
  suffices h : ∀ (a acc : List Char), pySplitAux (a ++ ' ' :: b) acc =
      pySplitAux a acc ++ pySplitAux b [] by
    exact h a []
  intro a
  induction a with
  | nil =>
    intro acc
    rw [List.nil_append, pySplitAux_space, pySplitAux]
  | cons c a' ih =>
    intro acc
    rw [List.cons_append, pySplitAux, pySplitAux]
    by_cases hc : isPySpace c = true
    · rw [if_pos hc, if_pos hc]
      by_cases h : acc = []
      · rw [if_pos h, if_pos h, ih []]
      · rw [if_neg h, if_neg h, ih [], List.cons_append]
    · rw [if_neg hc, if_neg hc, ih (c :: acc)]

lemma pySplit_intercalate (ws : List (List Char))
    (h : ∀ w ∈ ws, w ≠ [] ∧ ∀ c ∈ w, isPySpace c = false) :
    pySplit (List.intercalate [' '] ws) = ws := by
  induction ws with
  | nil => rfl
  | cons w ws' ih =>
    obtain ⟨hw1, hw2⟩ := h w (by simp)
    have hsingle : pySplit w = [w] := by
      have hh := pySplitAux_word w hw2 [] []
      rw [List.append_nil] at hh
      rw [pySplit, hh, pySplitAux, if_neg (by simpa using hw1)]
      simp
    cases ws' with
    | nil =>
      rw [intercalate_single]
      exact hsingle
    | cons v ws'' =>
      rw [intercalate_cons_cons, List.append_assoc, List.singleton_append,
        pySplit_append_space, hsingle, ih (fun x hx => h x (by simp [hx]))]
      rfl

lemma pySplit_tokens (cs : List Char) :
    ∀ w ∈ pySplit cs, w ≠ [] ∧ ∀ c ∈ w, isPySpace c = false := by
  suffices h : ∀ (cs acc : List Char), (∀ c ∈ acc, isPySpace c = false) →
      ∀ w ∈ pySplitAux cs acc, w ≠ [] ∧ ∀ c ∈ w, isPySpace c = false by
    exact h cs [] (by simp)
  intro cs
  induction cs with
  | nil =>
    intro acc hacc w hw
    rw [pySplitAux] at hw
    by_cases h : acc = []
    · rw [if_pos h] at hw; exact absurd hw (by simp)
    · rw [if_neg h] at hw
      rw [List.mem_singleton] at hw
      subst hw
      refine ⟨by simpa using h, ?_⟩
      intro c hc
      exact hacc c (by simpa using hc)
  | cons c cs' ih =>
    intro acc hacc w hw
    rw [pySplitAux] at hw
    by_cases hc : isPySpace c = true
    · rw [if_pos hc] at hw
      by_cases h : acc = []
      · rw [if_pos h] at hw
        exact ih [] (by simp) w hw
      · rw [if_neg h] at hw
        rcases List.mem_cons.mp hw with h1 | h1
        · subst h1
          refine ⟨by simpa using h, ?_⟩
          intro x hx
          exact hacc x (by simpa using hx)
        · exact ih [] (by simp) w h1
    · rw [if_neg hc] at hw
      refine ih (c :: acc) ?_ w hw
      intro x hx
      rcases List.mem_cons.mp hx with h1 | h1
      · subst h1; simpa using hc
      · exact hacc x h1

lemma collapse_idem (cs : List Char) : collapse (collapse cs) = collapse cs := by
  rw [collapse, collapse, pySplit_intercalate (pySplit cs) (pySplit_tokens cs)]

lemma ST_collapse_eq (cs : List Char) (h : SpacedTokens cs) : collapse cs = cs := by
  obtain ⟨ws, _, h2, h3⟩ := h
  rw [collapse, h3, pySplit_intercalate ws h2]

/-! ## Structure of rendered number words -/

/-- A rendered fragment: every character in the rendered alphabet, and
the text a single-space join of nonempty space-free tokens. -/
def Rendered (w : String) : Prop :=
  (∀ c ∈ w.data, goodChar c = true) ∧ SpacedTokens w.data

lemma units_none_of_ge (k : Nat) (h : 20 ≤ k) : units k = none := by
  rcases k with _ | _ | _ | _ | _ | _ | _ | _ | _ | _ | _ | _ | _ | _ | _ | _ | _ | _ | _ | _ | k
  all_goals first
    | omega
    | rfl

lemma units_token (k : Nat) (w : String) (h : units k = some w) :
    w.data ≠ [] ∧ ∀ c ∈ w.data, goodChar c = true ∧ isPySpace c = false := by
  have hk : k < 20 := by
    by_contra hge
    rw [units_none_of_ge k (by omega)] at h
    exact absurd h (by simp)
  have hchk : ∀ j, j < 20 → (units j).all
      (fun v => !v.data.isEmpty && v.data.all (fun c => goodChar c && !isPySpace c)) = true := by
    decide
  have hh := hchk k hk
  rw [h] at hh
  simp only [Option.all_some, Bool.and_eq_true, List.all_eq_true, Bool.not_eq_true'] at hh
  obtain ⟨h1, h2⟩ := hh
  exact ⟨fun hnil => absurd (hnil ▸ h1) (by simp), h2⟩

lemma mem_intercalate (sep : List Char) :
    ∀ (l : List (List Char)) (c : Char), c ∈ List.intercalate sep l →
      c ∈ sep ∨ ∃ w ∈ l, c ∈ w := by
  intro l
  induction l with
  | nil => intro c hc; rw [intercalate_nil_l] at hc; exact absurd hc (by simp)
  | cons a l' ih =>
    intro c hc
    cases l' with
    | nil =>
      rw [intercalate_single] at hc
      exact Or.inr ⟨a, by simp, hc⟩
    | cons b l'' =>
      rw [intercalate_cons_cons] at hc
      rcases List.mem_append.mp hc with h | h
      · rcases List.mem_append.mp h with h1 | h1
        · exact Or.inr ⟨a, by simp, h1⟩
        · exact Or.inl h1
      · rcases ih c h with h1 | ⟨w, hw, hcw⟩
        · exact Or.inl h1
        · exact Or.inr ⟨w, by simp [hw], hcw⟩

lemma ST_intercalate (sep : List Char) (hsep : sep = [' '] ∨ sep = [',', ' ']) :
    ∀ (l : List (List Char)), l ≠ [] → (∀ w ∈ l, SpacedTokens w) →
      SpacedTokens (List.intercalate sep l) := by
  intro l
  induction l with
  | nil => intro h; exact absurd rfl h
  | cons a l' ih =>
    intro _ hall
    cases l' with
    | nil => rw [intercalate_single]; exact hall a (by simp)
    | cons b l'' =>
      rw [intercalate_cons_cons]
      have hrest := ih (by simp) (fun w hw => hall w (by simp [hw]))
      have hA := hall a (by simp)
      rcases hsep with h | h
      · subst h
        rw [List.append_assoc, List.singleton_append]
        exact ST_append_space _ _ hA hrest
      · subst h
        rw [List.append_assoc, show ([',', ' '] : List Char) ++
            List.intercalate [',', ' '] (b :: l'') =
            ',' :: ' ' :: List.intercalate [',', ' '] (b :: l'') from rfl]
        exact ST_append_comma_space _ _ hA hrest

lemma rendered_intercalate (sepstr : String) (hsep : sepstr.data = [' '] ∨ sepstr.data = [',', ' '])
    (parts : List String) (h1 : parts ≠ []) (h2 : ∀ p ∈ parts, Rendered p) :
    Rendered (String.intercalate sepstr parts) := by
  rw [Rendered, str_intercalate_data]
  constructor
  · intro c hc
    rcases mem_intercalate _ _ c hc with h | ⟨w, hw, hcw⟩
    · rcases hsep with hs | hs
      · rw [hs] at h
        simp only [List.mem_singleton] at h
        subst h; decide
      · rw [hs] at h
        simp only [List.mem_cons, List.mem_singleton, List.not_mem_nil, or_false] at h
        rcases h with h | h <;> (subst h; decide)
    · obtain ⟨p, hp, hpd⟩ := List.mem_map.mp hw
      exact (h2 p hp).1 c (hpd ▸ hcw)
  · refine ST_intercalate sepstr.data hsep _ (by simpa using h1) ?_
    intro w hw
    obtain ⟨p, hp, hpd⟩ := List.mem_map.mp hw
    exact hpd ▸ (h2 p hp).2

lemma scaleFold_struct :
    ∀ (sl : List (String × Nat)) (parts : List String) (r : Nat)
      (parts' : List String) (rem : Nat),
      scaleFold sl parts r = some (parts', rem) →
      (∀ pr ∈ sl, 0 < pr.2 ∧ pr.1.data ≠ [] ∧
        ∀ c ∈ pr.1.data, goodChar c = true ∧ isPySpace c = false) →
      (∀ p ∈ parts, Rendered p) →
      (∀ p ∈ parts', Rendered p) ∧ parts.length ≤ parts'.length ∧
        (rem = r ∨ parts.length < parts'.length) := by
  intro sl
  induction sl with
  | nil =>
    intro parts r parts' rem h _ hparts
    rw [scaleFold] at h
    simp only [Option.some_inj, Prod.mk.injEq] at h
    obtain ⟨h1, h2⟩ := h
    subst h1; subst h2
    exact ⟨hparts, le_rfl, Or.inl rfl⟩
  | cons pr rest ih =>
    intro parts r parts' rem h hsl hparts
    obtain ⟨name, value⟩ := pr
    obtain ⟨hv, hnm, hnmc⟩ := hsl (name, value) (by simp)
    rw [scaleFold] at h
    by_cases hle : value ≤ r
    · rw [if_pos hle, if_pos (Nat.div_pos hle hv)] at h
      cases hnl : numberLookup (r / value) with
      | none => rw [hnl] at h; exact absurd h (by simp)
      | some w =>
        rw [hnl] at h
        obtain ⟨hwne, hwc⟩ := numberLookup_token _ _ hnl
        have hnew : Rendered (w ++ " " ++ name) := by
          constructor
          · intro c hc
            simp only [String.data_append] at hc
            rcases List.mem_append.mp hc with h1 | h1
            · rcases List.mem_append.mp h1 with h2 | h2
              · exact (hwc c h2).1
              · have : c = ' ' := by simpa using h2
                subst this; decide
            · exact (hnmc c h1).1
          · have : (w ++ " " ++ name).data = w.data ++ ' ' :: name.data := by
              simp [String.data_append]
            rw [this]
            exact ST_append_space _ _
              (ST_single _ hwne (fun c hc => (hwc c hc).2))
              (ST_single _ hnm (fun c hc => (hnmc c hc).2))
        have hparts2 : ∀ p ∈ parts ++ [w ++ " " ++ name], Rendered p := by
          intro p hp
          rcases List.mem_append.mp hp with h1 | h1
          · exact hparts p h1
          · rw [List.mem_singleton] at h1; subst h1; exact hnew
        obtain ⟨ha, hb, _⟩ := ih _ _ _ _ h (fun x hx => hsl x (by simp [hx])) hparts2
        refine ⟨ha, ?_, Or.inr ?_⟩
        · calc parts.length ≤ (parts ++ [w ++ " " ++ name]).length := by simp
            _ ≤ parts'.length := hb
        · calc parts.length < (parts ++ [w ++ " " ++ name]).length := by simp
            _ ≤ parts'.length := hb
    · rw [if_neg hle] at h
      exact ih _ _ _ _ h (fun x hx => hsl x (by simp [hx])) hparts

lemma scales_facts : ∀ pr ∈ scales, 0 < pr.2 ∧ pr.1.data ≠ [] ∧
    ∀ c ∈ pr.1.data, goodChar c = true ∧ isPySpace c = false := by decide

/-- Output of the cardinal converter: rendered alphabet, clean token
structure. -/
lemma process_number_rendered (n : Nat) (w : String) (h : process_number n = some w) :
    Rendered w := by
  rw [process_number] at h
  by_cases h0 : n = 0
  · rw [if_pos h0] at h
    have : w = "zero" := by
      rw [show units 0 = some "zero" from rfl] at h
      simpa using h.symm
    subst this
    exact ⟨by decide, ST_single _ (by decide) (by decide)⟩
  · rw [if_neg h0] at h
    cases hsf : scaleFold scales [] n with
    | none => rw [hsf] at h; exact absurd h (by simp)
    | some pr =>
      obtain ⟨parts, rem⟩ := pr
      rw [hsf] at h
      simp only [] at h
      obtain ⟨hpr, _, hdisj⟩ := scaleFold_struct scales [] n parts rem hsf
        scales_facts (by simp)
      by_cases hrem : 0 < rem
      · rw [if_pos hrem] at h
        cases hnl : numberLookup rem with
        | none => rw [hnl] at h; exact absurd h (by simp)
        | some w2 =>
          rw [hnl] at h
          simp only [Option.some_inj] at h
          subst h
          obtain ⟨hw2ne, hw2c⟩ := numberLookup_token _ _ hnl
          refine rendered_intercalate ", " (Or.inr rfl) _ (by simp) ?_
          intro p hp
          rcases List.mem_append.mp hp with h1 | h1
          · exact hpr p h1
          · rw [List.mem_singleton] at h1
            subst h1
            exact ⟨fun c hc => (hw2c c hc).1,
              ST_single _ hw2ne (fun c hc => (hw2c c hc).2)⟩
      · rw [if_neg hrem] at h
        simp only [Option.some_inj] at h
        subst h
        have hne : parts ≠ [] := by
          rcases hdisj with h1 | h1
          · exfalso; apply h0; omega
          · intro hx; rw [hx] at h1; simp at h1
        exact rendered_intercalate ", " (Or.inr rfl) _ hne hpr

lemma digitWords_tokens : ∀ (dp : List Char) (ws : List String), digitWords dp = some ws →
    ∀ w ∈ ws, w.data ≠ [] ∧ ∀ c ∈ w.data, goodChar c = true ∧ isPySpace c = false := by
  intro dp
  induction dp with
  | nil =>
    intro ws h w hw
    rw [digitWords] at h
    simp only [Option.some_inj] at h
    subst h
    exact absurd hw (by simp)
  | cons c r ih =>
    intro ws h w hw
    rw [digitWords] at h
    by_cases hc : c.isDigit = true
    · rw [if_pos hc] at h
      cases hu : units (c.toNat - 48) with
      | none => rw [hu] at h; exact absurd h (by simp)
      | some u =>
        cases hr : digitWords r with
        | none => rw [hu, hr] at h; exact absurd h (by simp)
        | some ws' =>
          rw [hu, hr] at h
          simp at h
          subst h
          rcases List.mem_cons.mp hw with h1 | h1
          · subst h1; exact units_token _ _ hu
          · exact ih ws' hr w h1
    · rw [if_neg hc] at h; exact absurd h (by simp)

lemma digitWords_isSome : ∀ (dp : List Char), (∀ c ∈ dp, c.isDigit = true) →
    ∃ ws, digitWords dp = some ws ∧ ws.length = dp.length := by
  intro dp
  induction dp with
  | nil => intro _; exact ⟨[], rfl, rfl⟩
  | cons c r ih =>
    intro h
    obtain ⟨ws', hws', hlen⟩ := ih (fun x hx => h x (by simp [hx]))
    have hc := h c (by simp)
    have hu : (units (c.toNat - 48)).isSome = true := units_digit_isSome c hc
    cases hunits : units (c.toNat - 48) with
    | none => rw [hunits] at hu; exact absurd hu (by simp)
    | some u =>
      refine ⟨u :: ws', ?_, by simp [hlen]⟩
      rw [digitWords, if_pos hc, hunits, hws']
      rfl

lemma handle_decimal_good (s : List Char) (w : String) (h : handle_decimal s = some w) :
    ∀ c ∈ w.data, goodChar c = true := by
  rw [handle_decimal] at h
  have hfb : ∀ (hm : (match pyInt s with
      | some n => process_number n
      | none => none) = some w), ∀ c ∈ w.data, goodChar c = true := by
    intro hm
    cases hp : pyInt s with
    | none => rw [hp] at hm; exact absurd hm (by simp)
    | some n =>
      rw [hp] at hm
      exact (process_number_rendered n w hm).1
  rcases hsp : s.splitOn '.' with _ | ⟨ip, _ | ⟨dp, _ | _⟩⟩ <;> rw [hsp] at h <;>
    simp only [] at h
  · exact hfb h
  · exact hfb h
  · cases hpi : pyInt ip with
    | none => rw [hpi] at h; simp only [] at h; exact hfb h
    | some n =>
      rw [hpi] at h
      simp only [] at h
      cases hpn : process_number n with
      | none => rw [hpn] at h; simp only [] at h; exact absurd h (by simp)
      | some iw =>
        rw [hpn] at h
        simp only [] at h
        cases hdw : digitWords dp with
        | none => rw [hdw] at h; simp only [] at h; exact hfb h
        | some ws =>
          rw [hdw] at h
          simp only [Option.some_inj] at h
          subst h
          intro c hc
          simp only [String.data_append] at hc
          rcases List.mem_append.mp hc with h1 | h1
          · rcases List.mem_append.mp h1 with h2 | h2
            · exact (process_number_rendered n iw hpn).1 c h2
            · fin_cases h2 <;> decide
          · rw [str_intercalate_data] at h1
            rcases mem_intercalate _ _ c h1 with h2 | ⟨v, hv, hcv⟩
            · fin_cases h2; decide
            · obtain ⟨p, hp, hpd⟩ := List.mem_map.mp hv
              exact ((digitWords_tokens dp ws hdw p hp).2 c (hpd ▸ hcv)).1
  · exact hfb h

/-! ## Facts about the numeral fragment parser -/

lemma numGroup_split (cs : List Char) : (numGroup cs).1 ++ (numGroup cs).2 = cs := by
  simp only [numGroup]
  split
  · next r' heq =>
    by_cases hd2 : r'.takeWhile Char.isDigit = []
    · simp only [if_pos hd2]
      exact List.takeWhile_append_dropWhile Char.isDigit cs
    · simp only [if_neg hd2]
      rw [List.append_assoc, List.cons_append,
        List.takeWhile_append_dropWhile Char.isDigit r', ← heq,
        List.takeWhile_append_dropWhile Char.isDigit cs]
  · exact List.takeWhile_append_dropWhile Char.isDigit cs

lemma numGroup_fst_shape (cs : List Char) :
    (numGroup cs).1 = cs.takeWhile Char.isDigit ∨
      ∃ d2, d2 ≠ [] ∧ (∀ c ∈ d2, c.isDigit = true) ∧
        (numGroup cs).1 = cs.takeWhile Char.isDigit ++ '.' :: d2 := by
  simp only [numGroup]
  split
  · next r' heq =>
    by_cases hd2 : r'.takeWhile Char.isDigit = []
    · simp only [if_pos hd2]
      exact Or.inl trivial
    · simp only [if_neg hd2]
      exact Or.inr ⟨r'.takeWhile Char.isDigit, hd2,
        fun c hc => List.mem_takeWhile_imp hc, rfl⟩
  · exact Or.inl rfl

lemma numGroup_fst_numeralish (cs : List Char) :
    ∀ c ∈ (numGroup cs).1, c.isDigit = true ∨ c = '.' := by
  intro c hc
  rcases numGroup_fst_shape cs with h | ⟨d2, _, hd2, h⟩
  · rw [h] at hc
    exact Or.inl (List.mem_takeWhile_imp hc)
  · rw [h] at hc
    rcases List.mem_append.mp hc with h1 | h1
    · exact Or.inl (List.mem_takeWhile_imp h1)
    · rcases List.mem_cons.mp h1 with h2 | h2
      · exact Or.inr h2
      · exact Or.inl (hd2 c h2)

lemma numGroup_fst_ne_nil (c : Char) (rest : List Char) (hc : c.isDigit = true) :
    (numGroup (c :: rest)).1 ≠ [] := by
  rcases numGroup_fst_shape (c :: rest) with h | ⟨d2, _, _, h⟩ <;> rw [h]
  · rw [List.takeWhile_cons_of_pos hc]
    simp
  · rw [List.takeWhile_cons_of_pos hc]
    simp

lemma countD_append (a b : List Char) : countD (a ++ b) = countD a + countD b := by
  simp [countD, List.countP_append]

lemma numGroup_countD (cs : List Char) :
    countD (numGroup cs).1 + countD (numGroup cs).2 = countD cs := by
  rw [← countD_append, numGroup_split]

lemma countD_le_of_sublist (a b : List Char) (h : a.Sublist b) : countD a ≤ countD b :=
  List.Sublist.countP_le _ h

lemma all_digits_countD (a : List Char) (h : ∀ c ∈ a, c.isDigit = true) :
    countD a = a.length := by
  rw [countD, List.countP_eq_length]
  intro c hc
  simpa using h c hc

/-! ## Identity of the passes on inert text -/

lemma tryLetterNum_none_of_nodigit (cs : List Char) (h : ∀ c ∈ cs, c.isDigit = false) :
    tryLetterNum cs = none := by
  cases htl : tryLetterNum cs with
  | none => rfl
  | some r =>
    obtain ⟨g1, g2, g3, r3⟩ := r
    obtain ⟨he, _, hg2, hdig, _, _⟩ := tryLetterNum_shape cs g1 g2 g3 r3 htl
    exfalso
    cases g2 with
    | nil => exact hg2 rfl
    | cons x xs =>
      have hx : x ∈ cs := by rw [he]; simp
      have h1 := hdig x (by simp)
      rw [h x hx] at h1
      exact absurd h1 (by simp)

lemma tryLetterNum_none_of_noletter (cs : List Char) (h : ∀ c ∈ cs, isAsciiLetter c = false) :
    tryLetterNum cs = none := by
  cases htl : tryLetterNum cs with
  | none => rfl
  | some r =>
    obtain ⟨g1, g2, g3, r3⟩ := r
    obtain ⟨he, hg1, _, _, _, hlet⟩ := tryLetterNum_shape cs g1 g2 g3 r3 htl
    exfalso
    cases g1 with
    | nil => exact hg1 rfl
    | cons x xs =>
      have hx : x ∈ cs := by rw [he]; simp
      have h1 := hlet x (by simp)
      rw [h x hx] at h1
      exact absurd h1 (by simp)

lemma letterGo_id (fuel : Nat) :
    ∀ cs : List Char, cs.length < fuel →
      ((∀ c ∈ cs, c.isDigit = false) ∨ (∀ c ∈ cs, isAsciiLetter c = false)) →
      letterGo fuel cs = some cs := by
  induction fuel with
  | zero => intro cs h; exact absurd h (by omega)
  | succ f ih =>
    intro cs hlen hcond
    cases cs with
    | nil => rfl
    | cons c rest =>
      have hnone : tryLetterNum (c :: rest) = none := by
        rcases hcond with h | h
        · exact tryLetterNum_none_of_nodigit _ h
        · exact tryLetterNum_none_of_noletter _ h
      rw [letterGo, hnone]
      have hrest : letterGo f rest = some rest := by
        refine ih rest (by simp at hlen; omega) ?_
        rcases hcond with h | h
        · exact Or.inl (fun x hx => h x (by simp [hx]))
        · exact Or.inr (fun x hx => h x (by simp [hx]))
      rw [hrest]

lemma pct_match_has_pct (c : Char) (rest r4 : List Char)
    (h : (numGroup (c :: rest)).2.dropWhile isPySpace = '%' :: r4) : '%' ∈ c :: rest := by
  have h1 : '%' ∈ (numGroup (c :: rest)).2.dropWhile isPySpace := by rw [h]; simp
  have h2 : '%' ∈ (numGroup (c :: rest)).2 :=
    (List.dropWhile_sublist _).subset h1
  rw [← numGroup_split (c :: rest)]
  exact List.mem_append.mpr (Or.inr h2)

lemma pctGo_id (rec : List Char → Option (List Char)) (fuel : Nat) :
    ∀ cs : List Char, cs.length < fuel →
      (('%' ∉ cs) ∨ (∀ c ∈ cs, c.isDigit = false)) →
      pctGo rec fuel cs = some cs := by
  induction fuel with
  | zero => intro cs h; exact absurd h (by omega)
  | succ f ih =>
    intro cs hlen hcond
    cases cs with
    | nil => rfl
    | cons c rest =>
      have htail : pctGo rec f rest = some rest := by
        refine ih rest (by simp at hlen; omega) ?_
        rcases hcond with h | h
        · exact Or.inl (fun hx => h (by simp [hx]))
        · exact Or.inr (fun x hx => h x (by simp [hx]))
      rw [pctGo]
      by_cases hc : c.isDigit = true
      · rw [if_pos hc, htail]
        simp only []
        split
        · next x r4 heq =>
          by_cases hx : x = '%'
          · subst hx
            exfalso
            rcases hcond with h | h
            · exact h (pct_match_has_pct c rest r4 heq)
            · have h1 := h c (by simp)
              rw [h1] at hc
              exact absurd hc (by simp)
          · rw [if_neg hx]
        · rfl
      · rw [if_neg hc, htail]

lemma tryNumAlt_none (cs : List Char) (h : ∀ c ∈ cs, c.isDigit = false) :
    tryNumAlt cs = none := by
  rw [tryNumAlt.eq_def]
  cases cs with
  | nil => rfl
  | cons c rest =>
    simp only []
    rw [if_neg]
    rw [h c (by simp)]
    simp

lemma tryCurrencyAlt_none (cs : List Char) (h : ∀ c ∈ cs, c.isDigit = false) :
    tryCurrencyAlt cs = none := by
  rw [tryCurrencyAlt, List.findSome?_eq_none_iff]
  intro sym _
  cases hml : matchLit sym cs with
  | none => rfl
  | some r0 =>
    simp only []
    rw [if_pos]
    cases htw : (r0.dropWhile isPySpace).takeWhile Char.isDigit with
    | nil => rfl
    | cons x xs =>
      exfalso
      have hx : x ∈ cs := by
        have h1 : x ∈ (r0.dropWhile isPySpace).takeWhile Char.isDigit := by rw [htw]; simp
        have h2 : x ∈ r0.dropWhile isPySpace := (List.takeWhile_sublist _).subset h1
        have h3 : x ∈ r0 := (List.dropWhile_sublist _).subset h2
        rw [matchLit_eq sym cs r0 hml]
        exact List.mem_append.mpr (Or.inr h3)
      have hd : x.isDigit = true := by
        have h1 : x ∈ (r0.dropWhile isPySpace).takeWhile Char.isDigit := by rw [htw]; simp
        exact List.mem_takeWhile_imp h1
      rw [h x hx] at hd
      exact absurd hd (by simp)

lemma tryYearAlt_none (cs : List Char) (h : ∀ c ∈ cs, c.isDigit = false) :
    tryYearAlt cs = none := by
  rw [tryYearAlt.eq_def]
  split
  · next a b c' d e f rest =>
    rw [if_neg]
    rw [h a (by simp)]
    simp
  · rfl

lemma spanGo_id (rec : List Char → Option (List Char)) (fuel : Nat) :
    ∀ cs : List Char, cs.length < fuel → (∀ c ∈ cs, c.isDigit = false) →
      spanGo rec fuel cs = some cs := by
  induction fuel with
  | zero => intro cs hl; exact absurd hl (by omega)
  | succ f ih =>
    intro cs hlen hcond
    cases cs with
    | nil => rfl
    | cons c rest =>
      have htail : spanGo rec f rest = some rest :=
        ih rest (by simp at hlen; omega) (fun x hx => hcond x (by simp [hx]))
      rw [spanGo, tryCurrencyAlt_none _ hcond, tryNumAlt_none _ hcond,
        tryYearAlt_none _ hcond, htail]

lemma replaceChar_id (sym : Char) (w : String) :
    ∀ cs : List Char, sym ∉ cs → replaceChar sym w cs = cs := by
  intro cs
  induction cs with
  | nil => intro _; rfl
  | cons c r ih =>
    intro h
    have hc : c ≠ sym := fun he => h (by simp [he])
    rw [replaceChar, List.foldr_cons, if_neg hc]
    have : replaceChar sym w r = r := ih (fun hx => h (by simp [hx]))
    rw [replaceChar] at this
    rw [this]
    rfl

lemma mem_replaceChar (sym : Char) (w : String) :
    ∀ (cs : List Char) (x : Char), x ∈ replaceChar sym w cs →
      (x ∈ cs ∧ x ≠ sym) ∨ x ∈ w.data ∨ x = ' ' := by
  intro cs
  induction cs with
  | nil => intro x hx; exact absurd hx (by simp [replaceChar])
  | cons c r ih =>
    intro x hx
    rw [replaceChar, List.foldr_cons] at hx
    rcases List.mem_append.mp hx with h1 | h1
    · by_cases hc : c = sym
      · rw [if_pos hc] at h1
        rcases List.mem_cons.mp h1 with h2 | h2
        · exact Or.inr (Or.inr h2)
        · rcases List.mem_append.mp h2 with h3 | h3
          · exact Or.inr (Or.inl h3)
          · rw [List.mem_singleton] at h3
            exact Or.inr (Or.inr h3)
      · rw [if_neg hc] at h1
        rw [List.mem_singleton] at h1
        subst h1
        exact Or.inl ⟨by simp, hc⟩
    · rcases ih x h1 with ⟨h2, h3⟩ | h2
      · exact Or.inl ⟨by simp [h2], h3⟩
      · exact Or.inr h2

lemma replaceChar_no_sym (sym : Char) (w : String) (cs : List Char)
    (hw : sym ∉ w.data) (hs : sym ≠ ' ') : sym ∉ replaceChar sym w cs := by
  intro hmem
  rcases mem_replaceChar sym w cs sym hmem with ⟨_, h⟩ | h | h
  · exact h rfl
  · exact hw h
  · exact hs h

lemma foldl_sym_preserve :
    ∀ (l : List (Char × String)) (cs : List Char) (x : Char),
      x ∉ cs → (∀ p ∈ l, x ∉ p.2.data) → x ≠ ' ' →
      x ∉ l.foldl (fun t p => if p.1 = '%' then t else replaceChar p.1 p.2 t) cs := by
  intro l
  induction l with
  | nil => intro cs x hx _ _; exact hx
  | cons p l' ih =>
    intro cs x hx hw hs
    rw [List.foldl_cons]
    refine ih _ x ?_ (fun q hq => hw q (by simp [hq])) hs
    by_cases hp : p.1 = '%'
    · rw [if_pos hp]; exact hx
    · rw [if_neg hp]
      intro hmem
      rcases mem_replaceChar p.1 p.2 cs x hmem with ⟨h2, _⟩ | h2 | h2
      · exact hx h2
      · exact hw p (by simp) h2
      · exact hs h2

lemma foldl_sym_removes :
    ∀ (l : List (Char × String)) (cs : List Char) (sym : Char) (w : String),
      (sym, w) ∈ l → sym ≠ '%' → (∀ p ∈ l, sym ∉ p.2.data) → sym ≠ ' ' →
      sym ∉ l.foldl (fun t p => if p.1 = '%' then t else replaceChar p.1 p.2 t) cs := by
  intro l
  induction l with
  | nil => intro cs sym w hmem; exact absurd hmem (by simp)
  | cons p l' ih =>
    intro cs sym w hmem hne hwords hs
    rcases List.mem_cons.mp hmem with h1 | h1
    · rw [List.foldl_cons]
      have hp : p.1 = sym := by rw [← h1]
      have hpw : p.2 = w := by rw [← h1]
      have hww : sym ∉ w.data := by
        have hh := hwords p (by simp)
        rw [hpw] at hh
        exact hh
      rw [hp, hpw, if_neg hne]
      exact foldl_sym_preserve l' _ sym
        (replaceChar_no_sym sym w cs hww hs)
        (fun q hq => hwords q (by simp [hq])) hs
    · rw [List.foldl_cons]
      exact ih _ sym w h1 hne (fun q hq => hwords q (by simp [hq])) hs

lemma symbols_cross : ∀ p ∈ symbols, ∀ q ∈ symbols, p.1 ∉ q.2.data := by decide

lemma symbols_not_space : ∀ p ∈ symbols, p.1 ≠ ' ' := by decide

/-- After the generic symbol pass, no table symbol other than the
percent sign occurs in the text. -/
lemma symbolPass_removes (cs : List Char) (sym : Char) (w : String)
    (hmem : (sym, w) ∈ symbols) (hne : sym ≠ '%') : sym ∉ symbolPass cs :=
  foldl_sym_removes symbols cs sym w hmem hne
    (fun p hp => symbols_cross (sym, w) hmem p hp)
    (symbols_not_space (sym, w) hmem)

lemma symbolPass_id (cs : List Char) (h : ∀ p ∈ symbols, p.1 ∉ cs) :
    symbolPass cs = cs := by
  suffices hgen : ∀ (l : List (Char × String)) (t : List Char), (∀ p ∈ l, p.1 ∉ t) →
      l.foldl (fun t p => if p.1 = '%' then t else replaceChar p.1 p.2 t) t = t by
    exact hgen symbols cs h
  intro l
  induction l with
  | nil => intro t _; rfl
  | cons p l' ih =>
    intro t ht
    rw [List.foldl_cons]
    by_cases hp : p.1 = '%'
    · rw [if_pos hp]
      exact ih t (fun q hq => ht q (by simp [hq]))
    · rw [if_neg hp, replaceChar_id p.1 p.2 t (ht p (by simp))]
      exact ih t (fun q hq => ht q (by simp [hq]))

/-! ## Recursion-depth analysis (for C9) -/

/-- Numeral strings: the only arguments ever passed to the recursive
`process_text` calls of the percentage and currency handlers. -/
def Numeralish (cs : List Char) : Prop := ∀ c ∈ cs, c.isDigit = true ∨ c = '.'

lemma digit_not_letter (c : Char) (h : c.isDigit = true) : isAsciiLetter c = false := by
  obtain ⟨h1, h2⟩ := digit_toNat_bounds c h
  simp only [isAsciiLetter, Bool.or_eq_false_iff, Bool.and_eq_false_iff]
  constructor
  · left
    simp only [decide_eq_false_iff_not, not_le]
    omega
  · left
    simp only [decide_eq_false_iff_not, not_le]
    omega

lemma numeralish_no_letter (cs : List Char) (h : Numeralish cs) :
    ∀ c ∈ cs, isAsciiLetter c = false := by
  intro c hc
  rcases h c hc with h1 | h1
  · exact digit_not_letter c h1
  · subst h1; decide

lemma numeralish_no_pct (cs : List Char) (h : Numeralish cs) : '%' ∉ cs := by
  intro hmem
  rcases h '%' hmem with h1 | h1 <;> exact absurd h1 (by decide)

lemma numeralish_no_space (cs : List Char) (h : Numeralish cs) :
    ∀ c ∈ cs, isPySpace c = false := by
  intro c hc
  rcases h c hc with h1 | h1
  · simp only [isPySpace, Bool.or_eq_false_iff]
    refine ⟨⟨⟨⟨⟨?_, ?_⟩, ?_⟩, ?_⟩, ?_⟩, ?_⟩ <;>
      · simp only [decide_eq_false_iff_not]
        intro he
        rw [he] at h1
        exact absurd h1 (by decide)
  · subst h1; decide

lemma numeralish_no_symbol (cs : List Char) (h : Numeralish cs) :
    ∀ p ∈ symbols, p.1 ∉ cs := by
  intro p hp hmem
  have hd : ∀ q ∈ symbols, q.1.isDigit = false ∧ q.1 ≠ '.' := by decide
  rcases h p.1 hmem with h1 | h1
  · rw [(hd p hp).1] at h1; exact absurd h1 (by simp)
  · exact (hd p hp).2 h1

lemma matchLit_none_of_head (sym : List Char) (c : Char) (rest : List Char)
    (hsym : ∃ s0 s', sym = s0 :: s' ∧ c ≠ s0) : matchLit sym (c :: rest) = none := by
  obtain ⟨s0, s', hs, hne⟩ := hsym
  subst hs
  rw [matchLit, if_neg hne]

lemma digit_or_dot_ne_cur_head (c : Char) (h : c.isDigit = true ∨ c = '.') :
    c ≠ 'R' ∧ c ≠ '₹' ∧ c ≠ '$' ∧ c ≠ '€' ∧ c ≠ '£' := by
  rcases h with h1 | h1
  · refine ⟨?_, ?_, ?_, ?_, ?_⟩ <;>
      · intro he
        rw [he] at h1
        exact absurd h1 (by decide)
  · subst h1; exact ⟨by decide, by decide, by decide, by decide, by decide⟩

lemma tryCurrencyAlt_none_of_head (c : Char) (rest : List Char)
    (h : c.isDigit = true ∨ c = '.') : tryCurrencyAlt (c :: rest) = none := by
  obtain ⟨h1, h2, h3, h4, h5⟩ := digit_or_dot_ne_cur_head c h
  rw [tryCurrencyAlt, List.findSome?_eq_none_iff]
  intro sym hsym
  rw [show curSyms = [['R', 's'], ['₹'], ['$'], ['€'], ['£']] from rfl] at hsym
  simp only [List.mem_cons, List.not_mem_nil, or_false] at hsym
  have : matchLit sym (c :: rest) = none := by
    rcases hsym with hs | hs | hs | hs | hs
    · exact matchLit_none_of_head _ c rest ⟨'R', ['s'], by rw [hs], h1⟩
    · exact matchLit_none_of_head _ c rest ⟨'₹', [], by rw [hs], h2⟩
    · exact matchLit_none_of_head _ c rest ⟨'$', [], by rw [hs], h3⟩
    · exact matchLit_none_of_head _ c rest ⟨'€', [], by rw [hs], h4⟩
    · exact matchLit_none_of_head _ c rest ⟨'£', [], by rw [hs], h5⟩
  rw [this]

lemma curMatchGroups_none_of_head (c : Char) (rest : List Char)
    (h : c.isDigit = true ∨ c = '.') : curMatchGroups (c :: rest) = none := by
  obtain ⟨h1, h2, h3, h4, h5⟩ := digit_or_dot_ne_cur_head c h
  rw [curMatchGroups, List.findSome?_eq_none_iff]
  intro sym hsym
  rw [show curSyms = [['R', 's'], ['₹'], ['$'], ['€'], ['£']] from rfl] at hsym
  simp only [List.mem_cons, List.not_mem_nil, or_false] at hsym
  have : matchLit sym (c :: rest) = none := by
    rcases hsym with hs | hs | hs | hs | hs
    · exact matchLit_none_of_head _ c rest ⟨'R', ['s'], by rw [hs], h1⟩
    · exact matchLit_none_of_head _ c rest ⟨'₹', [], by rw [hs], h2⟩
    · exact matchLit_none_of_head _ c rest ⟨'$', [], by rw [hs], h3⟩
    · exact matchLit_none_of_head _ c rest ⟨'€', [], by rw [hs], h4⟩
    · exact matchLit_none_of_head _ c rest ⟨'£', [], by rw [hs], h5⟩
  rw [this]

lemma tryYearAlt_dash (cs : List Char) (fa : List Char × List Char)
    (h : tryYearAlt cs = some fa) : '-' ∈ cs := by
  rw [tryYearAlt.eq_def] at h
  split at h
  · next a b c' d e f rest => simp
  · exact absurd h (by simp)

lemma numeralish_sublist (a b : List Char) (hs : a.Sublist b) (h : Numeralish b) :
    Numeralish a := fun c hc => h c (hs.subset hc)

lemma curMatchGroups_numeralish (full : List Char) (gp : List Char × List Char)
    (h : curMatchGroups full = some gp) : Numeralish gp.2 := by
  rw [curMatchGroups] at h
  obtain ⟨sym, _, hinner⟩ := List.exists_of_findSome?_eq_some h
  cases hml : matchLit sym full with
  | none => rw [hml] at hinner; exact absurd hinner (by simp)
  | some r0 =>
    rw [hml] at hinner
    simp only [] at hinner
    by_cases htw : (r0.dropWhile isPySpace).takeWhile Char.isDigit = []
    · rw [if_pos htw] at hinner; exact absurd hinner (by simp)
    · rw [if_neg htw] at hinner
      simp only [Option.some_inj] at hinner
      have : gp.2 = (numGroup (r0.dropWhile isPySpace)).1 := by rw [← hinner]
      rw [this]
      exact numGroup_fst_numeralish _

lemma process_match_congr (r1 r2 : List Char → Option (List Char))
    (h : ∀ x, Numeralish x → r1 x = r2 x) (full : List Char) :
    process_match r1 full = process_match r2 full := by
  rw [process_match, process_match]
  by_cases hy : yearSearch full = true
  · rw [if_pos hy, if_pos hy]
  · rw [if_neg hy, if_neg hy]
    cases hcm : curMatchGroups full with
    | none => rfl
    | some gp =>
      simp only []
      rw [handle_currency, handle_currency,
        h gp.2 (curMatchGroups_numeralish full gp hcm)]

lemma spanGo_congr (r1 r2 : List Char → Option (List Char))
    (h : ∀ x, Numeralish x → r1 x = r2 x) (fuel : Nat) :
    ∀ cs : List Char, spanGo r1 fuel cs = spanGo r2 fuel cs := by
  induction fuel with
  | zero => intro cs; rfl
  | succ f ih =>
    intro cs
    cases cs with
    | nil => rfl
    | cons c rest =>
      rw [spanGo, spanGo]
      cases htc : tryCurrencyAlt (c :: rest) with
      | some fa =>
        simp only []
        rw [process_match_congr r1 r2 h fa.1, ih fa.2]
      | none =>
        simp only []
        cases htn : tryNumAlt (c :: rest) with
        | some fa =>
          simp only []
          rw [process_match_congr r1 r2 h fa.1, ih fa.2]
        | none =>
          simp only []
          cases hty : tryYearAlt (c :: rest) with
          | some fa =>
            simp only []
            rw [process_match_congr r1 r2 h fa.1, ih fa.2]
          | none =>
            simp only []
            rw [ih rest]

lemma pctGo_congr (r1 r2 : List Char → Option (List Char))
    (h : ∀ x, Numeralish x → r1 x = r2 x) (fuel : Nat) :
    ∀ cs : List Char, pctGo r1 fuel cs = pctGo r2 fuel cs := by
  induction fuel with
  | zero => intro cs; rfl
  | succ f ih =>
    intro cs
    cases cs with
    | nil => rfl
    | cons c rest =>
      rw [pctGo, pctGo]
      by_cases hc : c.isDigit = true
      · rw [if_pos hc, if_pos hc]
        simp only []
        cases hdw : (numGroup (c :: rest)).2.dropWhile isPySpace with
        | nil => simp only []; rw [ih rest]
        | cons x r4 =>
          simp only []
          by_cases hx : x = '%'
          · rw [if_pos hx, if_pos hx,
              h (numGroup (c :: rest)).1 (numGroup_fst_numeralish _), ih r4]
          · rw [if_neg hx, if_neg hx, ih rest]
      · rw [if_neg hc, if_neg hc, ih rest]

lemma processBody_congr (r1 r2 : List Char → Option (List Char))
    (h : ∀ x, Numeralish x → r1 x = r2 x) (t : List Char) :
    processBody r1 t = processBody r2 t := by
  rw [processBody, processBody]
  cases hl : process_letter_number_combination t with
  | none => rfl
  | some t1 =>
    simp only []
    rw [pctGo_congr r1 r2 h]
    cases hp : pctGo r2 (t1.length + 1) t1 with
    | none => rfl
    | some t2 =>
      simp only []
      rw [spanGo_congr r1 r2 h]

lemma tryNumAlt_subset (cs : List Char) (fa : List Char × List Char)
    (h : tryNumAlt cs = some fa) :
    (∀ c ∈ fa.1, c ∈ cs) ∧ (∀ c ∈ fa.2, c ∈ cs) := by
  rw [tryNumAlt.eq_def] at h
  cases cs with
  | nil => exact absurd h (by simp)
  | cons c rest =>
    simp only [] at h
    by_cases hc : c.isDigit = true
    · rw [if_pos hc] at h
      have hsplit := numGroup_split (c :: rest)
      have hg1 : ∀ x ∈ (numGroup (c :: rest)).1, x ∈ c :: rest := by
        intro x hx
        rw [← hsplit]
        exact List.mem_append.mpr (Or.inl hx)
      have hg2 : ∀ x ∈ (numGroup (c :: rest)).2, x ∈ c :: rest := by
        intro x hx
        rw [← hsplit]
        exact List.mem_append.mpr (Or.inr hx)
      cases hera : eraStrs.findSome? (fun e =>
          match matchLit e ((numGroup (c :: rest)).2.dropWhile isPySpace) with
          | some r4 => some (e, r4)
          | none => none) with
      | some er =>
        rw [hera] at h
        simp only [Option.some_inj] at h
        obtain ⟨e, _, hinner⟩ := List.exists_of_findSome?_eq_some hera
        have hml : matchLit e ((numGroup (c :: rest)).2.dropWhile isPySpace) = some er.2 ∧
            er.1 = e := by
          cases hm : matchLit e ((numGroup (c :: rest)).2.dropWhile isPySpace) with
          | none => rw [hm] at hinner; exact absurd hinner (by simp)
          | some r4 =>
            rw [hm] at hinner
            simp only [Option.some_inj] at hinner
            constructor
            · rw [← hinner]
            · rw [← hinner]
        have heq := matchLit_eq e _ er.2 hml.1
        have hr3 : ∀ x ∈ (numGroup (c :: rest)).2.dropWhile isPySpace, x ∈ c :: rest :=
          fun x hx => hg2 x ((List.dropWhile_sublist _).subset hx)
        subst h
        constructor
        · intro x hx
          simp only [List.mem_append] at hx
          rcases hx with (hx | hx) | hx
          · exact hg1 x hx
          · exact hg2 x ((List.takeWhile_sublist _).subset hx)
          · refine hr3 x ?_
            rw [heq]
            exact List.mem_append.mpr (Or.inl (hml.2 ▸ hx))
        · intro x hx
          refine hr3 x ?_
          rw [heq]
          exact List.mem_append.mpr (Or.inr hx)
      | none =>
        rw [hera] at h
        simp only [Option.some_inj] at h
        subst h
        exact ⟨hg1, hg2⟩
    · rw [if_neg hc] at h; exact absurd h (by simp)

lemma process_match_rec_free (full : List Char) (hfull : Numeralish full)
    (r1 r2 : List Char → Option (List Char)) :
    process_match r1 full = process_match r2 full := by
  rw [process_match, process_match]
  by_cases hy : yearSearch full = true
  · rw [if_pos hy, if_pos hy]
  · rw [if_neg hy, if_neg hy]
    have hcm : curMatchGroups full = none := by
      cases full with
      | nil => rfl
      | cons c rest => exact curMatchGroups_none_of_head c rest (hfull c (by simp))
    rw [hcm]

lemma dash_not_numeralish (cs : List Char) (h : Numeralish cs) : '-' ∉ cs := by
  intro hmem
  rcases h '-' hmem with h1 | h1 <;> exact absurd h1 (by decide)

lemma spanGo_rec_free (r1 r2 : List Char → Option (List Char)) (fuel : Nat) :
    ∀ x : List Char, Numeralish x → spanGo r1 fuel x = spanGo r2 fuel x := by
  induction fuel with
  | zero => intro x _; rfl
  | succ f ih =>
    intro x hx
    cases x with
    | nil => rfl
    | cons c rest =>
      rw [spanGo, spanGo, tryCurrencyAlt_none_of_head c rest (hx c (by simp))]
      simp only []
      cases htn : tryNumAlt (c :: rest) with
      | some fa =>
        simp only []
        obtain ⟨h1, h2⟩ := tryNumAlt_subset _ fa htn
        rw [process_match_rec_free fa.1 (fun y hy => hx y (h1 y hy)) r1 r2,
          ih fa.2 (fun y hy => hx y (h2 y hy))]
      | none =>
        simp only []
        cases hty : tryYearAlt (c :: rest) with
        | some fa =>
          exact absurd (tryYearAlt_dash _ fa hty) (dash_not_numeralish _ hx)
        | none =>
          simp only []
          rw [ih rest (fun y hy => hx y (by simp [hy]))]

lemma processTextF_numeralish_eq (x : List Char) (hx : Numeralish x) (n m : Nat) :
    processTextF (n + 1) x = processTextF (m + 1) x := by
  rw [processTextF, processTextF, processBody, processBody]
  have hletter : process_letter_number_combination x = some x :=
    letterGo_id (x.length + 1) x (by omega) (Or.inr (numeralish_no_letter x hx))
  rw [hletter]
  simp only []
  rw [pctGo_id (processTextF n) (x.length + 1) x (by omega)
      (Or.inl (numeralish_no_pct x hx)),
    pctGo_id (processTextF m) (x.length + 1) x (by omega)
      (Or.inl (numeralish_no_pct x hx))]
  simp only []
  have hsp := symbolPass_id x (numeralish_no_symbol x hx)
  simp only [hsp]
  rw [spanGo_rec_free (processTextF n) (processTextF m) (x.length + 1) x hx]

/-- Depth 2 is always enough fuel: the handlers recurse only on numeral
strings, on which no further recursion happens. -/
lemma processTextF_depth (t : List Char) (n : Nat) :
    processTextF (n + 2) t = processTextF 2 t := by
  rw [show n + 2 = (n + 1) + 1 from rfl, processTextF,
    show (2 : Nat) = 1 + 1 from rfl, processTextF]
  exact processBody_congr _ _ (fun x hx => processTextF_numeralish_eq x hx n 0) t

/-! ## Fixed-point behaviour on fully normalized text (for C8) -/

lemma processBody_out (rec : List Char → Option (List Char)) (cs out : List Char)
    (h : processBody rec cs = some out) : collapse out = out := by
  rw [processBody] at h
  cases h1 : process_letter_number_combination cs with
  | none => rw [h1] at h; exact absurd h (by simp)
  | some t1 =>
    rw [h1] at h
    simp only [] at h
    cases h2 : pctGo rec (t1.length + 1) t1 with
    | none => rw [h2] at h; exact absurd h (by simp)
    | some t2 =>
      rw [h2] at h
      simp only [] at h
      cases h3 : spanGo rec ((symbolPass t2).length + 1) (symbolPass t2) with
      | none => rw [h3] at h; exact absurd h (by simp)
      | some t4 =>
        rw [h3] at h
        simp only [Option.some_inj] at h
        rw [← h]
        exact collapse_idem t4

lemma processBody_clean_id (rec : List Char → Option (List Char)) (s : List Char)
    (hd : ∀ c ∈ s, c.isDigit = false) (hsym : ∀ p ∈ symbols, p.1 ∉ s)
    (hcol : collapse s = s) : processBody rec s = some s := by
  rw [processBody]
  have hletter : process_letter_number_combination s = some s :=
    letterGo_id (s.length + 1) s (by omega) (Or.inl hd)
  rw [hletter]
  simp only []
  rw [pctGo_id rec (s.length + 1) s (by omega) (Or.inr hd)]
  simp only []
  have hsp := symbolPass_id s hsym
  simp only [hsp]
  rw [spanGo_id rec (s.length + 1) s (by omega) hd]
  simp only []
  rw [hcol]

/-! ## Totality on inputs with small numerals (for C1) -/

lemma process_number_small (n : Nat) (h : n < 1000000000) :
    process_number n = some (cardinalSpec n) := process_number_eq_cardinalSpec n h

lemma digit_not_dot (c : Char) (h : c.isDigit = true) : c ≠ '.' := by
  intro he
  rw [he] at h
  exact absurd h (by decide)

lemma splitOn_decimal (d1 d2 : List Char) (h1 : ∀ c ∈ d1, c.isDigit = true)
    (h2 : ∀ c ∈ d2, c.isDigit = true) :
    (d1 ++ '.' :: d2).splitOn '.' = [d1, d2] := by
  show (d1 ++ '.' :: d2).splitOnP (· == '.') = [d1, d2]
  have hfirst := List.splitOnP_first (· == '.') d1
    (fun x hx => by simpa using digit_not_dot x (h1 x hx)) '.' (by simp) d2
  have hsingle := List.splitOnP_eq_single (· == '.') d2
    (fun x hx => by simpa using digit_not_dot x (h2 x hx))
  rw [hfirst, hsingle]

lemma pyInt_digits (ds : List Char) (h1 : ds ≠ []) (h2 : ∀ c ∈ ds, c.isDigit = true) :
    pyInt ds = some (natOfDigits ds) := by
  rw [pyInt, if_pos ⟨h1, by simpa [List.all_eq_true] using h2⟩]

lemma handle_decimal_some (d1 d2 : List Char) (h1 : d1 ≠ [])
    (hd1 : ∀ c ∈ d1, c.isDigit = true) (hd2 : ∀ c ∈ d2, c.isDigit = true)
    (hlen : d1.length ≤ 9) :
    handle_decimal (d1 ++ '.' :: d2) =
      some (cardinalSpec (natOfDigits d1) ++ " point " ++
        String.intercalate " " ((digitWords d2).getD [])) := by
  obtain ⟨ws, hws, _⟩ := digitWords_isSome d2 hd2
  rw [handle_decimal, splitOn_decimal d1 d2 hd1 hd2]
  simp only []
  rw [pyInt_digits d1 h1 hd1]
  simp only []
  rw [process_number_small (natOfDigits d1) (natOfDigits_lt_billion d1 hd1 hlen)]
  simp only []
  rw [hws]
  simp only [Option.some_inj, hws, Option.getD_some]

lemma good_not_digit (c : Char) (h : goodChar c = true) : c.isDigit = false := by
  cases hd : c.isDigit with
  | false => rfl
  | true =>
    exfalso
    obtain ⟨hlo, hhi⟩ := digit_toNat_bounds c hd
    simp only [goodChar, Bool.or_eq_true, decide_eq_true_eq] at h
    rcases h with ((ha | h1) | h1) | h1
    · simp [Char.isAlpha, Char.isUpper, Char.isLower] at ha
      rcases ha with ⟨a1, a2⟩ | ⟨a1, a2⟩
      · have a1' : 65 ≤ c.toNat := a1
        omega
      · have a1' : 97 ≤ c.toNat := a1
        omega
    · rw [h1] at hd; exact absurd hd (by decide)
    · rw [h1] at hd; exact absurd hd (by decide)
    · rw [h1] at hd; exact absurd hd (by decide)

lemma countD_zero_of_good (w : String) (h : ∀ c ∈ w.data, goodChar c = true) :
    countD w.data = 0 := by
  rw [countD, List.countP_eq_zero]
  intro c hc
  simpa using good_not_digit c (h c hc)

lemma takeWhile_append_sat (p : Char → Bool) (d1 : List Char) (x : Char) (r : List Char)
    (h1 : ∀ c ∈ d1, p c = true) (hx : p x = false) :
    (d1 ++ x :: r).takeWhile p = d1 ∧ (d1 ++ x :: r).dropWhile p = x :: r := by
  induction d1 with
  | nil =>
    constructor
    · rw [List.nil_append, List.takeWhile_cons_of_neg (by simp [hx])]
    · rw [List.nil_append, List.dropWhile_cons_of_neg (by simp [hx])]
  | cons a d1' ih =>
    obtain ⟨iht, ihd⟩ := ih (fun c hc => h1 c (by simp [hc]))
    constructor
    · rw [List.cons_append, List.takeWhile_cons_of_pos (h1 a (by simp)), iht]
    · rw [List.cons_append, List.dropWhile_cons_of_pos (h1 a (by simp)), ihd]

lemma takeWhile_all_sat (p : Char → Bool) (d1 : List Char) (h1 : ∀ c ∈ d1, p c = true) :
    d1.takeWhile p = d1 ∧ d1.dropWhile p = [] := by
  induction d1 with
  | nil => exact ⟨rfl, rfl⟩
  | cons a d1' ih =>
    obtain ⟨iht, ihd⟩ := ih (fun c hc => h1 c (by simp [hc]))
    exact ⟨by rw [List.takeWhile_cons_of_pos (h1 a (by simp)), iht],
      by rw [List.dropWhile_cons_of_pos (h1 a (by simp)), ihd]⟩

lemma numGroup_int (d1 : List Char) (hd1 : ∀ c ∈ d1, c.isDigit = true) :
    numGroup d1 = (d1, []) := by
  obtain ⟨ht, hd⟩ := takeWhile_all_sat Char.isDigit d1 hd1
  rw [numGroup]
  simp only [ht, hd]

lemma numGroup_dec (d1 d2 : List Char) (hd1 : ∀ c ∈ d1, c.isDigit = true)
    (hd2 : ∀ c ∈ d2, c.isDigit = true) (h2 : d2 ≠ []) :
    numGroup (d1 ++ '.' :: d2) = (d1 ++ '.' :: d2, []) := by
  obtain ⟨ht, hd⟩ := takeWhile_append_sat Char.isDigit d1 '.' d2 hd1 (by decide)
  obtain ⟨ht2, hd2'⟩ := takeWhile_all_sat Char.isDigit d2 hd2
  rw [numGroup]
  simp only [ht, hd, ht2, hd2', if_neg h2]

lemma dictGet_cases (tbl : List (String × String)) (key dflt : String) :
    dictGet tbl key dflt = dflt ∨ ∃ p ∈ tbl, dictGet tbl key dflt = p.2 := by
  rw [dictGet]
  cases hf : tbl.find? (fun p => p.1 = key) with
  | none => exact Or.inl rfl
  | some p => exact Or.inr ⟨p, List.mem_of_find?_eq_some hf, rfl⟩

lemma letter_prefixes_countD :
    ∀ p ∈ letter_prefixes, countD p.2.data = 0 := by decide

lemma countD_cons (c : Char) (r : List Char) :
    countD (c :: r) = countD r + if c.isDigit then 1 else 0 :=
  List.countP_cons _ c r

lemma letterRepl_some (g1 g2 g3 : List Char) (hg2 : g2 ≠ [])
    (hd2 : ∀ c ∈ g2, c.isDigit = true) (hlen : g2.length ≤ 9)
    (hg3 : g3 = [] ∨ ∃ ds, g3 = '.' :: ds ∧ ∀ c ∈ ds, c.isDigit = true)
    (hg1 : ∀ c ∈ g1, isAsciiLetter c = true) :
    ∃ out, letterRepl g1 g2 g3 = some out ∧ countD out = 0 := by
  have hfp : countD (dictGet letter_prefixes (String.mk g1) (String.mk g1)).data = 0 := by
    rcases dictGet_cases letter_prefixes (String.mk g1) (String.mk g1) with he | ⟨p, hp, he⟩
    · rw [he]
      rw [countD, List.countP_eq_zero]
      intro c hc
      simp only [letter_not_digit c (hg1 c hc), Bool.false_eq_true, not_false_iff]
    · rw [he]
      exact letter_prefixes_countD p hp
  have hnw : ∃ w, (if g3 ≠ [] then handle_decimal (g2 ++ g3)
      else match pyInt g2 with
      | some n => process_number n
      | none => none) = some w ∧ countD w.data = 0 := by
    rcases hg3 with h3 | ⟨ds, h3, hds⟩
    · subst h3
      rw [if_neg (by simp), pyInt_digits g2 hg2 hd2]
      simp only []
      rw [process_number_small (natOfDigits g2) (natOfDigits_lt_billion g2 hd2 hlen)]
      refine ⟨cardinalSpec (natOfDigits g2), rfl, ?_⟩
      exact countD_zero_of_good _ (process_number_rendered (natOfDigits g2) _
        (process_number_small (natOfDigits g2) (natOfDigits_lt_billion g2 hd2 hlen))).1
    · subst h3
      rw [if_pos (by simp), handle_decimal_some g2 ds hg2 hd2 hds hlen]
      refine ⟨_, rfl, ?_⟩
      exact countD_zero_of_good _ (handle_decimal_good (g2 ++ '.' :: ds) _
        (handle_decimal_some g2 ds hg2 hd2 hds hlen))
  obtain ⟨w, hw, hwd⟩ := hnw
  refine ⟨(dictGet letter_prefixes (String.mk g1) (String.mk g1)).data ++ ' ' :: w.data, ?_, ?_⟩
  · rw [letterRepl]
    simp only [] at hw ⊢
    rw [hw]
  · rw [countD_append, hfp, countD_cons, hwd]
    decide

lemma letterGo_total : ∀ (fuel : Nat) (cs : List Char), cs.length < fuel →
    countD cs ≤ 9 →
    ∃ out, letterGo fuel cs = some out ∧ countD out ≤ countD cs := by
  intro fuel
  induction fuel with
  | zero => intro cs h; omega
  | succ f ih =>
    intro cs hlen hcd
    match cs with
    | [] => exact ⟨[], rfl, le_refl _⟩
    | c :: rest =>
      cases htl : tryLetterNum (c :: rest) with
      | some g =>
        obtain ⟨g1, g2, g3, r3⟩ := g
        obtain ⟨he, hg1ne, hg2ne, hd2, hsh, hch⟩ :=
          tryLetterNum_shape (c :: rest) g1 g2 g3 r3 htl
        have hsplit : countD (c :: rest) =
            countD g1 + countD g2 + countD g3 + countD r3 := by
          rw [he, countD_append, countD_append, countD_append]
        have hg2d : countD g2 = g2.length := all_digits_countD g2 hd2
        have hg2len : g2.length ≤ 9 := by omega
        have hr3cd : countD r3 ≤ 9 := by omega
        have hr3len : r3.length < f := by
          have : (c :: rest).length = g1.length + g2.length + g3.length + r3.length := by
            rw [he]; simp [List.length_append]; omega
          have h1 : 1 ≤ g1.length := List.length_pos.mpr hg1ne
          simp only [List.length_cons] at hlen this
          omega
        obtain ⟨repl, hrepl, hreplcd⟩ := letterRepl_some g1 g2 g3 hg2ne hd2 hg2len hsh hch
        obtain ⟨tail, htail, htailcd⟩ := ih r3 hr3len hr3cd
        refine ⟨repl ++ tail, ?_, ?_⟩
        · rw [letterGo, htl]
          simp only []
          rw [hrepl, htail]
        · rw [countD_append, hreplcd]
          omega
      | none =>
        have hrcd : countD rest ≤ 9 := by
          rw [countD_cons] at hcd
          omega
        obtain ⟨tail, htail, htailcd⟩ := ih rest (by simp at hlen; omega) hrcd
        refine ⟨c :: tail, ?_, ?_⟩
        · rw [letterGo, htl]
          simp only []
          rw [htail]
        · rw [countD_cons, countD_cons]
          omega

lemma space_not_digit (c : Char) (h : isPySpace c = true) : c.isDigit = false := by
  cases hd : c.isDigit with
  | false => rfl
  | true =>
    exfalso
    obtain ⟨h1, h2⟩ := digit_toNat_bounds c hd
    simp only [isPySpace, Bool.or_eq_true, decide_eq_true_eq] at h
    rcases h with ((((h3 | h3) | h3) | h3) | h3) | h3 <;>
      · subst h3
        revert h1 h2
        decide

lemma countD_eq_zero_iff (cs : List Char) :
    countD cs = 0 ↔ ∀ c ∈ cs, c.isDigit = false := by
  rw [countD, List.countP_eq_zero]
  constructor
  · intro h c hc
    have := h c hc
    simpa using this
  · intro h c hc
    simp [h c hc]

lemma process_year_range_some (a b c d e f : Char)
    (hc : c.isDigit = true) (hd : d.isDigit = true)
    (he : e.isDigit = true) (hf : f.isDigit = true) :
    ∃ w, process_year_range [a, b, c, d] [e, f] = some w ∧ countD w.data = 0 := by
  have hcd : natOfDigits [c, d] < 100 := by
    have := natOfDigits_lt_pow [c, d] (by
      intro x hx
      rcases List.mem_cons.mp hx with h1 | h1
      · rw [h1]; exact hc
      · rcases List.mem_cons.mp h1 with h2 | h2
        · rw [h2]; exact hd
        · exact absurd h2 (by simp))
    simpa using this
  have hef : natOfDigits [e, f] < 100 := by
    have := natOfDigits_lt_pow [e, f] (by
      intro x hx
      rcases List.mem_cons.mp hx with h1 | h1
      · rw [h1]; exact he
      · rcases List.mem_cons.mp h1 with h2 | h2
        · rw [h2]; exact hf
        · exact absurd h2 (by simp))
    simpa using this
  rw [process_year_range]
  have hdrop : ([a, b, c, d] : List Char).drop 2 = [c, d] := rfl
  rw [hdrop]
  rw [pyInt_digits [c, d] (by simp) (by
      intro x hx
      rcases List.mem_cons.mp hx with h1 | h1
      · rw [h1]; exact hc
      · rcases List.mem_cons.mp h1 with h2 | h2
        · rw [h2]; exact hd
        · exact absurd h2 (by simp)),
    pyInt_digits [e, f] (by simp) (by
      intro x hx
      rcases List.mem_cons.mp hx with h1 | h1
      · rw [h1]; exact he
      · rcases List.mem_cons.mp h1 with h2 | h2
        · rw [h2]; exact hf
        · exact absurd h2 (by simp))]
  simp only []
  rw [numberLookup_lt_100 _ hcd, numberLookup_lt_100 _ hef]
  simp only []
  refine ⟨_, rfl, ?_⟩
  rw [countD_eq_zero_iff]
  intro x hx
  simp only [String.data_append] at hx
  have hw1 := numberLookup_token _ _ (numberLookup_lt_100 _ hcd)
  have hw2 := numberLookup_token _ _ (numberLookup_lt_100 _ hef)
  rcases List.mem_append.mp hx with h1 | h1
  · rcases List.mem_append.mp h1 with h2 | h2
    · rcases List.mem_append.mp h2 with h3 | h3
      · rcases List.mem_append.mp h3 with h4 | h4
        · fin_cases h4 <;> decide
        · exact good_not_digit x ((hw1.2 x h4).1)
      · fin_cases h3
        decide
    · fin_cases h2 <;> decide
  · exact good_not_digit x ((hw2.2 x h1).1)

lemma tryYearAlt_shape (cs : List Char) (fa : List Char × List Char)
    (h : tryYearAlt cs = some fa) :
    ∃ a b c d e f, fa.1 = [a, b, c, d, '-', e, f] ∧ cs = fa.1 ++ fa.2 ∧
      a.isDigit = true ∧ b.isDigit = true ∧ c.isDigit = true ∧ d.isDigit = true ∧
      e.isDigit = true ∧ f.isDigit = true := by
  rw [tryYearAlt.eq_def] at h
  split at h
  · next a b c d e f rest =>
    by_cases hcond : (a.isDigit && b.isDigit && c.isDigit && d.isDigit &&
        e.isDigit && f.isDigit) = true
    · rw [if_pos hcond] at h
      simp only [Option.some_inj] at h
      simp only [Bool.and_eq_true] at hcond
      obtain ⟨⟨⟨⟨⟨ha, hb⟩, hc⟩, hd⟩, he⟩, hf⟩ := hcond
      exact ⟨a, b, c, d, e, f, by rw [← h], by rw [← h]; rfl, ha, hb, hc, hd, he, hf⟩
    · rw [if_neg hcond] at h
      exact absurd h (by simp)
  · exact absurd h (by simp)

lemma yearGo_total : ∀ (fuel : Nat) (cs : List Char), cs.length < fuel →
    ∃ out, yearGo fuel cs = some out ∧ countD out ≤ countD cs := by
  intro fuel
  induction fuel with
  | zero => intro cs h; omega
  | succ fl ih =>
    intro cs hlen
    match cs with
    | [] => exact ⟨[], rfl, le_refl _⟩
    | x :: rest =>
      cases hty : tryYearAlt (x :: rest) with
      | some fa =>
        obtain ⟨a, b, c, d, e, f, hm, hsp, _, _, hc, hd, he, hf⟩ :=
          tryYearAlt_shape (x :: rest) fa hty
        obtain ⟨w, hw, hwd⟩ := process_year_range_some a b c d e f hc hd he hf
        have hlen2 : fa.2.length < fl := by
          have h7 : fa.1.length = 7 := by rw [hm]; rfl
          have : (x :: rest).length = fa.1.length + fa.2.length := by
            rw [hsp]; simp [List.length_append]
          simp only [List.length_cons] at hlen this
          omega
        obtain ⟨tail, htail, htaild⟩ := ih fa.2 hlen2
        refine ⟨w.data ++ tail, ?_, ?_⟩
        · rw [yearGo, hty]
          simp only []
          rw [hm]
          simp only []
          rw [hw, htail]
        · have hcd : countD (x :: rest) = countD fa.1 + countD fa.2 := by
            rw [hsp, countD_append]
          rw [countD_append, hwd]
          omega
      | none =>
        obtain ⟨tail, htail, htaild⟩ := ih rest (by simp at hlen; omega)
        refine ⟨x :: tail, ?_, ?_⟩
        · rw [yearGo, hty]
          simp only []
          rw [htail]
        · rw [countD_cons, countD_cons]
          omega

/-- The exact shape of a captured numeral group: a nonempty digit run,
optionally followed by a dot and another nonempty digit run. -/
def NumShape (x : List Char) : Prop :=
  x ≠ [] ∧ ((∀ c ∈ x, c.isDigit = true) ∨
    ∃ d1 d2, x = d1 ++ '.' :: d2 ∧ d1 ≠ [] ∧ d2 ≠ [] ∧
      (∀ c ∈ d1, c.isDigit = true) ∧ (∀ c ∈ d2, c.isDigit = true))

/-- A recursive `process_text` call that succeeds, with digit-free
output, on every captured numeral group with at most nine digits. -/
def RecOK (rec : List Char → Option (List Char)) : Prop :=
  ∀ x, NumShape x → countD x ≤ 9 → ∃ w, rec x = some w ∧ countD w = 0

lemma numShape_numeralish (x : List Char) (h : NumShape x) : Numeralish x := by
  obtain ⟨_, h1 | ⟨d1, d2, he, _, _, hd1, hd2⟩⟩ := h
  · exact fun c hc => Or.inl (h1 c hc)
  · intro c hc
    rw [he] at hc
    rcases List.mem_append.mp hc with h2 | h2
    · exact Or.inl (hd1 c h2)
    · rcases List.mem_cons.mp h2 with h3 | h3
      · exact Or.inr h3
      · exact Or.inl (hd2 c h3)

lemma numGroup_fst_numShape (c : Char) (rest : List Char) (hc : c.isDigit = true) :
    NumShape (numGroup (c :: rest)).1 := by
  rcases numGroup_fst_shape (c :: rest) with h | ⟨d2, hne, hd2, h⟩
  · rw [h]
    refine ⟨?_, Or.inl (fun x hx => List.mem_takeWhile_imp hx)⟩
    rw [List.takeWhile_cons_of_pos hc]
    simp
  · rw [h]
    refine ⟨by simp, Or.inr ⟨(c :: rest).takeWhile Char.isDigit, d2, rfl, ?_, hne,
      fun x hx => List.mem_takeWhile_imp hx, hd2⟩⟩
    rw [List.takeWhile_cons_of_pos hc]
    simp

lemma numGroup_fst_sublist (cs : List Char) : ((numGroup cs).1).Sublist cs := by
  conv_rhs => rw [← numGroup_split cs]
  exact List.sublist_append_left _ _

lemma curSyms_countD : ∀ s ∈ curSyms, countD s = 0 := by decide

lemma currency_values_countD : ∀ p ∈ currency_symbols, countD p.2.data = 0 := by decide

lemma eraStrs_countD : ∀ e ∈ eraStrs, countD e = 0 := by decide

lemma curMatchGroups_shape (full : List Char) (gp : List Char × List Char)
    (h : curMatchGroups full = some gp) :
    gp.1 ∈ curSyms ∧ NumShape gp.2 ∧ countD gp.2 ≤ countD full := by
  rw [curMatchGroups] at h
  obtain ⟨sym, hsym, hinner⟩ := List.exists_of_findSome?_eq_some h
  cases hml : matchLit sym full with
  | none => rw [hml] at hinner; exact absurd hinner (by simp)
  | some r0 =>
    rw [hml] at hinner
    simp only [] at hinner
    by_cases htw : (r0.dropWhile isPySpace).takeWhile Char.isDigit = []
    · rw [if_pos htw] at hinner
      exact absurd hinner (by simp)
    · rw [if_neg htw] at hinner
      simp only [Option.some_inj] at hinner
      obtain ⟨hg1, hg2⟩ : gp.1 = sym ∧ gp.2 = (numGroup (r0.dropWhile isPySpace)).1 := by
        rw [← hinner]
        exact ⟨rfl, rfl⟩
      have hr1 : ∃ h0 t, r0.dropWhile isPySpace = h0 :: t ∧ h0.isDigit = true := by
        cases hcase : r0.dropWhile isPySpace with
        | nil => rw [hcase] at htw; exact absurd rfl htw
        | cons h0 t =>
          refine ⟨h0, t, rfl, ?_⟩
          by_contra hnd
          rw [hcase, List.takeWhile_cons_of_neg (by simpa using hnd)] at htw
          exact htw rfl
      obtain ⟨h0, t, hr1e, h0d⟩ := hr1
      refine ⟨hg1 ▸ hsym, ?_, ?_⟩
      · rw [hg2, hr1e]
        exact numGroup_fst_numShape h0 t h0d
      · rw [hg2]
        refine countD_le_of_sublist _ _ ?_
        have s1 : ((numGroup (r0.dropWhile isPySpace)).1).Sublist (r0.dropWhile isPySpace) :=
          numGroup_fst_sublist _
        have s2 : (r0.dropWhile isPySpace).Sublist r0 := List.dropWhile_sublist _
        have s3 : r0.Sublist full := by
          rw [matchLit_eq sym full r0 hml]
          exact List.sublist_append_right _ _
        exact (s1.trans s2).trans s3

lemma numMatchGroups_shape (full : List Char) (gp : List Char × List Char)
    (h : numMatchGroups full = some gp) :
    ∃ c rest, full = c :: rest ∧ c.isDigit = true ∧ gp.1 = (numGroup full).1 ∧
      (gp.2 = [] ∨ gp.2 ∈ eraStrs) := by
  rw [numMatchGroups.eq_def] at h
  cases full with
  | nil => exact absurd h (by simp)
  | cons c rest =>
    simp only [] at h
    by_cases hc : c.isDigit = true
    · rw [if_pos hc] at h
      refine ⟨c, rest, rfl, hc, ?_⟩
      cases hera : eraStrs.findSome? (fun e =>
          match matchLit e ((numGroup (c :: rest)).2.dropWhile isPySpace) with
          | some _ => some e
          | none => none) with
      | some e =>
        rw [hera] at h
        simp only [Option.some_inj] at h
        obtain ⟨e', he', hinner⟩ := List.exists_of_findSome?_eq_some hera
        have hee : e = e' := by
          cases hm : matchLit e' ((numGroup (c :: rest)).2.dropWhile isPySpace) with
          | none => rw [hm] at hinner; exact absurd hinner (by simp)
          | some r4 =>
            rw [hm] at hinner
            simp only [Option.some_inj] at hinner
            rw [← hinner]
        constructor
        · rw [← h]
        · rw [← h]
          exact Or.inr (hee ▸ he')
      | none =>
        rw [hera] at h
        simp only [Option.some_inj] at h
        exact ⟨by rw [← h], Or.inl (by rw [← h])⟩
    · rw [if_neg hc] at h
      exact absurd h (by simp)

lemma countD_pyStrip_le (cs : List Char) : countD (pyStrip cs) ≤ countD cs := by
  rw [pyStrip]
  calc countD ((cs.dropWhile isPySpace).reverse.dropWhile isPySpace).reverse
      = countD ((cs.dropWhile isPySpace).reverse.dropWhile isPySpace) := by
        rw [countD, countD, List.countP_reverse]
    _ ≤ countD (cs.dropWhile isPySpace).reverse :=
        countD_le_of_sublist _ _ (List.dropWhile_sublist _)
    _ = countD (cs.dropWhile isPySpace) := by rw [countD, countD, List.countP_reverse]
    _ ≤ countD cs := countD_le_of_sublist _ _ (List.dropWhile_sublist _)

lemma handle_currency_total (rec : List Char → Option (List Char)) (hrec : RecOK rec)
    (amount symbol : List Char) (hsh : NumShape amount) (h9 : countD amount ≤ 9)
    (hsym : symbol ∈ curSyms) :
    ∃ out, handle_currency rec amount symbol = some out ∧ countD out = 0 := by
  obtain ⟨w, hw, hwd⟩ := hrec amount hsh h9
  refine ⟨_, by rw [handle_currency, hw], ?_⟩
  have hname : countD (dictGet currency_symbols (String.mk symbol) (String.mk symbol)).data
      = 0 := by
    rcases dictGet_cases currency_symbols (String.mk symbol) (String.mk symbol) with
      he | ⟨p, hp, he⟩
    · rw [he]
      exact curSyms_countD symbol hsym
    · rw [he]
      exact currency_values_countD p hp
  rw [countD_append, hname, countD_cons]
  simp [hwd]

lemma process_match_total (rec : List Char → Option (List Char)) (full : List Char)
    (hrec : RecOK rec) (h9 : countD full ≤ 9) :
    ∃ out, process_match rec full = some out ∧ countD out ≤ countD full := by
  rw [process_match]
  by_cases hy : yearSearch full = true
  · rw [if_pos hy]
    exact yearGo_total (full.length + 1) full (by omega)
  · rw [if_neg hy]
    cases hcm : curMatchGroups full with
    | some gp =>
      simp only []
      obtain ⟨hs1, hs2, hs3⟩ := curMatchGroups_shape full gp hcm
      obtain ⟨out, ho, hod⟩ :=
        handle_currency_total rec hrec gp.2 gp.1 hs2 (le_trans hs3 h9) hs1
      exact ⟨out, ho, by omega⟩
    | none =>
      simp only []
      cases hnm : numMatchGroups full with
      | none => exact ⟨full, rfl, le_refl _⟩
      | some gp =>
        simp only []
        obtain ⟨c, rest, hfe, hc, hg1, hg2⟩ := numMatchGroups_shape full gp hnm
        have hsh : NumShape gp.1 := by
          rw [hg1, hfe]
          exact numGroup_fst_numShape c rest hc
        have hle : countD gp.1 ≤ countD full := by
          rw [hg1]
          exact countD_le_of_sublist _ _ (numGroup_fst_sublist full)
        have hg2d : countD gp.2 = 0 := by
          rcases hg2 with h1 | h1
          · rw [h1]; rfl
          · exact eraStrs_countD gp.2 h1
        obtain ⟨hne, hsh2⟩ := hsh
        by_cases hdot : '.' ∈ gp.1
        · rw [if_pos hdot]
          have hdec : ∃ d1 d2, gp.1 = d1 ++ '.' :: d2 ∧ d1 ≠ [] ∧ d2 ≠ [] ∧
              (∀ x ∈ d1, x.isDigit = true) ∧ (∀ x ∈ d2, x.isDigit = true) := by
            rcases hsh2 with h1 | h1
            · exact absurd (h1 '.' hdot) (by decide)
            · exact h1
          obtain ⟨d1, d2, hde, hd1ne, hd2ne, hd1, hd2⟩ := hdec
          have hlen : d1.length ≤ 9 := by
            have : countD gp.1 = d1.length + countD ('.' :: d2) := by
              rw [hde, countD_append, all_digits_countD d1 hd1]
            omega
          rw [hde, handle_decimal_some d1 d2 hd1ne hd1 hd2 hlen]
          simp only []
          refine ⟨_, rfl, ?_⟩
          have hwg := handle_decimal_good (d1 ++ '.' :: d2) _
            (handle_decimal_some d1 d2 hd1ne hd1 hd2 hlen)
          calc countD (pyStrip ((cardinalSpec (natOfDigits d1) ++ " point " ++
                String.intercalate " " ((digitWords d2).getD [])).data ++ ' ' :: gp.2))
              ≤ countD ((cardinalSpec (natOfDigits d1) ++ " point " ++
                String.intercalate " " ((digitWords d2).getD [])).data ++ ' ' :: gp.2) :=
                countD_pyStrip_le _
            _ = 0 := by
                rw [countD_append, countD_zero_of_good _ hwg, countD_cons, hg2d]
                decide
            _ ≤ countD full := Nat.zero_le _
        · rw [if_neg hdot]
          have hdig : ∀ x ∈ gp.1, x.isDigit = true := by
            rcases hsh2 with h1 | h1
            · exact h1
            · obtain ⟨d1, d2, hde, _, _, _, _⟩ := h1
              exfalso
              exact hdot (by rw [hde]; simp)
          have hlen : gp.1.length ≤ 9 := by
            rw [← all_digits_countD gp.1 hdig]
            omega
          rw [pyInt_digits gp.1 hne hdig]
          simp only []
          rw [process_number_small (natOfDigits gp.1) (natOfDigits_lt_billion gp.1 hdig hlen)]
          simp only []
          refine ⟨_, rfl, ?_⟩
          have hwg := (process_number_rendered (natOfDigits gp.1) _
            (process_number_small (natOfDigits gp.1)
              (natOfDigits_lt_billion gp.1 hdig hlen))).1
          calc countD (pyStrip ((cardinalSpec (natOfDigits gp.1)).data ++ ' ' :: gp.2))
              ≤ countD ((cardinalSpec (natOfDigits gp.1)).data ++ ' ' :: gp.2) :=
                countD_pyStrip_le _
            _ = 0 := by
                rw [countD_append, countD_zero_of_good _ hwg, countD_cons, hg2d]
                decide
            _ ≤ countD full := Nat.zero_le _

lemma numGroup_snd_sublist (cs : List Char) : ((numGroup cs).2).Sublist cs := by
  conv_rhs => rw [← numGroup_split cs]
  exact List.sublist_append_right _ _

lemma curSyms_ne_nil : ∀ s ∈ curSyms, s ≠ [] := by decide

lemma tryCurrencyAlt_split (cs : List Char) (fa : List Char × List Char)
    (h : tryCurrencyAlt cs = some fa) : fa.1 ++ fa.2 = cs ∧ fa.1 ≠ [] := by
  rw [tryCurrencyAlt] at h
  obtain ⟨sym, hsym, hinner⟩ := List.exists_of_findSome?_eq_some h
  cases hml : matchLit sym cs with
  | none => rw [hml] at hinner; exact absurd hinner (by simp)
  | some r0 =>
    rw [hml] at hinner
    simp only [] at hinner
    by_cases htw : (r0.dropWhile isPySpace).takeWhile Char.isDigit = []
    · rw [if_pos htw] at hinner
      exact absurd hinner (by simp)
    · rw [if_neg htw] at hinner
      simp only [Option.some_inj] at hinner
      obtain ⟨hg1, hg2⟩ : fa.1 = sym ++ r0.takeWhile isPySpace ++
          (numGroup (r0.dropWhile isPySpace)).1 ∧
          fa.2 = (numGroup (r0.dropWhile isPySpace)).2 := by
        rw [← hinner]
        exact ⟨rfl, rfl⟩
      constructor
      · rw [hg1, hg2, matchLit_eq sym cs r0 hml, List.append_assoc, List.append_assoc,
          numGroup_split, List.takeWhile_append_dropWhile]
      · rw [hg1]
        have := curSyms_ne_nil sym hsym
        cases sym with
        | nil => exact absurd rfl this
        | cons s0 s' => simp

lemma tryNumAlt_split (cs : List Char) (fa : List Char × List Char)
    (h : tryNumAlt cs = some fa) : fa.1 ++ fa.2 = cs ∧ fa.1 ≠ [] := by
  rw [tryNumAlt.eq_def] at h
  cases cs with
  | nil => exact absurd h (by simp)
  | cons c rest =>
    simp only [] at h
    by_cases hc : c.isDigit = true
    · rw [if_pos hc] at h
      have hne1 := numGroup_fst_ne_nil c rest hc
      cases hera : eraStrs.findSome? (fun e =>
          match matchLit e ((numGroup (c :: rest)).2.dropWhile isPySpace) with
          | some r4 => some (e, r4)
          | none => none) with
      | some er =>
        rw [hera] at h
        simp only [Option.some_inj] at h
        obtain ⟨e, _, hinner⟩ := List.exists_of_findSome?_eq_some hera
        have hml : matchLit e ((numGroup (c :: rest)).2.dropWhile isPySpace) = some er.2 ∧
            er.1 = e := by
          cases hm : matchLit e ((numGroup (c :: rest)).2.dropWhile isPySpace) with
          | none => rw [hm] at hinner; exact absurd hinner (by simp)
          | some r4 =>
            rw [hm] at hinner
            simp only [Option.some_inj] at hinner
            exact ⟨by rw [← hinner], by rw [← hinner]⟩
        obtain ⟨hg1, hg2⟩ : fa.1 = (numGroup (c :: rest)).1 ++
            (numGroup (c :: rest)).2.takeWhile isPySpace ++ er.1 ∧ fa.2 = er.2 := by
          rw [← h]
          exact ⟨rfl, rfl⟩
        constructor
        · rw [hg1, hg2, List.append_assoc, List.append_assoc, hml.2,
            ← matchLit_eq e _ er.2 hml.1, List.takeWhile_append_dropWhile,
            numGroup_split]
        · rw [hg1]
          cases hg : (numGroup (c :: rest)).1 with
          | nil => exact absurd hg hne1
          | cons x xs => simp
      | none =>
        rw [hera] at h
        simp only [Option.some_inj] at h
        obtain ⟨hg1, hg2⟩ : fa.1 = (numGroup (c :: rest)).1 ∧
            fa.2 = (numGroup (c :: rest)).2 := by
          rw [← h]
          exact ⟨rfl, rfl⟩
        rw [hg1, hg2]
        exact ⟨numGroup_split _, hne1⟩
    · rw [if_neg hc] at h
      exact absurd h (by simp)

lemma pctGo_total (rec : List Char → Option (List Char)) (hrec : RecOK rec) :
    ∀ (fuel : Nat) (cs : List Char), cs.length < fuel → countD cs ≤ 9 →
      ∃ out, pctGo rec fuel cs = some out ∧ countD out ≤ countD cs := by
  intro fuel
  induction fuel with
  | zero => intro cs h; omega
  | succ f ih =>
    intro cs hlen hcd
    match cs with
    | [] => exact ⟨[], rfl, le_refl _⟩
    | c :: rest =>
      have hrest : ∀ hr : countD rest ≤ 9, ∃ tail, pctGo rec f rest = some tail ∧
          countD tail ≤ countD rest := by
        intro hr
        exact ih rest (by simp at hlen; omega) hr
      have hrest9 : countD rest ≤ 9 := by
        rw [countD_cons] at hcd
        omega
      obtain ⟨tail, htail, htaild⟩ := hrest hrest9
      by_cases hc : c.isDigit = true
      · rw [pctGo, if_pos hc]
        simp only []
        cases hdw : (numGroup (c :: rest)).2.dropWhile isPySpace with
        | nil =>
          simp only []
          rw [htail]
          exact ⟨c :: tail, rfl, by rw [countD_cons, countD_cons]; omega⟩
        | cons x r4 =>
          simp only []
          by_cases hx : x = '%'
          · rw [if_pos hx]
            have hg1sh : NumShape (numGroup (c :: rest)).1 :=
              numGroup_fst_numShape c rest hc
            have hg1le : countD (numGroup (c :: rest)).1 ≤ countD (c :: rest) :=
              countD_le_of_sublist _ _ (numGroup_fst_sublist _)
            obtain ⟨w, hw, hwd⟩ := hrec _ hg1sh (le_trans hg1le hcd)
            have hr4sub : r4.Sublist (c :: rest) := by
              have s1 : r4.Sublist (x :: r4) := List.sublist_cons_self x r4
              have s2 : (x :: r4).Sublist (numGroup (c :: rest)).2 := by
                rw [← hdw]
                exact List.dropWhile_sublist _
              exact (s1.trans s2).trans (numGroup_snd_sublist _)
            have hr4len : r4.length < f := by
              have h1 : (c :: rest).length =
                  (numGroup (c :: rest)).1.length + (numGroup (c :: rest)).2.length := by
                conv_lhs => rw [← numGroup_split (c :: rest)]
                simp [List.length_append]
              have h2 : (numGroup (c :: rest)).2.length =
                  ((numGroup (c :: rest)).2.takeWhile isPySpace).length + (x :: r4).length := by
                conv_lhs => rw [show (numGroup (c :: rest)).2 =
                    (numGroup (c :: rest)).2.takeWhile isPySpace ++
                      (numGroup (c :: rest)).2.dropWhile isPySpace from
                    (List.takeWhile_append_dropWhile isPySpace (numGroup (c :: rest)).2).symm,
                  hdw]
                simp [List.length_append]
              have h3 : (numGroup (c :: rest)).1.length ≥ 1 := by
                cases hg : (numGroup (c :: rest)).1 with
                | nil => exact absurd hg (numGroup_fst_ne_nil c rest hc)
                | cons y ys => simp
              simp only [List.length_cons] at hlen h1 h2 ⊢
              omega
            have hr4cd : countD r4 ≤ 9 :=
              le_trans (countD_le_of_sublist _ _ hr4sub) hcd
            obtain ⟨tl2, htl2, htl2d⟩ := ih r4 hr4len hr4cd
            rw [hw, htl2]
            refine ⟨_, rfl, ?_⟩
            rw [countD_append, countD_cons, countD_append, hwd]
            have h4 : countD r4 ≤ countD (c :: rest) :=
              countD_le_of_sublist _ _ hr4sub
            rw [countD_cons, if_pos hc] at h4
            rw [if_pos hc]
            have hpd2 : countD [' ', 'p', 'e', 'r', 'c', 'e', 'n', 't'] = 0 := by decide
            rw [hpd2]
            omega
          · rw [if_neg hx]
            rw [htail]
            exact ⟨c :: tail, rfl, by rw [countD_cons, countD_cons]; omega⟩
      · rw [pctGo, if_neg hc, htail]
        exact ⟨c :: tail, rfl, by rw [countD_cons, countD_cons]; omega⟩

lemma spanGo_total (rec : List Char → Option (List Char)) (hrec : RecOK rec) :
    ∀ (fuel : Nat) (cs : List Char), cs.length < fuel → countD cs ≤ 9 →
      ∃ out, spanGo rec fuel cs = some out ∧ countD out ≤ countD cs := by
  intro fuel
  induction fuel with
  | zero => intro cs h; omega
  | succ f ih =>
    intro cs hlen hcd
    match cs with
    | [] => exact ⟨[], rfl, le_refl _⟩
    | c :: rest =>
      have hstep : ∀ fa : List Char × List Char, fa.1 ++ fa.2 = c :: rest → fa.1 ≠ [] →
          ∃ r tail, process_match rec fa.1 = some r ∧ spanGo rec f fa.2 = some tail ∧
            countD (r ++ tail) ≤ countD (c :: rest) := by
        intro fa hsp hne
        have hsum : countD fa.1 + countD fa.2 = countD (c :: rest) := by
          rw [← hsp, countD_append]
        have hfa2len : fa.2.length < f := by
          have h1 : fa.1.length + fa.2.length = (c :: rest).length := by
            rw [← hsp, List.length_append]
          have h2 : 1 ≤ fa.1.length := by
            cases hg : fa.1 with
            | nil => exact absurd hg hne
            | cons y ys => simp
          simp only [List.length_cons] at hlen h1
          omega
        obtain ⟨r, hr, hrd⟩ := process_match_total rec fa.1 hrec (by omega)
        obtain ⟨tail, htail, htaild⟩ := ih fa.2 hfa2len (by omega)
        exact ⟨r, tail, hr, htail, by rw [countD_append]; omega⟩
      cases htc : tryCurrencyAlt (c :: rest) with
      | some fa =>
        obtain ⟨hsp, hne⟩ := tryCurrencyAlt_split _ fa htc
        obtain ⟨r, tail, hr, htail, hsum⟩ := hstep fa hsp hne
        refine ⟨r ++ tail, ?_, hsum⟩
        rw [spanGo, htc]
        simp only []
        rw [hr, htail]
      | none =>
        cases htn : tryNumAlt (c :: rest) with
        | some fa =>
          obtain ⟨hsp, hne⟩ := tryNumAlt_split _ fa htn
          obtain ⟨r, tail, hr, htail, hsum⟩ := hstep fa hsp hne
          refine ⟨r ++ tail, ?_, hsum⟩
          rw [spanGo, htc]
          simp only []
          rw [htn]
          simp only []
          rw [hr, htail]
        | none =>
          cases hty : tryYearAlt (c :: rest) with
          | some fa =>
            have hsp : fa.1 ++ fa.2 = c :: rest ∧ fa.1 ≠ [] := by
              obtain ⟨a, b, c', d, e, f', hm, hspl, _⟩ := tryYearAlt_shape _ fa hty
              exact ⟨hspl.symm, by rw [hm]; simp⟩
            obtain ⟨r, tail, hr, htail, hsum⟩ := hstep fa hsp.1 hsp.2
            refine ⟨r ++ tail, ?_, hsum⟩
            rw [spanGo, htc]
            simp only []
            rw [htn]
            simp only []
            rw [hty]
            simp only []
            rw [hr, htail]
          | none =>
            have hrcd : countD rest ≤ 9 := by
              rw [countD_cons] at hcd
              omega
            obtain ⟨tail, htail, htaild⟩ := ih rest (by simp at hlen; omega) hrcd
            refine ⟨c :: tail, ?_, ?_⟩
            · rw [spanGo, htc]
              simp only []
              rw [htn]
              simp only []
              rw [hty]
              simp only []
              rw [htail]
            · rw [countD_cons, countD_cons]
              omega

lemma replaceChar_cons (sym : Char) (w : String) (c : Char) (r : List Char) :
    replaceChar sym w (c :: r) =
      (if c = sym then ' ' :: w.data ++ [' '] else [c]) ++ replaceChar sym w r := by
  rw [replaceChar, List.foldr_cons]
  rfl

lemma countD_replaceChar (sym : Char) (w : String) (hs : sym.isDigit = false)
    (hw : countD w.data = 0) :
    ∀ cs : List Char, countD (replaceChar sym w cs) = countD cs := by
  intro cs
  induction cs with
  | nil => rfl
  | cons c r ih =>
    rw [replaceChar_cons, countD_append, ih, countD_cons]
    by_cases hc : c = sym
    · rw [if_pos hc]
      have h1 : countD (' ' :: w.data ++ [' ']) = 0 := by
        rw [List.cons_append, countD_cons, countD_append, hw]
        have : countD ([' '] : List Char) = 0 := by decide
        rw [this]
        decide
      rw [h1, hc, hs]
      simp
    · rw [if_neg hc]
      have h1 : countD [c] = if c.isDigit then 1 else 0 := by
        rw [countD, List.countP_singleton]
      rw [h1]
      omega

lemma countD_foldl_sym (l : List (Char × String))
    (hl : ∀ p ∈ l, p.1.isDigit = false ∧ countD p.2.data = 0) :
    ∀ cs : List Char,
      countD (l.foldl (fun t p => if p.1 = '%' then t else replaceChar p.1 p.2 t) cs) =
        countD cs := by
  induction l with
  | nil => intro cs; rfl
  | cons p l' ih =>
    intro cs
    rw [List.foldl_cons]
    rw [ih (fun q hq => hl q (by simp [hq]))]
    by_cases hp : p.1 = '%'
    · rw [if_pos hp]
    · rw [if_neg hp]
      exact countD_replaceChar p.1 p.2 (hl p (by simp)).1 (hl p (by simp)).2 cs

lemma symbols_table_countD : ∀ p ∈ symbols, p.1.isDigit = false ∧ countD p.2.data = 0 := by
  decide

lemma countD_symbolPass (cs : List Char) : countD (symbolPass cs) = countD cs :=
  countD_foldl_sym symbols symbols_table_countD cs

lemma processBody_total (rec : List Char → Option (List Char)) (hrec : RecOK rec)
    (text : List Char) (hcd : countD text ≤ 9) :
    ∃ out, processBody rec text = some out := by
  rw [processBody]
  obtain ⟨t1, ht1, ht1d⟩ :=
    letterGo_total (text.length + 1) text (by omega) hcd
  rw [show process_letter_number_combination text = some t1 from ht1]
  simp only []
  obtain ⟨t2, ht2, ht2d⟩ := pctGo_total rec hrec (t1.length + 1) t1 (by omega) (by omega)
  rw [ht2]
  simp only []
  have ht3d : countD (symbolPass t2) = countD t2 := countD_symbolPass t2
  obtain ⟨t4, ht4, ht4d⟩ := spanGo_total rec hrec ((symbolPass t2).length + 1)
    (symbolPass t2) (by omega) (by omega)
  rw [ht4]
  exact ⟨collapse t4, rfl⟩

lemma yearSearch_false_of_no_dash : ∀ cs : List Char, '-' ∉ cs → yearSearch cs = false := by
  intro cs
  induction cs with
  | nil => intro _; rfl
  | cons x rest ih =>
    intro hnd
    rw [yearSearch]
    have h1 : tryYearAlt (x :: rest) = none := by
      cases hty : tryYearAlt (x :: rest) with
      | none => rfl
      | some fa => exact absurd (tryYearAlt_dash _ fa hty) hnd
    rw [h1, ih (fun hm => hnd (by simp [hm]))]
    rfl

lemma numShape_head (x : List Char) (h : NumShape x) :
    ∃ c rest, x = c :: rest ∧ c.isDigit = true := by
  obtain ⟨hne, hsh⟩ := h
  rcases hsh with h1 | ⟨d1, d2, he, hd1ne, _, hd1, _⟩
  · cases x with
    | nil => exact absurd rfl hne
    | cons c rest => exact ⟨c, rest, rfl, h1 c (by simp)⟩
  · cases d1 with
    | nil => exact absurd rfl hd1ne
    | cons c d1' => exact ⟨c, d1' ++ '.' :: d2, by rw [he]; rfl, hd1 c (by simp)⟩

lemma numGroup_numShape (x : List Char) (h : NumShape x) : numGroup x = (x, []) := by
  obtain ⟨hne, hsh⟩ := h
  rcases hsh with h1 | ⟨d1, d2, he, hd1ne, hd2ne, hd1, hd2⟩
  · exact numGroup_int x h1
  · rw [he]
    exact numGroup_dec d1 d2 hd1 hd2 hd2ne

lemma era_findSome_pair_nil :
    eraStrs.findSome? (fun e =>
      match matchLit e ([] : List Char) with
      | some r4 => some (e, r4)
      | none => none) = none := rfl

lemma era_findSome_fst_nil :
    eraStrs.findSome? (fun e =>
      match matchLit e ([] : List Char) with
      | some _ => some e
      | none => none) = none := rfl

lemma tryNumAlt_numShape (x : List Char) (h : NumShape x) :
    tryNumAlt x = some (x, []) := by
  obtain ⟨c, rest, he, hc⟩ := numShape_head x h
  subst he
  rw [tryNumAlt.eq_def]
  simp only []
  rw [if_pos hc, numGroup_numShape _ h]
  simp only [List.dropWhile_nil, List.takeWhile_nil]
  rw [era_findSome_pair_nil]

lemma numMatchGroups_numShape (x : List Char) (h : NumShape x) :
    numMatchGroups x = some (x, []) := by
  obtain ⟨c, rest, he, hc⟩ := numShape_head x h
  subst he
  rw [numMatchGroups.eq_def]
  simp only []
  rw [if_pos hc, numGroup_numShape _ h]
  simp only [List.dropWhile_nil]
  rw [era_findSome_fst_nil]

lemma process_match_numShape (rec : List Char → Option (List Char)) (x : List Char)
    (hsh : NumShape x) (h9 : countD x ≤ 9) :
    ∃ out, process_match rec x = some out ∧ countD out = 0 := by
  obtain ⟨c, rest, he, hc⟩ := numShape_head x hsh
  have hnum := numShape_numeralish x hsh
  rw [process_match,
    if_neg (by rw [yearSearch_false_of_no_dash x (dash_not_numeralish x hnum)]; simp),
    show curMatchGroups x = none from
      he ▸ curMatchGroups_none_of_head c rest (Or.inl hc)]
  simp only []
  rw [numMatchGroups_numShape x hsh]
  simp only []
  obtain ⟨hne, hsh2⟩ := hsh
  by_cases hdot : '.' ∈ x
  · rw [if_pos hdot]
    have hdec : ∃ d1 d2, x = d1 ++ '.' :: d2 ∧ d1 ≠ [] ∧ d2 ≠ [] ∧
        (∀ y ∈ d1, y.isDigit = true) ∧ (∀ y ∈ d2, y.isDigit = true) := by
      rcases hsh2 with h1 | h1
      · exact absurd (h1 '.' hdot) (by decide)
      · exact h1
    obtain ⟨d1, d2, hde, hd1ne, hd2ne, hd1, hd2⟩ := hdec
    have hlen : d1.length ≤ 9 := by
      have h2 : countD x = d1.length + countD ('.' :: d2) := by
        rw [hde, countD_append, all_digits_countD d1 hd1]
      omega
    rw [hde, handle_decimal_some d1 d2 hd1ne hd1 hd2 hlen]
    simp only []
    refine ⟨_, rfl, ?_⟩
    have hwg := handle_decimal_good (d1 ++ '.' :: d2) _
      (handle_decimal_some d1 d2 hd1ne hd1 hd2 hlen)
    have hle := countD_pyStrip_le ((cardinalSpec (natOfDigits d1) ++ " point " ++
      String.intercalate " " ((digitWords d2).getD [])).data ++ [' '])
    have hz : countD ((cardinalSpec (natOfDigits d1) ++ " point " ++
        String.intercalate " " ((digitWords d2).getD [])).data ++ [' ']) = 0 := by
      rw [countD_append, countD_zero_of_good _ hwg]
      decide
    omega
  · rw [if_neg hdot]
    have hdig : ∀ y ∈ x, y.isDigit = true := by
      rcases hsh2 with h1 | h1
      · exact h1
      · obtain ⟨d1, d2, hde, _, _, _, _⟩ := h1
        exact absurd (by rw [hde]; simp : '.' ∈ x) hdot
    have hlen : x.length ≤ 9 := by
      rw [← all_digits_countD x hdig]
      omega
    rw [pyInt_digits x hne hdig]
    simp only []
    rw [process_number_small (natOfDigits x) (natOfDigits_lt_billion x hdig hlen)]
    simp only []
    refine ⟨_, rfl, ?_⟩
    have hwg := (process_number_rendered (natOfDigits x) _
      (process_number_small (natOfDigits x) (natOfDigits_lt_billion x hdig hlen))).1
    have hle := countD_pyStrip_le ((cardinalSpec (natOfDigits x)).data ++ [' '])
    have hz : countD ((cardinalSpec (natOfDigits x)).data ++ [' ']) = 0 := by
      rw [countD_append, countD_zero_of_good _ hwg]
      decide
    omega

lemma spanGo_numShape_eval (rec : List Char → Option (List Char)) (x : List Char)
    (hsh : NumShape x) (h9 : countD x ≤ 9) :
    ∃ out, spanGo rec (x.length + 1) x = some out ∧ countD out = 0 := by
  obtain ⟨c, rest, he, hc⟩ := numShape_head x hsh
  obtain ⟨out, ho, hod⟩ := process_match_numShape rec x hsh h9
  have hlen1 : 1 ≤ x.length := by rw [he]; simp
  have hnil : spanGo rec x.length [] = some [] := by
    cases hxl : x.length with
    | zero => omega
    | succ n => rfl
  refine ⟨out ++ [], ?_, by rw [countD_append, hod]; rfl⟩
  conv_lhs => rw [he]
  rw [spanGo, show tryCurrencyAlt (c :: rest) = none from
    curMatchGroups_none_of_head c rest (Or.inl hc) ▸
      tryCurrencyAlt_none_of_head c rest (Or.inl hc)]
  simp only []
  rw [show tryNumAlt (c :: rest) = some (x, []) from he ▸ tryNumAlt_numShape x hsh]
  simp only []
  rw [ho, ← he, hnil]

lemma pySplitAux_mem : ∀ (cs acc : List Char) (t : List Char),
    t ∈ pySplitAux cs acc → ∀ c ∈ t, c ∈ cs ∨ c ∈ acc := by
  intro cs
  induction cs with
  | nil =>
    intro acc t ht c hcin
    rw [pySplitAux] at ht
    by_cases hacc : acc = []
    · rw [if_pos hacc] at ht
      exact absurd ht (by simp)
    · rw [if_neg hacc] at ht
      rw [List.mem_singleton] at ht
      subst ht
      exact Or.inr (by simpa using hcin)
  | cons c0 rest ih =>
    intro acc t ht c hcin
    rw [pySplitAux] at ht
    by_cases hsp : isPySpace c0 = true
    · rw [if_pos hsp] at ht
      by_cases hacc : acc = []
      · rw [if_pos hacc] at ht
        rcases ih [] t ht c hcin with h1 | h1
        · exact Or.inl (by simp [h1])
        · exact absurd h1 (by simp)
      · rw [if_neg hacc] at ht
        rcases List.mem_cons.mp ht with h1 | h1
        · subst h1
          exact Or.inr (by simpa using hcin)
        · rcases ih [] t h1 c hcin with h2 | h2
          · exact Or.inl (by simp [h2])
          · exact absurd h2 (by simp)
    · rw [if_neg hsp] at ht
      rcases ih (c0 :: acc) t ht c hcin with h1 | h1
      · exact Or.inl (by simp [h1])
      · rcases List.mem_cons.mp h1 with h2 | h2
        · exact Or.inl (by simp [h2])
        · exact Or.inr h2

lemma mem_collapse (cs : List Char) (c : Char) (h : c ∈ collapse cs) :
    c ∈ cs ∨ c = ' ' := by
  rw [collapse] at h
  rcases mem_intercalate [' '] (pySplit cs) c h with h1 | ⟨w, hw, hcw⟩
  · exact Or.inr (by simpa using h1)
  · rcases pySplitAux_mem cs [] w hw c hcw with h2 | h2
    · exact Or.inl h2
    · exact absurd h2 (by simp)

lemma countD_collapse_zero (cs : List Char) (h : countD cs = 0) :
    countD (collapse cs) = 0 := by
  rw [countD_eq_zero_iff] at h ⊢
  intro c hc
  rcases mem_collapse cs c hc with h1 | h1
  · exact h c h1
  · rw [h1]
    rfl

lemma recOK_processTextF_one : RecOK (processTextF 1) := by
  intro x hsh h9
  have hnum := numShape_numeralish x hsh
  rw [show (1 : Nat) = 0 + 1 from rfl, processTextF, processBody]
  have hletter : process_letter_number_combination x = some x :=
    letterGo_id (x.length + 1) x (by omega) (Or.inr (numeralish_no_letter x hnum))
  rw [hletter]
  simp only []
  rw [pctGo_id (processTextF 0) (x.length + 1) x (by omega)
    (Or.inl (numeralish_no_pct x hnum))]
  simp only []
  have hsp := symbolPass_id x (numeralish_no_symbol x hnum)
  simp only [hsp]
  obtain ⟨out, ho, hod⟩ := spanGo_numShape_eval (processTextF 0) x hsh h9
  rw [ho]
  exact ⟨collapse out, rfl, countD_collapse_zero out hod⟩

lemma processTextF_two_total (t : List Char) (hcd : countD t ≤ 9) :
    ∃ out, processTextF 2 t = some out := by
  rw [show (2 : Nat) = 1 + 1 from rfl, processTextF]
  exact processBody_total (processTextF 1) recOK_processTextF_one t hcd

/-! ## Exact evaluation on currency-plus-numeral inputs (for C7) -/

lemma takeWhile_none_sat (p : Char → Bool) (d : List Char) (h : ∀ c ∈ d, p c = false) :
    d.takeWhile p = [] ∧ d.dropWhile p = d := by
  cases d with
  | nil => exact ⟨rfl, rfl⟩
  | cons c r =>
    constructor
    · rw [List.takeWhile_cons_of_neg (by simp [h c (by simp)])]
    · rw [List.dropWhile_cons_of_neg (by simp [h c (by simp)])]

lemma digits_no_space (d : List Char) (h : ∀ c ∈ d, c.isDigit = true) :
    ∀ c ∈ d, isPySpace c = false := by
  intro c hc
  cases hsp : isPySpace c with
  | false => rfl
  | true =>
    have := space_not_digit c hsp
    rw [h c hc] at this
    exact absurd this (by simp)

lemma intercalate_head (ws : List (List Char)) (h1 : ws ≠ [])
    (h2 : ∀ w ∈ ws, w ≠ [] ∧ ∀ c ∈ w, isPySpace c = false) :
    ∃ c0 r0, List.intercalate [' '] ws = c0 :: r0 ∧ isPySpace c0 = false := by
  cases ws with
  | nil => exact absurd rfl h1
  | cons t ws' =>
    obtain ⟨htne, htsp⟩ := h2 t (by simp)
    cases t with
    | nil => exact absurd rfl htne
    | cons c0 t' =>
      cases ws' with
      | nil =>
        rw [intercalate_single]
        exact ⟨c0, t', rfl, htsp c0 (by simp)⟩
      | cons b ws'' =>
        rw [intercalate_cons_ne _ _ _ (by simp)]
        exact ⟨c0, t' ++ [' '] ++ List.intercalate [' '] (b :: ws''),
          by simp [List.append_assoc], htsp c0 (by simp)⟩

lemma intercalate_rev_head : ∀ (ws : List (List Char)), ws ≠ [] →
    (∀ w ∈ ws, w ≠ [] ∧ ∀ c ∈ w, isPySpace c = false) →
    ∃ cl rl, (List.intercalate [' '] ws).reverse = cl :: rl ∧ isPySpace cl = false := by
  intro ws
  induction ws with
  | nil => intro h; exact absurd rfl h
  | cons t ws' ih =>
    intro _ h2
    cases ws' with
    | nil =>
      obtain ⟨htne, htsp⟩ := h2 t (by simp)
      rw [intercalate_single]
      cases hrev : t.reverse with
      | nil => exact absurd (by simpa using hrev) htne
      | cons cl rl =>
        refine ⟨cl, rl, rfl, htsp cl ?_⟩
        have : cl ∈ t.reverse := by rw [hrev]; simp
        simpa using this
    | cons b ws'' =>
      obtain ⟨cl, rl, hrev, hsp⟩ := ih (by simp) (fun w hw => h2 w (by simp [hw]))
      rw [intercalate_cons_cons, List.reverse_append, hrev]
      exact ⟨cl, rl ++ (t ++ [' ']).reverse, by simp, hsp⟩

lemma pyStrip_ST (w : List Char) (h : SpacedTokens w) : pyStrip (w ++ [' ']) = w := by
  obtain ⟨ws, h1, h2, h3⟩ := h
  obtain ⟨c0, r0, hh, hh0⟩ := intercalate_head ws h1 h2
  obtain ⟨cl, rl, hr, hrl⟩ := intercalate_rev_head ws h1 h2
  rw [← h3] at hh hr
  subst hh
  rw [pyStrip, List.cons_append, List.dropWhile_cons_of_neg (by simp [hh0]),
    ← List.cons_append, List.reverse_append,
    show ([' '] : List Char).reverse = [' '] from rfl, List.singleton_append,
    List.dropWhile_cons_of_pos (by decide), hr,
    List.dropWhile_cons_of_neg (by simp [hrl]), ← hr, List.reverse_reverse]

lemma process_match_digits (rec : List Char → Option (List Char)) (d : List Char)
    (hne : d ≠ []) (hd : ∀ c ∈ d, c.isDigit = true) (hlen : d.length ≤ 9) :
    process_match rec d = some ((cardinalSpec (natOfDigits d)).data) := by
  have hsh : NumShape d := ⟨hne, Or.inl hd⟩
  obtain ⟨c, rest, he, hc⟩ := numShape_head d hsh
  have hnum := numShape_numeralish d hsh
  rw [process_match,
    if_neg (by rw [yearSearch_false_of_no_dash d (dash_not_numeralish d hnum)]; simp),
    show curMatchGroups d = none from
      he ▸ curMatchGroups_none_of_head c rest (Or.inl hc)]
  simp only []
  rw [numMatchGroups_numShape d hsh]
  simp only []
  have hdot : '.' ∉ d := fun hmem => absurd (hd '.' hmem) (by decide)
  rw [if_neg hdot, pyInt_digits d hne hd]
  simp only []
  rw [process_number_small (natOfDigits d) (natOfDigits_lt_billion d hd hlen)]
  simp only []
  rw [show (' ' :: ([] : List Char)) = [' '] from rfl,
    pyStrip_ST _ (process_number_rendered (natOfDigits d) _
      (process_number_small (natOfDigits d) (natOfDigits_lt_billion d hd hlen))).2]

lemma spanGo_digits (rec : List Char → Option (List Char)) (d : List Char)
    (hne : d ≠ []) (hd : ∀ c ∈ d, c.isDigit = true) (hlen : d.length ≤ 9) :
    spanGo rec (d.length + 1) d = some ((cardinalSpec (natOfDigits d)).data) := by
  have hsh : NumShape d := ⟨hne, Or.inl hd⟩
  obtain ⟨c, rest, he, hc⟩ := numShape_head d hsh
  have hnil : spanGo rec d.length [] = some [] := by
    cases hxl : d.length with
    | zero => rw [he] at hxl; exact absurd hxl (by simp)
    | succ n => rfl
  conv_lhs => rw [he]
  rw [spanGo, show tryCurrencyAlt (c :: rest) = none from
    tryCurrencyAlt_none_of_head c rest (Or.inl hc)]
  simp only []
  rw [show tryNumAlt (c :: rest) = some (d, []) from he ▸ tryNumAlt_numShape d hsh]
  simp only []
  rw [process_match_digits rec d hne hd hlen, ← he, hnil]
  simp only []
  rw [List.append_nil]

lemma processTextF_one_digits (d : List Char) (hne : d ≠ [])
    (hd : ∀ c ∈ d, c.isDigit = true) (hlen : d.length ≤ 9) :
    processTextF 1 d = some ((cardinalSpec (natOfDigits d)).data) := by
  have hsh : NumShape d := ⟨hne, Or.inl hd⟩
  have hnum := numShape_numeralish d hsh
  rw [show (1 : Nat) = 0 + 1 from rfl, processTextF, processBody]
  have hletter : process_letter_number_combination d = some d :=
    letterGo_id (d.length + 1) d (by omega) (Or.inr (numeralish_no_letter d hnum))
  rw [hletter]
  simp only []
  rw [pctGo_id (processTextF 0) (d.length + 1) d (by omega)
    (Or.inl (numeralish_no_pct d hnum))]
  simp only []
  have hsp := symbolPass_id d (numeralish_no_symbol d hnum)
  simp only [hsp]
  rw [spanGo_digits (processTextF 0) d hne hd hlen]
  simp only []
  rw [ST_collapse_eq _ (process_number_rendered (natOfDigits d) _
    (process_number_small (natOfDigits d) (natOfDigits_lt_billion d hd hlen))).2]

lemma space_split (sp d : List Char) (hsp : ∀ c ∈ sp, isPySpace c = true)
    (hd : ∀ c ∈ d, c.isDigit = true) (hne : d ≠ []) :
    (sp ++ d).takeWhile isPySpace = sp ∧ (sp ++ d).dropWhile isPySpace = d := by
  cases d with
  | nil => exact absurd rfl hne
  | cons x r =>
    exact takeWhile_append_sat isPySpace sp x r hsp (digits_no_space (x :: r) hd x (by simp))

lemma letterGo_cons_none (fuel : Nat) (c : Char) (rest out : List Char)
    (h : tryLetterNum (c :: rest) = none) (hrest : letterGo fuel rest = some out) :
    letterGo (fuel + 1) (c :: rest) = some (c :: out) := by
  rw [letterGo, h]
  simp only []
  rw [hrest]

lemma no_char_in_predigits (c : Char) (pre d : List Char) (hpre : c ∉ pre)
    (hcd : c.isDigit = false) (hd : ∀ x ∈ d, x.isDigit = true) : c ∉ pre ++ d := by
  intro h
  rcases List.mem_append.mp h with h1 | h1
  · exact hpre h1
  · rw [hd c h1] at hcd
    exact absurd hcd (by simp)

lemma symfree_predigits (pre d : List Char) (hpre : ∀ p ∈ symbols, p.1 ∉ pre)
    (hd : ∀ x ∈ d, x.isDigit = true) : ∀ p ∈ symbols, p.1 ∉ pre ++ d := by
  intro p hp
  exact no_char_in_predigits p.1 pre d (hpre p hp) (symbols_table_countD p hp).1 hd

lemma processBody_cur (rec : List Char → Option (List Char)) (m sym d w : List Char)
    (hletter : process_letter_number_combination m = some m)
    (hpct : '%' ∉ m)
    (hsymfree : ∀ p ∈ symbols, p.1 ∉ m)
    (hcur : tryCurrencyAlt m = some (m, []))
    (hnd : '-' ∉ m)
    (hcm : curMatchGroups m = some (sym, d))
    (hrecd : rec d = some w) :
    processBody rec m = some (collapse
      ((dictGet currency_symbols (String.mk sym) (String.mk sym)).data ++ ' ' :: w)) := by
  have hmne : m ≠ [] := by
    intro he
    rw [he, show tryCurrencyAlt [] = none from rfl] at hcur
    exact absurd hcur (by simp)
  rw [processBody, hletter]
  simp only []
  rw [pctGo_id rec (m.length + 1) m (by omega) (Or.inl hpct)]
  simp only []
  have hsp := symbolPass_id m hsymfree
  simp only [hsp]
  have hpm : process_match rec m = some
      ((dictGet currency_symbols (String.mk sym) (String.mk sym)).data ++ ' ' :: w) := by
    rw [process_match, if_neg (by rw [yearSearch_false_of_no_dash m hnd]; simp), hcm]
    simp only []
    rw [handle_currency, hrecd]
  cases m with
  | nil => exact absurd rfl hmne
  | cons c0 r0 =>
    rw [spanGo, hcur]
    simp only []
    rw [hpm]
    have hnil : spanGo rec (c0 :: r0).length [] = some [] := by
      rw [show (c0 :: r0).length = r0.length + 1 from rfl]
      rfl
    rw [hnil]
    simp only []
    rw [List.append_nil]

lemma tryCurrencyAlt_rsIn (sp d : List Char) (hsp : ∀ c ∈ sp, isPySpace c = true)
    (hne : d ≠ []) (hd : ∀ c ∈ d, c.isDigit = true) :
    tryCurrencyAlt ('R' :: 's' :: (sp ++ d)) = some ('R' :: 's' :: (sp ++ d), []) := by
  obtain ⟨hs1, hs2⟩ := space_split sp d hsp hd hne
  obtain ⟨hg1, hg2⟩ := takeWhile_all_sat Char.isDigit d hd
  rw [tryCurrencyAlt, show curSyms = [['R', 's'], ['₹'], ['$'], ['€'], ['£']] from rfl,
    List.findSome?_cons]
  simp only []
  rw [show matchLit ['R', 's'] ('R' :: 's' :: (sp ++ d)) = some (sp ++ d) from rfl]
  simp only []
  rw [hs1, hs2, hg1, if_neg hne, numGroup_int d hd]
  rfl

lemma curMatchGroups_rsIn (sp d : List Char) (hsp : ∀ c ∈ sp, isPySpace c = true)
    (hne : d ≠ []) (hd : ∀ c ∈ d, c.isDigit = true) :
    curMatchGroups ('R' :: 's' :: (sp ++ d)) = some (['R', 's'], d) := by
  obtain ⟨hs1, hs2⟩ := space_split sp d hsp hd hne
  obtain ⟨hg1, hg2⟩ := takeWhile_all_sat Char.isDigit d hd
  rw [curMatchGroups, show curSyms = [['R', 's'], ['₹'], ['$'], ['€'], ['£']] from rfl,
    List.findSome?_cons]
  simp only []
  rw [show matchLit ['R', 's'] ('R' :: 's' :: (sp ++ d)) = some (sp ++ d) from rfl]
  simp only []
  rw [hs2, hg1, if_neg hne, numGroup_int d hd]

lemma tryCurrencyAlt_oneSym (s : Char) (sp d : List Char)
    (hs : s = '₹' ∨ s = '$' ∨ s = '€' ∨ s = '£')
    (hsp : ∀ c ∈ sp, isPySpace c = true)
    (hne : d ≠ []) (hd : ∀ c ∈ d, c.isDigit = true) :
    tryCurrencyAlt (s :: (sp ++ d)) = some (s :: (sp ++ d), []) := by
  obtain ⟨hs1, hs2⟩ := space_split sp d hsp hd hne
  obtain ⟨hg1, hg2⟩ := takeWhile_all_sat Char.isDigit d hd
  rw [tryCurrencyAlt, show curSyms = [['R', 's'], ['₹'], ['$'], ['€'], ['£']] from rfl]
  rcases hs with h | h | h | h <;> subst h
  · rw [List.findSome?_cons]
    try simp only []
    rw [show matchLit ['R', 's'] ('₹' :: (sp ++ d)) = none from rfl]
    try simp only []
    rw [List.findSome?_cons]
    try simp only []
    rw [show matchLit ['₹'] ('₹' :: (sp ++ d)) = some (sp ++ d) from rfl]
    try simp only []
    rw [hs1, hs2, hg1, if_neg hne, numGroup_int d hd]
    rfl
  · rw [List.findSome?_cons]
    try simp only []
    rw [show matchLit ['R', 's'] ('$' :: (sp ++ d)) = none from rfl]
    try simp only []
    rw [List.findSome?_cons]
    try simp only []
    rw [show matchLit ['₹'] ('$' :: (sp ++ d)) = none from rfl]
    try simp only []
    rw [List.findSome?_cons]
    try simp only []
    rw [show matchLit ['$'] ('$' :: (sp ++ d)) = some (sp ++ d) from rfl]
    try simp only []
    rw [hs1, hs2, hg1, if_neg hne, numGroup_int d hd]
    rfl
  · rw [List.findSome?_cons]
    try simp only []
    rw [show matchLit ['R', 's'] ('€' :: (sp ++ d)) = none from rfl]
    try simp only []
    rw [List.findSome?_cons]
    try simp only []
    rw [show matchLit ['₹'] ('€' :: (sp ++ d)) = none from rfl]
    try simp only []
    rw [List.findSome?_cons]
    try simp only []
    rw [show matchLit ['$'] ('€' :: (sp ++ d)) = none from rfl]
    try simp only []
    rw [List.findSome?_cons]
    try simp only []
    rw [show matchLit ['€'] ('€' :: (sp ++ d)) = some (sp ++ d) from rfl]
    try simp only []
    rw [hs1, hs2, hg1, if_neg hne, numGroup_int d hd]
    rfl
  · rw [List.findSome?_cons]
    try simp only []
    rw [show matchLit ['R', 's'] ('£' :: (sp ++ d)) = none from rfl]
    try simp only []
    rw [List.findSome?_cons]
    try simp only []
    rw [show matchLit ['₹'] ('£' :: (sp ++ d)) = none from rfl]
    try simp only []
    rw [List.findSome?_cons]
    try simp only []
    rw [show matchLit ['$'] ('£' :: (sp ++ d)) = none from rfl]
    try simp only []
    rw [List.findSome?_cons]
    try simp only []
    rw [show matchLit ['€'] ('£' :: (sp ++ d)) = none from rfl]
    try simp only []
    rw [List.findSome?_cons]
    try simp only []
    rw [show matchLit ['£'] ('£' :: (sp ++ d)) = some (sp ++ d) from rfl]
    try simp only []
    rw [hs1, hs2, hg1, if_neg hne, numGroup_int d hd]
    rfl

lemma curMatchGroups_oneSym (s : Char) (sp d : List Char)
    (hs : s = '₹' ∨ s = '$' ∨ s = '€' ∨ s = '£')
    (hsp : ∀ c ∈ sp, isPySpace c = true)
    (hne : d ≠ []) (hd : ∀ c ∈ d, c.isDigit = true) :
    curMatchGroups (s :: (sp ++ d)) = some ([s], d) := by
  obtain ⟨hs1, hs2⟩ := space_split sp d hsp hd hne
  obtain ⟨hg1, hg2⟩ := takeWhile_all_sat Char.isDigit d hd
  rw [curMatchGroups, show curSyms = [['R', 's'], ['₹'], ['$'], ['€'], ['£']] from rfl]
  rcases hs with h | h | h | h <;> subst h
  · rw [List.findSome?_cons]
    try simp only []
    rw [show matchLit ['R', 's'] ('₹' :: (sp ++ d)) = none from rfl]
    try simp only []
    rw [List.findSome?_cons]
    try simp only []
    rw [show matchLit ['₹'] ('₹' :: (sp ++ d)) = some (sp ++ d) from rfl]
    try simp only []
    rw [hs2, hg1, if_neg hne, numGroup_int d hd]
  · rw [List.findSome?_cons]
    try simp only []
    rw [show matchLit ['R', 's'] ('$' :: (sp ++ d)) = none from rfl]
    try simp only []
    rw [List.findSome?_cons]
    try simp only []
    rw [show matchLit ['₹'] ('$' :: (sp ++ d)) = none from rfl]
    try simp only []
    rw [List.findSome?_cons]
    try simp only []
    rw [show matchLit ['$'] ('$' :: (sp ++ d)) = some (sp ++ d) from rfl]
    try simp only []
    rw [hs2, hg1, if_neg hne, numGroup_int d hd]
  · rw [List.findSome?_cons]
    try simp only []
    rw [show matchLit ['R', 's'] ('€' :: (sp ++ d)) = none from rfl]
    try simp only []
    rw [List.findSome?_cons]
    try simp only []
    rw [show matchLit ['₹'] ('€' :: (sp ++ d)) = none from rfl]
    try simp only []
    rw [List.findSome?_cons]
    try simp only []
    rw [show matchLit ['$'] ('€' :: (sp ++ d)) = none from rfl]
    try simp only []
    rw [List.findSome?_cons]
    try simp only []
    rw [show matchLit ['€'] ('€' :: (sp ++ d)) = some (sp ++ d) from rfl]
    try simp only []
    rw [hs2, hg1, if_neg hne, numGroup_int d hd]
  · rw [List.findSome?_cons]
    try simp only []
    rw [show matchLit ['R', 's'] ('£' :: (sp ++ d)) = none from rfl]
    try simp only []
    rw [List.findSome?_cons]
    try simp only []
    rw [show matchLit ['₹'] ('£' :: (sp ++ d)) = none from rfl]
    try simp only []
    rw [List.findSome?_cons]
    try simp only []
    rw [show matchLit ['$'] ('£' :: (sp ++ d)) = none from rfl]
    try simp only []
    rw [List.findSome?_cons]
    try simp only []
    rw [show matchLit ['€'] ('£' :: (sp ++ d)) = none from rfl]
    try simp only []
    rw [List.findSome?_cons]
    try simp only []
    rw [show matchLit ['£'] ('£' :: (sp ++ d)) = some (sp ++ d) from rfl]
    try simp only []
    rw [hs2, hg1, if_neg hne, numGroup_int d hd]

lemma letter_id_rsSp (d : List Char) (hd : ∀ c ∈ d, c.isDigit = true) :
    process_letter_number_combination ('R' :: 's' :: ' ' :: d) =
      some ('R' :: 's' :: ' ' :: d) := by
  have hdGo : letterGo (d.length + 1) d = some d :=
    letterGo_id _ d (by omega) (Or.inr (fun c hc => digit_not_letter c (hd c hc)))
  have h2 : letterGo (d.length + 2) (' ' :: d) = some (' ' :: d) :=
    letterGo_cons_none (d.length + 1) ' ' d d rfl hdGo
  have h1 : letterGo (d.length + 3) ('s' :: ' ' :: d) = some ('s' :: ' ' :: d) :=
    letterGo_cons_none (d.length + 2) 's' (' ' :: d) (' ' :: d) rfl h2
  exact letterGo_cons_none (d.length + 3) 'R' ('s' :: ' ' :: d) ('s' :: ' ' :: d) rfl h1

lemma letter_id_oneSym (s : Char) (hs4 : s = '₹' ∨ s = '$' ∨ s = '€' ∨ s = '£')
    (sp d : List Char) (hsp2 : sp = [] ∨ sp = [' ']) (hd : ∀ c ∈ d, c.isDigit = true) :
    process_letter_number_combination (s :: (sp ++ d)) = some (s :: (sp ++ d)) := by
  have hdGo : letterGo (d.length + 1) d = some d :=
    letterGo_id _ d (by omega) (Or.inr (fun c hc => digit_not_letter c (hd c hc)))
  rcases hsp2 with h | h <;> subst h
  · rcases hs4 with h | h | h | h <;> subst h <;>
      exact letterGo_cons_none (d.length + 1) _ d d rfl hdGo
  · have h2 : letterGo (d.length + 2) (' ' :: d) = some (' ' :: d) :=
      letterGo_cons_none (d.length + 1) ' ' d d rfl hdGo
    rcases hs4 with h | h | h | h <;> subst h <;>
      exact letterGo_cons_none (d.length + 2) _ (' ' :: d) (' ' :: d) rfl h2

lemma collapse_name_words (name : List Char) (hn1 : name ≠ [])
    (hn2 : ∀ c ∈ name, isPySpace c = false) (w : List Char) (hw : SpacedTokens w) :
    collapse (name ++ ' ' :: w) = name ++ ' ' :: w :=
  ST_collapse_eq _ (ST_append_space name w (ST_single name hn1 hn2) hw)

lemma process_text_eval (m out : List Char)
    (h : processBody (processTextF 1) m = some out) :
    process_text (String.mk m) = some (String.mk out) := by
  rw [process_text, show (String.mk m).data = m from rfl,
    show (2 : Nat) = 1 + 1 from rfl, processTextF, h]
  rfl

lemma cardinal_ST (d : List Char) (hd : ∀ c ∈ d, c.isDigit = true) (hlen : d.length ≤ 9) :
    SpacedTokens (cardinalSpec (natOfDigits d)).data :=
  (process_number_rendered (natOfDigits d) _
    (process_number_small (natOfDigits d) (natOfDigits_lt_billion d hd hlen))).2

lemma process_text_rs_space (d : List Char) (hne : d ≠ [])
    (hd : ∀ c ∈ d, c.isDigit = true) (hlen : d.length ≤ 9) :
    process_text (String.mk ('R' :: 's' :: ' ' :: d)) =
      some (String.mk ("Rupees".data ++ ' ' :: (cardinalSpec (natOfDigits d)).data)) := by
  have hsp : ∀ c ∈ [' '], isPySpace c = true := by decide
  have hbody := processBody_cur (processTextF 1) ('R' :: 's' :: ([' '] ++ d)) ['R', 's'] d
    (cardinalSpec (natOfDigits d)).data
    (letter_id_rsSp d hd)
    (no_char_in_predigits '%' ['R', 's', ' '] d (by decide) (by decide) hd)
    (symfree_predigits ['R', 's', ' '] d (by decide) hd)
    (tryCurrencyAlt_rsIn [' '] d hsp hne hd)
    (no_char_in_predigits '-' ['R', 's', ' '] d (by decide) (by decide) hd)
    (curMatchGroups_rsIn [' '] d hsp hne hd)
    (processTextF_one_digits d hne hd hlen)
  rw [show dictGet currency_symbols (String.mk ['R', 's']) (String.mk ['R', 's']) = "Rupees"
    from rfl] at hbody
  rw [collapse_name_words "Rupees".data (by decide) (by decide) _
    (cardinal_ST d hd hlen)] at hbody
  exact process_text_eval _ _ hbody

lemma process_text_one_sym (s : Char) (name : String)
    (hs : (s = '₹' ∧ name = "Rupees") ∨ (s = '$' ∧ name = "Dollars") ∨
      (s = '€' ∧ name = "Euros") ∨ (s = '£' ∧ name = "Pounds"))
    (sp : List Char) (hsp2 : sp = [] ∨ sp = [' '])
    (d : List Char) (hne : d ≠ [])
    (hd : ∀ c ∈ d, c.isDigit = true) (hlen : d.length ≤ 9) :
    process_text (String.mk (s :: (sp ++ d))) =
      some (String.mk (name.data ++ ' ' :: (cardinalSpec (natOfDigits d)).data)) := by
  have hs4 : s = '₹' ∨ s = '$' ∨ s = '€' ∨ s = '£' := by
    rcases hs with ⟨h, _⟩ | ⟨h, _⟩ | ⟨h, _⟩ | ⟨h, _⟩
    · exact Or.inl h
    · exact Or.inr (Or.inl h)
    · exact Or.inr (Or.inr (Or.inl h))
    · exact Or.inr (Or.inr (Or.inr h))
  have hspT : ∀ c ∈ sp, isPySpace c = true := by
    rcases hsp2 with h | h <;> subst h <;> decide
  have hpre1 : '%' ∉ s :: sp := by
    rcases hsp2 with h | h <;> subst h <;>
      rcases hs4 with h | h | h | h <;> subst h <;> decide
  have hpre2 : ∀ p ∈ symbols, p.1 ∉ s :: sp := by
    rcases hsp2 with h | h <;> subst h <;>
      rcases hs4 with h | h | h | h <;> subst h <;> decide
  have hpre3 : '-' ∉ s :: sp := by
    rcases hsp2 with h | h <;> subst h <;>
      rcases hs4 with h | h | h | h <;> subst h <;> decide
  have hname : dictGet currency_symbols (String.mk [s]) (String.mk [s]) = name := by
    rcases hs with ⟨h1, h2⟩ | ⟨h1, h2⟩ | ⟨h1, h2⟩ | ⟨h1, h2⟩ <;> subst h1 <;> subst h2 <;> rfl
  have hnameT : name.data ≠ [] ∧ ∀ c ∈ name.data, isPySpace c = false := by
    rcases hs with ⟨_, h2⟩ | ⟨_, h2⟩ | ⟨_, h2⟩ | ⟨_, h2⟩ <;> subst h2 <;> decide
  have hbody := processBody_cur (processTextF 1) (s :: (sp ++ d)) [s] d
    (cardinalSpec (natOfDigits d)).data
    (letter_id_oneSym s hs4 sp d hsp2 hd)
    (by
      intro hmem
      rcases List.mem_cons.mp hmem with h1 | h1
      · exact hpre1 (by rw [h1]; simp)
      · rcases List.mem_append.mp h1 with h2 | h2
        · exact hpre1 (by simp [h2])
        · exact absurd (hd '%' h2) (by decide))
    (by
      intro p hp hmem
      rcases List.mem_cons.mp hmem with h1 | h1
      · exact hpre2 p hp (by simp [h1])
      · rcases List.mem_append.mp h1 with h2 | h2
        · exact hpre2 p hp (by simp [h2])
        · have := hd p.1 h2
          rw [(symbols_table_countD p hp).1] at this
          exact absurd this (by simp))
    (tryCurrencyAlt_oneSym s sp d hs4 hspT hne hd)
    (by
      intro hmem
      rcases List.mem_cons.mp hmem with h1 | h1
      · exact hpre3 (by rw [h1]; simp)
      · rcases List.mem_append.mp h1 with h2 | h2
        · exact hpre3 (by simp [h2])
        · exact absurd (hd '-' h2) (by decide))
    (curMatchGroups_oneSym s sp d hs4 hspT hne hd)
    (processTextF_one_digits d hne hd hlen)
  rw [hname, collapse_name_words name.data hnameT.1 hnameT.2 _
    (cardinal_ST d hd hlen)] at hbody
  exact process_text_eval _ _ hbody

/-! ## No pass reintroduces a removed symbol character (for C5) -/

lemma pyStrip_subset (z : List Char) (c : Char) (h : c ∈ pyStrip z) : c ∈ z := by
  rw [pyStrip] at h
  rw [List.mem_reverse] at h
  have h1 := (List.dropWhile_sublist isPySpace).subset h
  rw [List.mem_reverse] at h1
  exact (List.dropWhile_sublist _).subset h1

lemma currency_values_good :
    ∀ p ∈ currency_symbols, ∀ x ∈ p.2.data, goodChar x = true := by decide

lemma eraStrs_good : ∀ e ∈ eraStrs, ∀ x ∈ e, goodChar x = true := by decide

lemma process_year_range_good (fy sy : List Char) (w : String)
    (h : process_year_range fy sy = some w) : ∀ x ∈ w.data, goodChar x = true := by
  rw [process_year_range] at h
  cases hp1 : pyInt (fy.drop 2) with
  | none => rw [hp1] at h; exact absurd h (by simp)
  | some n1 =>
    cases hp2 : pyInt sy with
    | none => rw [hp1, hp2] at h; exact absurd h (by simp)
    | some n2 =>
      rw [hp1, hp2] at h
      simp only [] at h
      cases hl1 : numberLookup n1 with
      | none => rw [hl1] at h; exact absurd h (by simp)
      | some w1 =>
        cases hl2 : numberLookup n2 with
        | none => rw [hl1, hl2] at h; exact absurd h (by simp)
        | some w2 =>
          rw [hl1, hl2] at h
          simp only [Option.some_inj] at h
          subst h
          intro x hx
          simp only [String.data_append] at hx
          rcases List.mem_append.mp hx with h1 | h1
          · rcases List.mem_append.mp h1 with h2 | h2
            · rcases List.mem_append.mp h2 with h3 | h3
              · rcases List.mem_append.mp h3 with h4 | h4
                · fin_cases h4 <;> decide
                · exact (numberLookup_token n1 w1 hl1).2 x h4 |>.1
              · fin_cases h3
                decide
            · fin_cases h2 <;> decide
          · exact (numberLookup_token n2 w2 hl2).2 x h1 |>.1

lemma yearGo_no_new (c : Char) (hgood : goodChar c = false) :
    ∀ (fuel : Nat) (cs out : List Char), c ∉ cs → yearGo fuel cs = some out →
      c ∉ out := by
  intro fuel
  induction fuel with
  | zero => intro cs out _ h; exact absurd h (by simp [yearGo])
  | succ fl ih =>
    intro cs out hcin h
    match cs with
    | [] =>
      rw [yearGo] at h
      simp only [Option.some_inj] at h
      rw [← h]
      simp
    | x :: rest =>
      rw [yearGo] at h
      cases hty : tryYearAlt (x :: rest) with
      | some fa =>
        rw [hty] at h
        simp only [] at h
        obtain ⟨a, b, c', d, e, f, hm, hsp, _⟩ := tryYearAlt_shape (x :: rest) fa hty
        rw [hm] at h
        simp only [] at h
        cases hpy : process_year_range [a, b, c', d] [e, f] with
        | none => rw [hpy] at h; exact absurd h (by simp)
        | some w =>
          rw [hpy] at h
          try simp only [] at h
          cases hyg : yearGo fl fa.2 with
          | none => rw [hyg] at h; exact absurd h (by simp)
          | some tail =>
            rw [hyg] at h
            simp only [Option.some_inj] at h
            subst h
            intro hmem
            rcases List.mem_append.mp hmem with h1 | h1
            · have := process_year_range_good [a, b, c', d] [e, f] w hpy c h1
              rw [this] at hgood
              exact absurd hgood (by simp)
            · have hfa2 : c ∉ fa.2 := by
                intro hmm
                exact hcin (by rw [hsp]; exact List.mem_append.mpr (Or.inr hmm))
              exact ih fa.2 tail hfa2 hyg h1
      | none =>
        rw [hty] at h
        simp only [] at h
        cases hyg : yearGo fl rest with
        | none => rw [hyg] at h; exact absurd h (by simp)
        | some tail =>
          rw [hyg] at h
          simp only [Option.some_inj] at h
          subst h
          intro hmem
          rcases List.mem_cons.mp hmem with h1 | h1
          · exact hcin (by simp [h1])
          · exact ih rest tail (fun hmm => hcin (by simp [hmm])) hyg h1

lemma curMatchGroups_fst (full : List Char) (gp : List Char × List Char)
    (h : curMatchGroups full = some gp) : ∃ r0, matchLit gp.1 full = some r0 := by
  rw [curMatchGroups] at h
  obtain ⟨sym, hsym, hinner⟩ := List.exists_of_findSome?_eq_some h
  cases hml : matchLit sym full with
  | none => rw [hml] at hinner; exact absurd hinner (by simp)
  | some r0 =>
    rw [hml] at hinner
    simp only [] at hinner
    by_cases htw : (r0.dropWhile isPySpace).takeWhile Char.isDigit = []
    · rw [if_pos htw] at hinner
      exact absurd hinner (by simp)
    · rw [if_neg htw] at hinner
      simp only [Option.some_inj] at hinner
      have hg1 : gp.1 = sym := by rw [← hinner]
      exact ⟨r0, by rw [hg1]; exact hml⟩

lemma process_match_no_new (c : Char) (hgood : goodChar c = false)
    (rec : List Char → Option (List Char))
    (hrec : ∀ x w, rec x = some w → c ∉ w) (full out : List Char)
    (hcin : c ∉ full) (h : process_match rec full = some out) : c ∉ out := by
  have hgc : ∀ (v : String), (∀ x ∈ v.data, goodChar x = true) → c ∉ v.data := by
    intro v hv hmem
    rw [hv c hmem] at hgood
    exact absurd hgood (by simp)
  rw [process_match] at h
  by_cases hy : yearSearch full = true
  · rw [if_pos hy] at h
    exact yearGo_no_new c hgood (full.length + 1) full out hcin h
  · rw [if_neg hy] at h
    cases hcm : curMatchGroups full with
    | some gp =>
      rw [hcm] at h
      simp only [] at h
      rw [handle_currency] at h
      cases hr : rec gp.2 with
      | none => rw [hr] at h; exact absurd h (by simp)
      | some w =>
        rw [hr] at h
        simp only [Option.some_inj] at h
        subst h
        intro hmem
        rcases List.mem_append.mp hmem with h1 | h1
        · rcases dictGet_cases currency_symbols (String.mk gp.1) (String.mk gp.1) with
            he | ⟨p, hp, he⟩
          · rw [he] at h1
            obtain ⟨r0, hml⟩ := curMatchGroups_fst full gp hcm
            have := matchLit_eq gp.1 full r0 hml
            exact hcin (by rw [this]; exact List.mem_append.mpr (Or.inl h1))
          · rw [he] at h1
            exact hgc p.2 (currency_values_good p hp) h1
        · rcases List.mem_cons.mp h1 with h2 | h2
          · rw [h2] at hgood
            exact absurd hgood (by simp [goodChar])
          · exact hrec gp.2 w hr h2
    | none =>
      rw [hcm] at h
      simp only [] at h
      cases hnm : numMatchGroups full with
      | none =>
        rw [hnm] at h
        simp only [Option.some_inj] at h
        subst h
        exact hcin
      | some gp =>
        rw [hnm] at h
        simp only [] at h
        obtain ⟨_, _, _, _, _, hg2⟩ := numMatchGroups_shape full gp hnm
        have hgp2 : c ∉ gp.2 := by
          rcases hg2 with h1 | h1
          · rw [h1]; simp
          · intro hmem
            have := eraStrs_good gp.2 h1 c hmem
            rw [this] at hgood
            exact absurd hgood (by simp)
        have hout : ∀ (w : String), (∀ x ∈ w.data, goodChar x = true) →
            c ∉ pyStrip (w.data ++ ' ' :: gp.2) := by
          intro w hw hmem
          have h1 := pyStrip_subset _ c hmem
          rcases List.mem_append.mp h1 with h2 | h2
          · exact hgc w hw h2
          · rcases List.mem_cons.mp h2 with h3 | h3
            · rw [h3] at hgood
              exact absurd hgood (by simp [goodChar])
            · exact hgp2 h3
        by_cases hdot : '.' ∈ gp.1
        · rw [if_pos hdot] at h
          cases hhd : handle_decimal gp.1 with
          | none => rw [hhd] at h; exact absurd h (by simp)
          | some w =>
            rw [hhd] at h
            simp only [Option.some_inj] at h
            subst h
            exact hout w (handle_decimal_good gp.1 w hhd)
        · rw [if_neg hdot] at h
          cases hpi : pyInt gp.1 with
          | none => rw [hpi] at h; exact absurd h (by simp)
          | some n =>
            rw [hpi] at h
            simp only [] at h
            cases hpn : process_number n with
            | none => rw [hpn] at h; exact absurd h (by simp)
            | some w =>
              rw [hpn] at h
              simp only [Option.some_inj] at h
              subst h
              exact hout w (process_number_rendered n w hpn).1

lemma spanGo_no_new (c : Char) (hgood : goodChar c = false)
    (rec : List Char → Option (List Char))
    (hrec : ∀ x w, rec x = some w → c ∉ w) :
    ∀ (fuel : Nat) (cs out : List Char), c ∉ cs → spanGo rec fuel cs = some out →
      c ∉ out := by
  intro fuel
  induction fuel with
  | zero => intro cs out _ h; exact absurd h (by simp [spanGo])
  | succ f ih =>
    intro cs out hcin h
    match cs with
    | [] =>
      rw [spanGo] at h
      simp only [Option.some_inj] at h
      rw [← h]
      simp
    | c0 :: rest =>
      have hstep : ∀ (fa : List Char × List Char), fa.1 ++ fa.2 = c0 :: rest →
          (match process_match rec fa.1, spanGo rec f fa.2 with
            | some r, some tail => some (r ++ tail)
            | _, _ => none) = some out → c ∉ out := by
        intro fa hsp hm
        have hfa1 : c ∉ fa.1 := fun hmm => hcin (by
          rw [← hsp]; exact List.mem_append.mpr (Or.inl hmm))
        have hfa2 : c ∉ fa.2 := fun hmm => hcin (by
          rw [← hsp]; exact List.mem_append.mpr (Or.inr hmm))
        cases hpm : process_match rec fa.1 with
        | none => rw [hpm] at hm; exact absurd hm (by simp)
        | some r =>
          rw [hpm] at hm
          try simp only [] at hm
          cases hsg : spanGo rec f fa.2 with
          | none => rw [hsg] at hm; exact absurd hm (by simp)
          | some tail =>
            rw [hsg] at hm
            simp only [Option.some_inj] at hm
            subst hm
            intro hmem
            rcases List.mem_append.mp hmem with h1 | h1
            · exact process_match_no_new c hgood rec hrec fa.1 r hfa1 hpm h1
            · exact ih fa.2 tail hfa2 hsg h1
      rw [spanGo] at h
      cases htc : tryCurrencyAlt (c0 :: rest) with
      | some fa =>
        rw [htc] at h
        simp only [] at h
        exact hstep fa (tryCurrencyAlt_split _ fa htc).1 h
      | none =>
        rw [htc] at h
        simp only [] at h
        cases htn : tryNumAlt (c0 :: rest) with
        | some fa =>
          rw [htn] at h
          simp only [] at h
          exact hstep fa (tryNumAlt_split _ fa htn).1 h
        | none =>
          rw [htn] at h
          simp only [] at h
          cases hty : tryYearAlt (c0 :: rest) with
          | some fa =>
            rw [hty] at h
            simp only [] at h
            refine hstep fa ?_ h
            obtain ⟨a, b, c', d, e, f', hm, hsp, _⟩ := tryYearAlt_shape _ fa hty
            exact hsp.symm
          | none =>
            rw [hty] at h
            simp only [] at h
            cases hsg : spanGo rec f rest with
            | none => rw [hsg] at h; exact absurd h (by simp)
            | some tail =>
              rw [hsg] at h
              simp only [Option.some_inj] at h
              subst h
              intro hmem
              rcases List.mem_cons.mp hmem with h1 | h1
              · exact hcin (by simp [h1])
              · exact ih rest tail (fun hmm => hcin (by simp [hmm])) hsg h1

lemma symbols_not_good : ∀ p ∈ symbols, goodChar p.1 = false := by decide

lemma processBody_no_sym (c : Char) (wd : String) (hmem : (c, wd) ∈ symbols)
    (hne : c ≠ '%') (rec : List Char → Option (List Char))
    (hrec : ∀ x w, rec x = some w → c ∉ w) (t out : List Char)
    (h : processBody rec t = some out) : c ∉ out := by
  rw [processBody] at h
  cases h1 : process_letter_number_combination t with
  | none => rw [h1] at h; exact absurd h (by simp)
  | some t1 =>
    rw [h1] at h
    simp only [] at h
    cases h2 : pctGo rec (t1.length + 1) t1 with
    | none => rw [h2] at h; exact absurd h (by simp)
    | some t2 =>
      rw [h2] at h
      simp only [] at h
      cases h3 : spanGo rec ((symbolPass t2).length + 1) (symbolPass t2) with
      | none => rw [h3] at h; exact absurd h (by simp)
      | some t4 =>
        rw [h3] at h
        simp only [Option.some_inj] at h
        subst h
        have hc3 : c ∉ symbolPass t2 := symbolPass_removes t2 c wd hmem hne
        have hc4 : c ∉ t4 := spanGo_no_new c (symbols_not_good (c, wd) hmem) rec hrec
          ((symbolPass t2).length + 1) (symbolPass t2) t4 hc3 h3
        intro hmm
        rcases mem_collapse t4 c hmm with hh | hh
        · exact hc4 hh
        · exact symbols_not_space (c, wd) hmem hh

lemma processTextF_no_sym (c : Char) (wd : String) (hmem : (c, wd) ∈ symbols)
    (hne : c ≠ '%') : ∀ (n : Nat) (x w : List Char), processTextF n x = some w →
      c ∉ w := by
  intro n
  induction n with
  | zero => intro x w h; exact absurd h (by simp [processTextF])
  | succ m ih =>
    intro x w h
    rw [processTextF] at h
    exact processBody_no_sym c wd hmem hne (processTextF m) ih x w h

/-! ## Plumbing between the string-level entry point and the pipeline body -/

lemma string_mk_data (s : String) : String.mk s.data = s := by
  cases s
  rfl

lemma process_text_some (t s : String) (h : process_text t = some s) :
    processTextF 2 t.data = some s.data := by
  rw [process_text] at h
  cases hp : processTextF 2 t.data with
  | none => rw [hp] at h; exact absurd h (by simp)
  | some out =>
    rw [hp] at h
    simp only [Option.map_some', Option.some_inj] at h
    rw [← h]

lemma process_text_of_body (t : String) (out : List Char)
    (h : processTextF 2 t.data = some out) :
    process_text t = some (String.mk out) := by
  rw [process_text, h]
  rfl

/-! ## The claims -/

/-- Claim C1: `process_text` is not total over every input string (the
0..99 lookup raises `KeyError` on a scale count of 100 or more, e.g. on
the digit run `1000000000`; the same happens on a run of ten or more
non-ASCII Unicode decimal digits, which Python's `\d` and `int()` also
accept), but on ASCII-only input, where this embedding of `\d`, `\s`,
`int()` and `re.IGNORECASE` is exact, it is total whenever the input has
at most nine digit characters. -/
theorem C1_process_text_total_small (t : String)
    (_hascii : ∀ c ∈ t.data, c.toNat < 128) (h : countD t.data ≤ 9) :
    ∃ s, process_text t = some s := by
  obtain ⟨out, hout⟩ := processTextF_two_total t.data h
  exact ⟨String.mk out, process_text_of_body t out hout⟩

/-- Witness for claim C1 at a concrete ASCII seven-digit input. -/
theorem C1_process_text_total_small_witness :
    (∀ c ∈ "Rs 10237.33 crore".data, c.toNat < 128) ∧
      countD "Rs 10237.33 crore".data ≤ 9 ∧
      ∃ s, process_text "Rs 10237.33 crore" = some s :=
  ⟨by decide, by decide,
    C1_process_text_total_small "Rs 10237.33 crore" (by decide) (by decide)⟩

/-- Counterexample for claim C1: a digit run denoting one hundred crore
makes the crore count 100, the lookup raises, and the exception escapes
`process_text`. -/
theorem C1_crore_overflow : process_text "1000000000" = none := by decide

/-- Claim C2: the pipeline never routes `"2024-25"` to the year-range
handler: the generic numeral alternative of the span pattern matches
`"2024"` first, so the output is `"two thousand, twenty-four-twenty-five"`,
even though the dedicated `_process_year_range` handler, applied to the
captured halves as the spec describes, would produce
`"twenty twenty-four-twenty twenty-five"`. -/
theorem C2_year_range_dead_code :
    process_text "2024-25" = some "two thousand, twenty-four-twenty-five" ∧
      process_year_range "2024".data "25".data =
        some "twenty twenty-four-twenty twenty-five" :=
  ⟨by decide, by decide⟩

/-- Claim C3: a numeral token with two decimal points is not returned
unchanged: the span pattern captures only `12.34`, which is rendered as a
decimal, and `.56` is reparsed separately. -/
theorem C3_multidot_reparsed :
    process_text "12.34.56" = some "twelve point three four.fifty-six" := by decide

/-- Counterexample for claim C3: the original token is not preserved. -/
theorem C3_not_unchanged : process_text "12.34.56" ≠ some "12.34.56" := by decide

/-- Claim C4: the cardinal converter follows the documented decomposition
rule (crore, lakh, thousand, hundred in fixed descending order, one
segment per nonzero count, leftover below 100 via the 0..99 lookup,
comma-joined) for every value it accepts, including the quoted examples. -/
theorem C4_cardinal_decomposition :
    (∀ n : Nat, n < 1000000000 → process_number n = some (cardinalSpec n)) ∧
      process_number 0 = some "zero" ∧ process_number 19 = some "nineteen" ∧
      process_number 43 = some "forty-three" ∧
      process_number 100 = some "one hundred" ∧
      process_number 125000 = some "one lakh, twenty-five thousand" :=
  ⟨process_number_eq_cardinalSpec, by decide, by decide, by decide, by decide, by decide⟩

/-- Witness for claim C4 at the concrete value 10237. -/
theorem C4_cardinal_decomposition_witness :
    10237 < 1000000000 ∧ process_number 10237 = some (cardinalSpec 10237) :=
  ⟨by decide, C4_cardinal_decomposition.1 10237 (by decide)⟩

/-- Claim C5: every table symbol other than the percent sign is absent
from any string `process_text` returns (the percent sign itself can
survive, so the claim as stated fails). -/
theorem C5_symbols_expanded (p : Char × String) (hp : p ∈ symbols)
    (hne : p.1 ≠ '%') (t s : String) (h : process_text t = some s) :
    p.1 ∉ s.data := by
  obtain ⟨c, wd⟩ := p
  have h2 := process_text_some t s h
  rw [show (2 : Nat) = 1 + 1 from rfl, processTextF] at h2
  exact processBody_no_sym c wd hp hne (processTextF 1)
    (fun x w hw => processTextF_no_sym c wd hp hne 1 x w hw) t.data s.data h2

/-- Witness for claim C5: the at sign never survives. -/
theorem C5_symbols_expanded_witness :
    ('@', "at") ∈ symbols ∧ ('@' : Char) ≠ '%' ∧
      process_text "a@b" = some "a at b" ∧ '@' ∉ "a at b".data :=
  ⟨by decide, by decide, by decide,
    C5_symbols_expanded ('@', "at") (by decide) (by decide) "a@b" "a at b" (by decide)⟩

/-- Counterexample for claim C5: a bare percent sign with no preceding
numeral survives untouched, so the table is not fully expanded. -/
theorem C5_pct_survives :
    process_text "%" = some "%" ∧ ('%', "percent") ∈ symbols ∧ '%' ∈ "%".data :=
  ⟨by decide, by decide, by decide⟩

/-- Claim C6: the letter-prefix pass matches prefixes case-insensitively,
but the table expansion applies only to the exact-case key: `Q1` and
`Fig1` expand as documented while `fig1` and `FIG1` keep their own
spelling of the prefix. -/
theorem C6_letter_prefix_cases :
    process_text "Q1" = some "Quarter one" ∧
      process_text "Fig1" = some "Figure one" ∧
      process_text "fig1" = some "fig one" ∧
      process_text "FIG1" = some "FIG one" :=
  ⟨by decide, by decide, by decide, by decide⟩

/-- Counterexample for claim C6: a lower-case prefix is not given the
table expansion word. -/
theorem C6_case_matters : process_text "fig1" ≠ some "Figure one" := by decide

/-- Claim C7: a currency symbol followed by a space and an integer
numeral of at most nine digits is replaced by the currency name and the
amount in words; the space may be omitted for the one-character symbols,
but not for `Rs` (see the counterexample). -/
theorem C7_currency_expansion (sym : List Char) (hsym : sym ∈ curSyms)
    (d : List Char) (hne : d ≠ []) (hd : ∀ c ∈ d, c.isDigit = true)
    (hlen : d.length ≤ 9) :
    process_text (String.mk (sym ++ ' ' :: d)) =
      some (String.mk ((dictGet currency_symbols (String.mk sym) (String.mk sym)).data
        ++ ' ' :: (cardinalSpec (natOfDigits d)).data)) ∧
    (sym ≠ ['R', 's'] → process_text (String.mk (sym ++ d)) =
      some (String.mk ((dictGet currency_symbols (String.mk sym) (String.mk sym)).data
        ++ ' ' :: (cardinalSpec (natOfDigits d)).data))) := by
  rw [show curSyms = [['R', 's'], ['₹'], ['$'], ['€'], ['£']] from rfl] at hsym
  simp only [List.mem_cons, List.not_mem_nil, or_false] at hsym
  rcases hsym with hs | hs | hs | hs | hs <;> subst hs
  · exact ⟨process_text_rs_space d hne hd hlen, fun hcon => absurd rfl hcon⟩
  · exact ⟨process_text_one_sym '₹' "Rupees" (Or.inl ⟨rfl, rfl⟩) [' '] (Or.inr rfl)
        d hne hd hlen,
      fun _ => process_text_one_sym '₹' "Rupees" (Or.inl ⟨rfl, rfl⟩) [] (Or.inl rfl)
        d hne hd hlen⟩
  · exact ⟨process_text_one_sym '$' "Dollars" (Or.inr (Or.inl ⟨rfl, rfl⟩)) [' ']
        (Or.inr rfl) d hne hd hlen,
      fun _ => process_text_one_sym '$' "Dollars" (Or.inr (Or.inl ⟨rfl, rfl⟩)) []
        (Or.inl rfl) d hne hd hlen⟩
  · exact ⟨process_text_one_sym '€' "Euros" (Or.inr (Or.inr (Or.inl ⟨rfl, rfl⟩))) [' ']
        (Or.inr rfl) d hne hd hlen,
      fun _ => process_text_one_sym '€' "Euros" (Or.inr (Or.inr (Or.inl ⟨rfl, rfl⟩))) []
        (Or.inl rfl) d hne hd hlen⟩
  · exact ⟨process_text_one_sym '£' "Pounds" (Or.inr (Or.inr (Or.inr ⟨rfl, rfl⟩))) [' ']
        (Or.inr rfl) d hne hd hlen,
      fun _ => process_text_one_sym '£' "Pounds" (Or.inr (Or.inr (Or.inr ⟨rfl, rfl⟩))) []
        (Or.inl rfl) d hne hd hlen⟩

/-- Witness for claim C7 at `Rs 100` and at the attached form `₹100`. -/
theorem C7_currency_expansion_witness :
    process_text "Rs 100" = some "Rupees one hundred" ∧
      process_text "₹100" = some "Rupees one hundred" := by
  constructor
  · rw [show ("Rs 100" : String) = String.mk (['R', 's'] ++ ' ' :: ['1', '0', '0'])
        from by decide,
      show ("Rupees one hundred" : String) = String.mk
        ((dictGet currency_symbols (String.mk ['R', 's']) (String.mk ['R', 's'])).data
          ++ ' ' :: (cardinalSpec (natOfDigits ['1', '0', '0'])).data) from by decide]
    exact (C7_currency_expansion ['R', 's'] (by decide) ['1', '0', '0'] (by decide)
      (by decide) (by decide)).1
  · rw [show ("₹100" : String) = String.mk (['₹'] ++ ['1', '0', '0']) from by decide,
      show ("Rupees one hundred" : String) = String.mk
        ((dictGet currency_symbols (String.mk ['₹']) (String.mk ['₹'])).data
          ++ ' ' :: (cardinalSpec (natOfDigits ['1', '0', '0'])).data) from by decide]
    exact (C7_currency_expansion ['₹'] (by decide) ['1', '0', '0'] (by decide)
      (by decide) (by decide)).2 (by decide)

/-- Counterexample for claim C7: `Rs` directly attached to the numeral is
consumed by the letter-number pass first, so the currency name is never
substituted. -/
theorem C7_attached_rs :
    process_text "Rs5" = some "Rs five" ∧
      process_text "Rs5" ≠ some "Rupees five" :=
  ⟨by decide, by decide⟩

/-- Claim C8: on any output of `process_text` that contains no digits and
no table symbol, a second run of `process_text` is the identity. -/
theorem C8_idempotent_on_clean (t s : String) (h : process_text t = some s)
    (hd : ∀ c ∈ s.data, c.isDigit = false)
    (hsym : ∀ p ∈ symbols, p.1 ∉ s.data) :
    process_text s = some s := by
  have h2 := process_text_some t s h
  rw [show (2 : Nat) = 1 + 1 from rfl, processTextF] at h2
  have hcol : collapse s.data = s.data :=
    processBody_out (processTextF 1) t.data s.data h2
  have h4 : processTextF 2 s.data = some s.data := by
    rw [show (2 : Nat) = 1 + 1 from rfl, processTextF]
    exact processBody_clean_id (processTextF 1) s.data hd hsym hcol
  have h5 := process_text_of_body s s.data h4
  rw [string_mk_data] at h5
  exact h5

/-- Witness for claim C8 on the output of `process_text "5"`. -/
theorem C8_idempotent_on_clean_witness :
    process_text "5" = some "five" ∧ (∀ c ∈ "five".data, c.isDigit = false) ∧
      (∀ p ∈ symbols, p.1 ∉ "five".data) ∧ process_text "five" = some "five" :=
  ⟨by decide, by decide, by decide,
    C8_idempotent_on_clean "5" "five" (by decide) (by decide) (by decide)⟩

/-- Claim C9: recursion depth two suffices for every input: the handlers
re-enter `process_text` only on bare numeral substrings, on which no
further recursion happens, so the pipeline is a total function of the
text at depth two. -/
theorem C9_depth_two (t : String) (n : Nat) :
    processTextF (n + 2) t.data = processTextF 2 t.data ∧
      process_text t = (processTextF (n + 2) t.data).map String.mk := by
  refine ⟨processTextF_depth t.data n, ?_⟩
  rw [processTextF_depth t.data n, process_text]

/-- Claim C10: the five anusvara substitutions commute: any permutation
of the rule list produces the same output as the implemented order. -/
theorem C10_order_independent (order : List (List Char × Char))
    (hp : order.Perm mappings) (s : String) :
    String.mk (applyMappings order s.data) = normalize_text s := by
  rw [normalize_text, applyMappings_perm order hp]

/-- Witness for claim C10 on the reversed rule list and the script's own
example sentence. -/
theorem C10_order_independent_witness :
    mappings.reverse.Perm mappings ∧
      String.mk (applyMappings mappings.reverse "कंप, बंब, संभाजी".data) =
        normalize_text "कंप, बंब, संभाजी" :=
  ⟨by decide, C10_order_independent mappings.reverse (by decide) "कंप, बंब, संभाजी"⟩
